import Mathlib

/-!
Shallow embedding of the CLAWEE decision-pipeline core, translated from the
TypeScript sources:

* `src/utils.ts`                      — `stableStringify`, canonical serialization
* `src/unnamed/part_004`              — `PolicyEngine.evaluate`
* `src/security-invariants.ts`        — `decisionFromRule`, `CapabilityPolicyEngine`
* `src/channel-destination-policy.ts` — `BudgetController`
* `src/channel-hub.ts`                — `ApprovalService`
* `src/unnamed/part_003`              — `ApprovalAttestationService`

Modelling conventions:
* JavaScript runtime values that can appear in a JSON document are modelled by
  the inductive type `JVal` (with an explicit `jundef` constructor for the JS
  `undefined` value).  Numbers are modelled as `Int`; the claims under study
  never depend on non-integral JSON numbers inside serialized documents, and
  monetary amounts are modelled as `Rat` where they occur.
* ISO-8601 timestamp strings (fixed-width `Date.toISOString` output) are
  order-isomorphic to the underlying epoch milliseconds, so timestamps are
  modelled as `Int` epoch milliseconds and SQL string comparisons over them as
  integer comparisons.
* Cryptographic primitives (SHA-256, HMAC-SHA256) are kept abstract: the
  definitions take the digest function as an explicit argument, exactly where
  `crypto.createHash("sha256")` / `createHmac` appear in the source.
-/

/-- Characters are compared by code point, mirroring the JS comparison of
UTF-16 code units (they agree on the basic multilingual plane). -/
def charLtB (a b : Char) : Bool := a.toNat < b.toNat

/-- Lexicographic order on strings as lists of characters, mirroring the
default JS string comparison used by `Array.prototype.sort`. -/
def strLtListB : List Char → List Char → Bool
  | [], [] => false
  | [], _ :: _ => true
  | _ :: _, [] => false
  | a :: as, b :: bs => if charLtB a b then true else if charLtB b a then false else strLtListB as bs

def strLtB (a b : String) : Bool := strLtListB a.data b.data

/-- `pat` is a prefix of `s` (character lists). -/
def isPrefixListB : List Char → List Char → Bool
  | [], _ => true
  | _ :: _, [] => false
  | p :: ps, c :: cs => p == c && isPrefixListB ps cs

/-- `pat` occurs contiguously inside `s` (character lists). -/
def isSubListB : List Char → List Char → Bool
  | pat, [] => pat.isEmpty
  | pat, c :: cs => isPrefixListB pat (c :: cs) || isSubListB pat cs

/-- Models JS `String.prototype.includes`. -/
def containsB (s pat : String) : Bool := isSubListB pat.data s.data

/-- Models JS `String.prototype.startsWith`. -/
def startsWithB (s pre : String) : Bool := isPrefixListB pre.data s.data

/-- Models JS `String.prototype.toLowerCase` (ASCII range, which is all the
sources rely on). -/
def toLowerStr (s : String) : String := ⟨s.data.map Char.toLower⟩

/-- Models JS `String.prototype.trim`. -/
def trimList (l : List Char) : List Char :=
  ((l.dropWhile Char.isWhitespace).reverse.dropWhile Char.isWhitespace).reverse

def trimStr (s : String) : String := ⟨trimList s.data⟩

/-- Stable insertion of a string into a list, placing equal keys after the
existing ones (JS `Array.prototype.sort` is stable). -/
def insertStr (x : String) : List String → List String
  | [] => [x]
  | y :: ys => if strLtB x y then x :: y :: ys else y :: insertStr x ys

/-- Models JS `Array.prototype.sort()` on string arrays (stable, lexicographic
by code unit). -/
def sortStrs : List String → List String
  | [] => []
  | x :: xs => insertStr x (sortStrs xs)

/-- Deduplication keeping the first occurrence, the iteration order of a JS
`Set` built by successive insertions. -/
def dedupFirst : List String → List String
  | [] => []
  | x :: xs => x :: dedupFirst (xs.filter (fun y => y ≠ x))
  termination_by l => l.length
  decreasing_by
    simp only [List.length_cons]
    exact Nat.lt_succ_of_le (List.length_filter_le _ _)

/-- Computable floor of a rational (kernel-reducible, unlike the `FloorRing`
projection). -/
def ratFloor (q : Rat) : Int := Int.fdiv q.num q.den

/-- JSON-representable JS runtime values, with an explicit constructor for the
JS `undefined` value.  Object fields are kept in insertion order; real JS
objects have pairwise distinct keys. -/
inductive JVal where
  | jnull : JVal
  | jundef : JVal
  | jbool : Bool → JVal
  | jnum : Int → JVal
  | jstr : String → JVal
  | jarr : List JVal → JVal
  | jobj : List (String × JVal) → JVal

def lbraceC : Char := Char.ofNat 123
def rbraceC : Char := Char.ofNat 125

def hexDigitChar (n : Nat) : Char :=
  if n < 10 then Char.ofNat ('0'.toNat + n) else Char.ofNat ('a'.toNat + n - 10)

/-- JSON string escaping as performed by `JSON.stringify`. -/
def escapeChar (c : Char) : List Char :=
  if c = '"' then ['\\', '"']
  else if c = '\\' then ['\\', '\\']
  else if c = '\n' then ['\\', 'n']
  else if c = '\t' then ['\\', 't']
  else if c = '\r' then ['\\', 'r']
  else if c = Char.ofNat 8 then ['\\', 'b']
  else if c = Char.ofNat 12 then ['\\', 'f']
  else if c.toNat < 32 then
    ['\\', 'u', '0', '0', hexDigitChar (c.toNat / 16), hexDigitChar (c.toNat % 16)]
  else [c]

/-- `JSON.stringify` of a string value. -/
def serStr (s : String) : List Char := '"' :: ((s.data.map escapeChar).flatten ++ ['"'])

/-- `JSON.stringify` of an (integral) number value. -/
def serNum (n : Int) : List Char := (toString n).data

/-- Comma-joining of already serialized parts. -/
def joinComma : List (List Char) → List Char
  | [] => []
  | [p] => p
  | p :: q :: rest => p ++ ',' :: joinComma (q :: rest)

mutual
/-- Body of `JSON.stringify` on a defined value: insertion-order keys,
`undefined` array items become `null`, `undefined` object fields are skipped.
(The `jundef` case is only reachable as an array item.) -/
def jsSer : JVal → List Char
  | .jnull => ['n', 'u', 'l', 'l']
  | .jundef => ['n', 'u', 'l', 'l']
  | .jbool true => ['t', 'r', 'u', 'e']
  | .jbool false => ['f', 'a', 'l', 's', 'e']
  | .jnum n => serNum n
  | .jstr s => serStr s
  | .jarr items => '[' :: (joinComma (jsSerItemParts items) ++ [']'])
  | .jobj fields => lbraceC :: (joinComma (jsSerFieldParts fields) ++ [rbraceC])

def jsSerItemParts : List JVal → List (List Char)
  | [] => []
  | v :: rest => jsSer v :: jsSerItemParts rest

def jsSerFieldParts : List (String × JVal) → List (List Char)
  | [] => []
  | (_, .jundef) :: rest => jsSerFieldParts rest
  | (k, v) :: rest => (serStr k ++ ':' :: jsSer v) :: jsSerFieldParts rest
end

/-- Models `JSON.stringify`: `none` exactly when the JS call returns the
`undefined` value (top-level `undefined` input). -/
def jsStringify : JVal → Option String
  | .jundef => none
  | v => some ⟨jsSer v⟩

/-- Stable insertion for key/serialization pairs (stable sort by key). -/
def insertPair (x : String × List Char) : List (String × List Char) → List (String × List Char)
  | [] => [x]
  | y :: ys => if strLtB x.1 y.1 then x :: y :: ys else y :: insertPair x ys

def sortPairs : List (String × List Char) → List (String × List Char)
  | [] => []
  | x :: xs => insertPair x (sortPairs xs)

mutual
/-- `stableStringify` from `src/utils.ts`, modelling the JS return value:
`none` is the JS `undefined` value (returned for an `undefined` input, since
`typeof undefined !== "object"` and `JSON.stringify(undefined)` is
`undefined`). -/
def stableSerCore : JVal → Option (List Char)
  | .jundef => none
  | .jnull => some ['n', 'u', 'l', 'l']
  | .jbool true => some ['t', 'r', 'u', 'e']
  | .jbool false => some ['f', 'a', 'l', 's', 'e']
  | .jnum n => some (serNum n)
  | .jstr s => some (serStr s)
  | .jarr items => some ('[' :: (joinComma (stableItemParts items) ++ [']']))
  | .jobj fields =>
      some (lbraceC :: (joinComma ((sortPairs (stableFieldParts fields)).map
        (fun kv => serStr kv.1 ++ ':' :: kv.2)) ++ [rbraceC]))

/-- Array items: a recursive call returning `undefined` contributes the empty
string, because `Array.prototype.join` renders `undefined` as `""`. -/
def stableItemParts : List JVal → List (List Char)
  | [] => []
  | v :: rest =>
      (match stableSerCore v with
        | none => []
        | some cs => cs) :: stableItemParts rest

/-- Object fields: the recursive result is interpolated into a template
literal, so the `undefined` value renders as the bare token `undefined`. -/
def stableFieldParts : List (String × JVal) → List (String × List Char)
  | [] => []
  | (k, v) :: rest =>
      (k, match stableSerCore v with
        | none => ['u', 'n', 'd', 'e', 'f', 'i', 'n', 'e', 'd']
        | some cs => cs) :: stableFieldParts rest
end

/-- Total wrapper for call sites that always pass an object (every use of
`stableStringify` in the sources serializes an object literal). -/
def stableStringify (v : JVal) : String := ⟨(stableSerCore v).getD []⟩

/-! ## Policy engine (`src/unnamed/part_004`, `PolicyEngine`) -/

namespace Policy

inductive DecisionType where
  | allow | require_approval | block
  deriving DecidableEq, Repr

inductive RiskClass where
  | low | medium | high | critical
  deriving DecidableEq, Repr

/-- `ModelModality` from the model registry. -/
inductive Modality where
  | text | vision | audio | safety | embedding
  deriving DecidableEq, Repr

def Modality.toStr : Modality → String
  | .text => "text"
  | .vision => "vision"
  | .audio => "audio"
  | .safety => "safety"
  | .embedding => "embedding"

structure PolicyInput where
  path : String
  method : String
  body : JVal
  model : String
  modality : Modality
  toolNames : List String

structure PolicyDecision where
  decision : DecisionType
  reason : String
  riskClass : RiskClass
  matchedSignals : List String
  deriving DecidableEq, Repr

structure PolicyEngineOptions where
  highRiskTools : Option (List String) := none
  criticalPatterns : Option (List String) := none
  highRiskPatterns : Option (List String) := none

def DEFAULT_HIGH_RISK_TOOLS : List String :=
  ["execute_bash", "shell", "terminal", "write_file", "delete_file", "execute_sql",
   "run_sql", "database_query", "browser_control"]

def DEFAULT_CRITICAL_PATTERNS : List String :=
  ["drop table", "truncate table", "rm -rf", "delete from", "format c:",
   "powershell -encodedcommand"]

def DEFAULT_HIGH_RISK_PATTERNS : List String :=
  ["prod", "production", "secret", "token", "password", "api key", "exfiltrate",
   "export data"]

/-- `normalize` from the policy engine: trim, lowercase, drop empties, then a JS
`Set` (dedup keeping first occurrence, iterated in insertion order). -/
def normalize (values : List String) : List String :=
  dedupFirst ((values.map (fun v => toLowerStr (trimStr v))).filter (fun v => v ≠ ""))

/-- Normalized rule state of a `PolicyEngine` after `updateRules`. -/
structure PolicyRules where
  highRiskTools : List String
  criticalPatterns : List String
  highRiskPatterns : List String

/-- `updateRules`: an absent (or JS-falsy, i.e. absent) option falls back to the
defaults; an empty array is truthy in JS and is kept. -/
def updateRules (options : Option PolicyEngineOptions) : PolicyRules :=
  { highRiskTools := normalize (((options.bind (·.highRiskTools)).getD DEFAULT_HIGH_RISK_TOOLS))
    criticalPatterns := normalize (((options.bind (·.criticalPatterns)).getD DEFAULT_CRITICAL_PATTERNS))
    highRiskPatterns := normalize (((options.bind (·.highRiskPatterns)).getD DEFAULT_HIGH_RISK_PATTERNS)) }

/-- `toText`: `JSON.stringify(payload).toLowerCase()`, with the thrown
`TypeError` on an `undefined` serialization caught and turned into `""`. -/
def toText (payload : JVal) : String :=
  match jsStringify payload with
  | none => ""
  | some s => toLowerStr s

/-- The matched-signal list built by `PolicyEngine.evaluate`, in push order
(`normalized`, `bodyText`, `lowerPath` and `lowerMethod` written out). -/
def signalsOf (e : PolicyRules) (input : PolicyInput) : List String :=
  (input.toolNames.filterMap (fun name =>
      if e.highRiskTools.contains (toLowerStr name) then
        some ("high-risk-tool:" ++ toLowerStr name)
      else none)) ++
  (e.criticalPatterns.filterMap (fun pattern =>
      if containsB (toText input.body) pattern then
        some ("critical-pattern:" ++ pattern)
      else none)) ++
  (e.highRiskPatterns.filterMap (fun pattern =>
      if containsB (toText input.body) pattern then
        some ("high-risk-pattern:" ++ pattern)
      else none)) ++
  (if (containsB (toLowerStr input.path) "admin" || containsB (toLowerStr input.path) "system") &&
      (toLowerStr input.method != "get")
    then ["high-risk-path:admin-system"] else []) ++
  (if input.modality = .audio ∨ input.modality = .vision
    then ["modality:" ++ input.modality.toStr] else [])

/-- `PolicyEngine.evaluate`. -/
def evaluate (e : PolicyRules) (input : PolicyInput) : PolicyDecision :=
  let signals := signalsOf e input
  let hasCritical := signals.any (fun signal => startsWithB signal "critical-pattern")
  let hasHighRisk := signals.any (fun signal => startsWithB signal "high-risk")
  if hasCritical then
    { decision := .block
      reason := "Critical destructive pattern detected."
      riskClass := .critical
      matchedSignals := signals }
  else if hasHighRisk then
    { decision := .require_approval
      reason := "High-risk action requires approval."
      riskClass := .high
      matchedSignals := signals }
  else
    { decision := .allow
      reason := "No high-risk policy signals detected."
      riskClass := .low
      matchedSignals := signals }

/-- Direct restatement of the critical condition of claim C1: the lowercased
JSON serialization of the body contains some configured critical pattern. -/
def criticalHit (e : PolicyRules) (input : PolicyInput) : Bool :=
  e.criticalPatterns.any (fun pattern => containsB (toText input.body) pattern)

/-- Direct restatement of the high-risk condition of claim C1: a high-risk tool
name, a high-risk pattern in the body, or an admin/system path with a non-GET
method. -/
def highRiskHit (e : PolicyRules) (input : PolicyInput) : Bool :=
  input.toolNames.any (fun name => e.highRiskTools.contains (toLowerStr name)) ||
  e.highRiskPatterns.any (fun pattern => containsB (toText input.body) pattern) ||
  ((containsB (toLowerStr input.path) "admin" || containsB (toLowerStr input.path) "system") &&
    (toLowerStr input.method != "get"))

end Policy

/-! ## Capability gate (`src/security-invariants.ts`) -/

namespace Capability

inductive CapabilityMode where
  | allow | deny
  deriving DecidableEq, Repr

inductive ValueType where
  | tool | action
  deriving DecidableEq, Repr

def ValueType.toStr : ValueType → String
  | .tool => "tool"
  | .action => "action"

structure CapabilityDecision where
  allowed : Bool
  reason : String
  matchedSignals : List String
  deriving DecidableEq, Repr

/-- Normalized per-scope capability rules. -/
structure CapabilityRules where
  mode : CapabilityMode
  allowTools : List String
  denyTools : List String
  allowActions : List String
  denyActions : List String

def DEFAULT_RULES : CapabilityRules :=
  { mode := .allow, allowTools := [], denyTools := [], allowActions := [], denyActions := [] }

/-- `normalizeList`: trim, lowercase, drop empties, dedup (JS `Set`), sort. -/
def normalizeList (values : List String) : List String :=
  sortStrs (dedupFirst ((values.map (fun v => toLowerStr (trimStr v))).filter (fun v => v ≠ "")))

/-- `decisionFromRule` (sets are modelled as the normalized lists they were
built from; membership is list membership). -/
def decisionFromRule (value : String) (mode : CapabilityMode) (allowSet denySet : List String)
    (valueType : ValueType) : CapabilityDecision :=
  if denySet.contains value then
    { allowed := false
      reason := valueType.toStr ++ " denied by capability policy."
      matchedSignals := [valueType.toStr ++ "-deny:" ++ value] }
  else if allowSet.length > 0 then
    if allowSet.contains value then
      { allowed := true
        reason := valueType.toStr ++ " allowed by capability allowlist."
        matchedSignals := [valueType.toStr ++ "-allow:" ++ value] }
    else
      { allowed := false
        reason := valueType.toStr ++ " not present in capability allowlist."
        matchedSignals := [valueType.toStr ++ "-allow-miss:" ++ value] }
  else if mode = .deny then
    { allowed := false
      reason := valueType.toStr ++ " denied by default-deny capability mode."
      matchedSignals := [valueType.toStr ++ "-default-deny:" ++ value] }
  else
    { allowed := true
      reason := valueType.toStr ++ " allowed by default capability mode."
      matchedSignals := [valueType.toStr ++ "-default-allow:" ++ value] }

/-- Per-tool loop of `evaluateToolExecution`: first non-allowed tool decision
wins. -/
def firstToolDenial (rules : CapabilityRules) : List String → Option CapabilityDecision
  | [] => none
  | tool :: rest =>
      let decision := decisionFromRule tool rules.mode rules.allowTools rules.denyTools .tool
      if decision.allowed then firstToolDenial rules rest else some decision

/-- `CapabilityPolicyEngine.evaluateToolExecution`, with the rule scope already
resolved (per-channel rules override defaults before this logic runs). -/
def evaluateToolExecution (rules : CapabilityRules) (toolNames : List String) :
    CapabilityDecision :=
  let normalizedTools := normalizeList toolNames
  if normalizedTools.length = 0 then
    { allowed := true, reason := "No tool execution requested.", matchedSignals := [] }
  else
    let actionDecision :=
      decisionFromRule "tool.execute" rules.mode rules.allowActions rules.denyActions .action
    if actionDecision.allowed = false then
      { allowed := false
        reason := actionDecision.reason
        matchedSignals := actionDecision.matchedSignals }
    else
      match firstToolDenial rules normalizedTools with
      | some decision =>
          { allowed := false
            reason := decision.reason
            matchedSignals := decision.matchedSignals }
      | none =>
          { allowed := true
            reason := "Tool execution allowed by capability policy."
            matchedSignals := normalizedTools.map (fun tool => "tool-allowed:" ++ tool) }

/-- Claim C4 as worded ("deny if in `deny_tools`; else allow if in
`allow_tools`; else under `mode=deny` deny, under `mode=allow` allow"),
written from the claim text for comparison with `decisionFromRule`. -/
def claimC4Allowed (value : String) (mode : CapabilityMode) (allowSet denySet : List String) :
    Bool :=
  if denySet.contains value then false
  else if allowSet.contains value then true
  else match mode with
    | .deny => false
    | .allow => true

end Capability

/-! ## Budget controller (`src/channel-destination-policy.ts`, `BudgetController`)

Monetary amounts are modelled in exact fixed-point units of `1e-4` USD
(`Int`), the grid on which `toFixed(4)` renders.  Every amount exercised by
the claims (two-decimal USD costs and caps) lies on this grid, where IEEE-754
double arithmetic agrees with exact integer arithmetic on every sum,
comparison and rendering, so the fixed-point model is faithful there. -/

namespace Budget

inductive BudgetDecision where
  | allow | suspend
  deriving DecidableEq, Repr

/-- Caps in `1e-4` USD units. -/
structure BudgetPolicy where
  hourlyUsdCap : Int
  dailyUsdCap : Int

structure PricingEntry where
  model : String
  input_usd_per_1k : Int
  output_usd_per_1k : Int

structure CostEstimate where
  model : String
  inputTokens : Int
  outputTokens : Int
  estimatedUsd : Int

structure CostEvent where
  timestamp : Int
  model : String
  inputTokens : Int
  outputTokens : Int
  usdCost : Int
  requestPath : String

/-- The budget singleton row plus the append-only `cost_events` log. -/
structure BudgetStore where
  suspended : Bool
  reason : Option String
  triggeredAt : Option Int
  events : List CostEvent

/-- `estimateCost`: exact-model pricing entry, else the `*` fallback, else the
thrown configuration error (`none`).  `input_tokens/1000 × price` is exact at
the token counts and prices the claims exercise. -/
def estimateCost (pricingByModel : List (String × PricingEntry)) (model : String)
    (inputTokens outputTokens : Int) : Option CostEstimate :=
  match (pricingByModel.lookup model).orElse (fun _ => pricingByModel.lookup "*") with
  | none => none
  | some pricing =>
      some { model := model
             inputTokens := inputTokens
             outputTokens := outputTokens
             estimatedUsd := inputTokens * pricing.input_usd_per_1k / 1000 +
               outputTokens * pricing.output_usd_per_1k / 1000 }

def pad4 (m : Nat) : String :=
  if m < 10 then "000" ++ toString m
  else if m < 100 then "00" ++ toString m
  else if m < 1000 then "0" ++ toString m
  else toString m

/-- `Number.prototype.toFixed(4)` on an amount already on the `1e-4` grid
(no rounding step is needed there). -/
def toFixed4 (n : Int) : String :=
  if n < 0 then "-" ++ toString ((-n).toNat / 10000) ++ "." ++ pad4 ((-n).toNat % 10000)
  else toString (n.toNat / 10000) ++ "." ++ pad4 (n.toNat % 10000)

/-- Start of the current UTC day (`setUTCHours(0,0,0,0)`) in epoch ms. -/
def dayStartOf (now : Int) : Int := now - now % 86400000

/-- `readUsage`: rolling-hour and current-UTC-day cost sums. -/
def readUsage (events : List CostEvent) (now : Int) : Int × Int :=
  ((events.filter (fun e => now - 3600000 ≤ e.timestamp)).foldr (fun e acc => e.usdCost + acc) 0,
   (events.filter (fun e => dayStartOf now ≤ e.timestamp)).foldr (fun e acc => e.usdCost + acc) 0)

/-- `suspend(reason)`. -/
def suspendStore (st : BudgetStore) (reason : String) (now : Int) : BudgetStore :=
  { st with suspended := true, reason := some reason, triggeredAt := some now }

/-- JS `state.reason || default`. -/
def reasonOr (r : Option String) (fallback : String) : String :=
  match r with
  | some s => if s = "" then fallback else s
  | none => fallback

/-- `evaluateProjected`, returning the updated store along with the decision
and reason. -/
def evaluateProjected (policy : BudgetPolicy) (st : BudgetStore) (estimate : CostEstimate)
    (now : Int) : BudgetStore × BudgetDecision × Option String :=
  if st.suspended then
    (st, .suspend, some (reasonOr st.reason "Budget controller is currently suspended."))
  else
    let usage := readUsage st.events now
    let projectedHourly := usage.1 + estimate.estimatedUsd
    let projectedDaily := usage.2 + estimate.estimatedUsd
    if projectedHourly > policy.hourlyUsdCap then
      let reason := "Hourly compute budget exceeded (" ++ toFixed4 projectedHourly ++ " > " ++
        toFixed4 policy.hourlyUsdCap ++ " USD)."
      (suspendStore st reason now, .suspend, some reason)
    else if projectedDaily > policy.dailyUsdCap then
      let reason := "Daily compute budget exceeded (" ++ toFixed4 projectedDaily ++ " > " ++
        toFixed4 policy.dailyUsdCap ++ " USD)."
      (suspendStore st reason now, .suspend, some reason)
    else
      (st, .allow, none)

/-- `recordActual`: append a cost event, then re-check the caps on actuals. -/
def recordActual (policy : BudgetPolicy) (st : BudgetStore) (cost : CostEvent) (now : Int) :
    BudgetStore :=
  let st1 := { st with events := st.events ++ [cost] }
  let usage := readUsage st1.events now
  if usage.1 > policy.hourlyUsdCap then
    suspendStore st1 ("Hourly compute budget exceeded after actual accounting (" ++
      toFixed4 usage.1 ++ " > " ++ toFixed4 policy.hourlyUsdCap ++ " USD).") now
  else if usage.2 > policy.dailyUsdCap then
    suspendStore st1 ("Daily compute budget exceeded after actual accounting (" ++
      toFixed4 usage.2 ++ " > " ++ toFixed4 policy.dailyUsdCap ++ " USD).") now
  else st1

end Budget

/-! ## JS value coercions used by the approval layer -/

/-- JS falsiness of a JSON-representable value. -/
def jsFalsy : JVal → Bool
  | .jnull => true
  | .jundef => true
  | .jbool b => !b
  | .jnum n => n == 0
  | .jstr s => s == ""
  | .jarr _ => false
  | .jobj _ => false

mutual
/-- JS `String(v)` coercion. -/
def jsToString : JVal → String
  | .jnull => "null"
  | .jundef => "undefined"
  | .jbool true => "true"
  | .jbool false => "false"
  | .jnum n => toString n
  | .jstr s => s
  | .jarr l => String.intercalate "," (jsToStringItems l)
  | .jobj _ => "[object Object]"

/-- `Array.prototype.toString` renders `null`/`undefined` items as `""`. -/
def jsToStringItems : List JVal → List String
  | [] => []
  | .jnull :: rest => "" :: jsToStringItems rest
  | .jundef :: rest => "" :: jsToStringItems rest
  | v :: rest => jsToString v :: jsToStringItems rest
end

/-- JS `String(value || "")`. -/
def strOfOr (v : JVal) : String := if jsFalsy v then "" else jsToString v

mutual
/-- `JSON.parse(JSON.stringify(v))` normalization: `undefined` object fields
are dropped and `undefined` array items become `null`. -/
def jsonRound : JVal → JVal
  | .jundef => .jnull
  | .jarr l => .jarr (jsonRoundItems l)
  | .jobj kvs => .jobj (jsonRoundFields kvs)
  | v => v

def jsonRoundItems : List JVal → List JVal
  | [] => []
  | v :: rest => jsonRound v :: jsonRoundItems rest

def jsonRoundFields : List (String × JVal) → List (String × JVal)
  | [] => []
  | (_, .jundef) :: rest => jsonRoundFields rest
  | (k, v) :: rest => (k, jsonRound v) :: jsonRoundFields rest
end

/-- A JS `number` argument: finite (modelled as a rational) or one of the
non-finite values. -/
inductive JsNum where
  | fin : Rat → JsNum
  | nan : JsNum
  | posInf : JsNum
  | negInf : JsNum

/-! ## Approval service (`src/channel-hub.ts`, `ApprovalService`)

The SQLite table is modelled as a list of rows.  TEXT columns holding JSON are
modelled by the result of `JSON.parse` on them (`Option JVal`, `none` when the
text does not parse); `metadata` additionally keeps its raw text because the
attestation parse failure path embeds it.  ISO timestamp columns are modelled
as epoch milliseconds (`Int`); SQLite string comparisons on them coincide with
integer comparisons. -/

namespace Approval

inductive ApprovalStatus where
  | pending | approved | denied | expired
  deriving DecidableEq, Repr

def ApprovalStatus.toStr : ApprovalStatus → String
  | .pending => "pending"
  | .approved => "approved"
  | .denied => "denied"
  | .expired => "expired"

structure ApprovalRecord where
  id : String
  created_at : Int
  expires_at : Int
  status : ApprovalStatus
  required_approvals : Int
  required_roles : Option JVal
  max_uses : Int
  use_count : Int
  last_used_at : Option Int
  approval_actors : Option JVal
  approval_actor_roles : Option JVal
  request_fingerprint : String
  reason : String
  metadata_raw : String
  metadata : Option JVal
  resolved_by : Option String
  resolved_at : Option Int

structure ApprovalCreateInput where
  requestFingerprint : String
  reason : String
  metadata : JVal
  ttlSeconds : Int
  requiredApprovals : Option JsNum := none
  requiredRoles : Option (List String) := none
  maxUses : Option JsNum := none

/-- `normalizeRequiredApprovals` on a caller-supplied JS number. -/
def normalizeRequiredApprovalsNum (value : Option JsNum) : Int :=
  match value.getD (.fin 1) with
  | .fin q => min 5 (max 1 (ratFloor q))
  | _ => 1

/-- `normalizeMaxUses` on a caller-supplied JS number: non-finite values fall
back to 1, finite values are floored and clamped into `1..100`. -/
def normalizeMaxUsesNum (value : Option JsNum) : Int :=
  match value.getD (.fin 1) with
  | .fin q => min 100 (max 1 (ratFloor q))
  | _ => 1

/-- `normalizeRequiredApprovals` on an INTEGER column value (always finite). -/
def normalizeRequiredApprovalsI (value : Int) : Int := min 5 (max 1 value)

def normalizeMaxUsesI (value : Int) : Int := min 100 (max 1 value)

def normalizeUseCountI (value : Int) : Int := max 0 value

/-- `normalizeRoles` on a caller-supplied role list. -/
def normalizeRoles (values : Option (List String)) : List String :=
  sortStrs (dedupFirst
    (((values.getD []).map (fun v => toLowerStr (trimStr (strOfOr (.jstr v))))).filter
      (fun v => v ≠ "")))

def mergeRoles (a b : List String) : List String := sortStrs (dedupFirst (a ++ b))

/-- `parseApprovalActors` on the parse result of the TEXT column. -/
def parseApprovalActors : Option JVal → List String
  | some (.jarr l) => (l.map (fun v => trimStr (strOfOr v))).filter (fun v => v ≠ "")
  | _ => []

/-- `parseRoleArray` / `parseRequiredRoles`. -/
def parseRoleArray : Option JVal → List String
  | some (.jarr l) =>
      sortStrs ((l.map (fun v => toLowerStr (trimStr (strOfOr v)))).filter (fun v => v ≠ ""))
  | _ => []

/-- JS object property assignment: replace in place, or append a new key. -/
def upsertAL (k v : String) : List (String × String) → List (String × String)
  | [] => [(k, v)]
  | (k0, v0) :: rest => if k0 = k then (k0, v) :: rest else (k0, v0) :: upsertAL k v rest

/-- `parseApprovalActorRoles`. -/
def parseApprovalActorRoles : Option JVal → List (String × String)
  | some (.jobj kvs) =>
      kvs.foldl (fun out kv =>
        let actorKey := trimStr kv.1
        let roleValue := toLowerStr (trimStr (strOfOr kv.2))
        if actorKey = "" ∨ roleValue = "" then out else upsertAL actorKey roleValue out) []
  | _ => []

/-- `cleanupExpired`: lazily expire pending rows past their deadline. -/
def cleanupExpired (db : List ApprovalRecord) (now : Int) : List ApprovalRecord :=
  db.map (fun r =>
    if r.status = .pending ∧ r.expires_at < now then { r with status := .expired } else r)

/-- `getById` (`LIMIT 1` over a unique primary key). -/
def getById (db : List ApprovalRecord) (id : String) : Option ApprovalRecord :=
  db.find? (fun r => r.id = id)

/-- Row predicate of the `consumeApproved` UPDATE. -/
def consumeMatches (id fp : String) (now : Int) (r : ApprovalRecord) : Bool :=
  r.id = id ∧ r.status = .approved ∧ r.request_fingerprint = fp ∧ now ≤ r.expires_at ∧
    r.use_count < r.max_uses

/-- `consumeApproved`: the atomic single-statement UPDATE; returns the updated
table and whether any row changed. -/
def consumeApproved (db : List ApprovalRecord) (id fp : String) (now : Int) :
    List ApprovalRecord × Bool :=
  let db0 := cleanupExpired db now
  (db0.map (fun r =>
      if consumeMatches id fp now r then
        { r with use_count := r.use_count + 1, last_used_at := some now }
      else r),
   db0.any (consumeMatches id fp now))

/-- `validateApproved` (read-only precondition check). -/
def validateApproved (db : List ApprovalRecord) (id fp : String) (now : Int) : Bool :=
  let db0 := cleanupExpired db now
  match getById db0 id with
  | none => false
  | some row =>
      if row.status ≠ .approved then false
      else if row.request_fingerprint ≠ fp then false
      else if row.expires_at < now then false
      else if normalizeMaxUsesI row.max_uses ≤ normalizeUseCountI row.use_count then false
      else true

/-- `String(actorRole || "unknown").trim().toLowerCase() || "unknown"`. -/
def normalizeActorRole (actorRole : String) : String :=
  let s := toLowerStr (trimStr (if actorRole = "" then "unknown" else actorRole))
  if s = "" then "unknown" else s

/-- `approve(id, actor, actorRole)`: accumulate the actor and role; transition
to `approved` when the quorum count and role coverage are both met. -/
def approve (db : List ApprovalRecord) (id actor actorRole : String) (now : Int) :
    Except String (List ApprovalRecord × ApprovalRecord) :=
  let db0 := cleanupExpired db now
  let normalizedActor := trimStr actor
  if normalizedActor = "" then .error "Approval actor is required."
  else
    match getById db0 id with
    | none => .error ("Approval not found: " ++ id)
    | some row =>
      if row.status ≠ .pending then .ok (db0, row)
      else
        let actorList := sortStrs (dedupFirst (parseApprovalActors row.approval_actors ++
          [normalizedActor]))
        let roleMap := upsertAL normalizedActor (normalizeActorRole actorRole)
          (parseApprovalActorRoles row.approval_actor_roles)
        let requiredApprovals := normalizeRequiredApprovalsI row.required_approvals
        let requiredRoles := parseRoleArray row.required_roles
        let roleCoverage := roleMap.map (fun kv => kv.2)
        let rolesSatisfied := requiredRoles.all (fun requiredRole =>
          roleCoverage.contains requiredRole)
        let db1 :=
          if requiredApprovals ≤ (actorList.length : Int) ∧ rolesSatisfied then
            db0.map (fun r =>
              if r.id = id ∧ r.status = .pending then
                { r with status := .approved
                         approval_actors := some (.jarr (actorList.map .jstr))
                         approval_actor_roles := some (.jobj (roleMap.map
                           (fun kv => (kv.1, JVal.jstr kv.2))))
                         resolved_by := some normalizedActor
                         resolved_at := some now }
              else r)
          else
            db0.map (fun r =>
              if r.id = id ∧ r.status = .pending then
                { r with approval_actors := some (.jarr (actorList.map .jstr))
                         approval_actor_roles := some (.jobj (roleMap.map
                           (fun kv => (kv.1, JVal.jstr kv.2)))) }
              else r)
        match getById db1 id with
        | none => .error ("Approval not found: " ++ id)
        | some updated => .ok (db1, updated)

/-- `ORDER BY created_at DESC LIMIT 1` over the pending rows with the given
fingerprint: first row carrying the maximal `created_at`. -/
def pickLatestPending (db : List ApprovalRecord) (fp : String) : Option ApprovalRecord :=
  (db.filter (fun r => r.request_fingerprint = fp ∧ r.status = .pending)).foldl
    (fun best r =>
      match best with
      | none => some r
      | some b => if b.created_at < r.created_at then some r else best) none

def jsonOfStrList (l : List String) : String := ⟨jsSer (.jarr (l.map .jstr))⟩

/-- `getOrCreatePending`.  `newId` stands for `crypto.randomUUID()`.  Returns
the updated table, the returned record, and the `created` flag. -/
def getOrCreatePending (db : List ApprovalRecord) (input : ApprovalCreateInput) (now : Int)
    (newId : String) : List ApprovalRecord × ApprovalRecord × Bool :=
  let db0 := cleanupExpired db now
  let requiredApprovals := normalizeRequiredApprovalsNum input.requiredApprovals
  let requiredRoles := normalizeRoles input.requiredRoles
  let maxUses := normalizeMaxUsesNum input.maxUses
  match pickLatestPending db0 input.requestFingerprint with
  | some existing =>
      let existingRequiredRoles := parseRoleArray existing.required_roles
      let mergedRoles := mergeRoles existingRequiredRoles requiredRoles
      let db1 :=
        if existing.max_uses < maxUses then
          db0.map (fun r => if r.id = existing.id then { r with max_uses := maxUses } else r)
        else db0
      if existing.required_approvals < requiredApprovals then
        let db2 := db1.map (fun r =>
          if r.id = existing.id then
            { r with required_approvals := requiredApprovals
                     required_roles := some (.jarr (mergedRoles.map .jstr)) }
          else r)
        (db2, (getById db2 existing.id).getD existing, false)
      else if jsonOfStrList existingRequiredRoles ≠ jsonOfStrList mergedRoles then
        let db2 := db1.map (fun r =>
          if r.id = existing.id then
            { r with required_roles := some (.jarr (mergedRoles.map .jstr)) }
          else r)
        (db2, (getById db2 existing.id).getD existing, false)
      else
        (db1, existing, false)
  | none =>
      let metaV := if jsFalsy input.metadata then .jobj [] else input.metadata
      let record : ApprovalRecord :=
        { id := newId
          created_at := now
          expires_at := now + max 60 input.ttlSeconds * 1000
          status := .pending
          required_approvals := requiredApprovals
          required_roles := some (.jarr (requiredRoles.map .jstr))
          max_uses := maxUses
          use_count := 0
          last_used_at := none
          approval_actors := some (.jarr [])
          approval_actor_roles := some (.jobj [])
          request_fingerprint := input.requestFingerprint
          reason := input.reason
          metadata_raw := ⟨jsSer metaV⟩
          metadata := some (jsonRound metaV)
          resolved_by := none
          resolved_at := none }
      (db0 ++ [record], record, true)

end Approval

/-! ## HMAC keyring helpers (`src/security-conformance.ts` re-exports used by
the attestation service).  The SHA-256 HMAC itself is abstract: every
definition takes it as the `hmac : String → String → String` argument
(secret, payload ↦ lowercase hex digest). -/

namespace Keyring

structure HmacKeyring where
  activeKid : String
  keys : List (String × String)

/-- `^[a-f0-9]{64}$`. -/
def isLowerHex64 (s : String) : Bool :=
  s.length == 64 && s.data.all (fun c => c.isDigit || ('a' ≤ c && c ≤ 'f'))

def hexVal (c : Char) : Option Nat :=
  if '0' ≤ c ∧ c ≤ '9' then some (c.toNat - '0'.toNat)
  else if 'a' ≤ c ∧ c ≤ 'f' then some (c.toNat - 'a'.toNat + 10)
  else none

/-- `Buffer.from(s, "hex")`: decode byte pairs, truncating at the first
invalid pair. -/
def hexDecodeTrunc : List Char → List Nat
  | a :: b :: rest =>
      match hexVal a, hexVal b with
      | some x, some y => (16 * x + y) :: hexDecodeTrunc rest
      | _, _ => []
  | _ => []

/-- `constantTimeHexEquals`. -/
def constantTimeHexEquals (aHex bHex : String) : Bool :=
  let a := toLowerStr (trimStr aHex)
  let b := toLowerStr (trimStr bHex)
  if a.length ≠ b.length ∨ a.length = 0 ∨ a.length % 2 ≠ 0 then false
  else
    let left := hexDecodeTrunc a.data
    let right := hexDecodeTrunc b.data
    if left.length ≠ right.length ∨ left.length = 0 then false
    else left = right

/-- `signWithKeyring`: `(kid, sig)` pair signed with the active key. -/
def signWithKeyring (hmac : String → String → String) (payloadCanonical : String)
    (keyring : HmacKeyring) : String × String :=
  (keyring.activeKid, hmac ((keyring.keys.lookup keyring.activeKid).getD "") payloadCanonical)

/-- `verifyWithKeyring`. -/
def verifyWithKeyring (hmac : String → String → String) (payloadCanonical : String)
    (kid sig : String) (keyring : HmacKeyring) : Bool :=
  let kidT := trimStr kid
  let sigT := toLowerStr (trimStr sig)
  if kidT = "" ∨ isLowerHex64 sigT = false then false
  else
    match keyring.keys.lookup kidT with
    | none => false
    | some secret =>
        if secret = "" then false
        else constantTimeHexEquals (hmac secret payloadCanonical) sigT

/-- `verifyWithAnyKey`. -/
def verifyWithAnyKey (hmac : String → String → String) (payloadCanonical : String)
    (signatureHex : String) (keyring : HmacKeyring) : Bool × Option String :=
  let sig := toLowerStr (trimStr signatureHex)
  if isLowerHex64 sig = false then (false, none)
  else
    match keyring.keys.find? (fun kv => constantTimeHexEquals (hmac kv.2 payloadCanonical) sig) with
    | some kv => (true, some kv.1)
    | none => (false, none)

end Keyring

/-! ## Approval attestation service (`src/unnamed/part_003`,
`ApprovalAttestationService`).  `H : String → String` stands for the SHA-256
hex digest. -/

namespace Attest

open Approval Keyring

def GENESIS_HASH : String := ⟨List.replicate 64 '0'⟩

def optStrJ : Option String → JVal
  | none => .jnull
  | some s => .jstr s

def optIntStrJ : Option Int → JVal
  | none => .jnull
  | some n => .jstr (toString n)

/-- `parseMetadata`: parse failures become `{parse_error: true, raw}`. -/
def parseMetadata (raw : String) (parsed : Option JVal) : JVal :=
  match parsed with
  | some v => v
  | none => .jobj [("parse_error", .jbool true), ("raw", .jstr raw)]

/-- `entryHash`: SHA-256 of the canonical serialization of the chained record
fields.  ISO timestamp strings are modelled by the decimal rendering of the
epoch value. -/
def entryHashJ (H : String → String) (previousHash : String) (record : ApprovalRecord)
    (metadata : JVal) : String :=
  H (stableStringify (.jobj
    [("previous_hash", .jstr previousHash),
     ("id", .jstr record.id),
     ("created_at", .jstr (toString record.created_at)),
     ("expires_at", .jstr (toString record.expires_at)),
     ("status", .jstr record.status.toStr),
     ("required_approvals", .jnum (normalizeRequiredApprovalsI record.required_approvals)),
     ("max_uses", .jnum (normalizeMaxUsesI record.max_uses)),
     ("use_count", .jnum (normalizeUseCountI record.use_count)),
     ("last_used_at", optIntStrJ record.last_used_at),
     ("approval_actors", .jarr ((parseApprovalActors record.approval_actors).map .jstr)),
     ("required_roles", .jarr ((parseRoleArray record.required_roles).map .jstr)),
     ("approval_actor_roles", .jobj ((parseApprovalActorRoles record.approval_actor_roles).map
       (fun kv => (kv.1, JVal.jstr kv.2)))),
     ("request_fingerprint", .jstr record.request_fingerprint),
     ("reason", .jstr record.reason),
     ("resolved_by", optStrJ record.resolved_by),
     ("resolved_at", optIntStrJ record.resolved_at),
     ("metadata", metadata)]))

structure AttEntry where
  id : String
  created_at : Int
  expires_at : Int
  status : ApprovalStatus
  required_approvals : Int
  max_uses : Int
  use_count : Int
  last_used_at : Option Int
  approval_actors : List String
  required_roles : List String
  approval_actor_roles : List (String × String)
  request_fingerprint : String
  reason : String
  resolved_by : Option String
  resolved_at : Option Int
  metadata : JVal
  previous_hash : String
  entry_hash : String

structure AttPayload where
  generated_at : String
  since : Option String
  count : Int
  entries : List AttEntry
  final_hash : String
  signature : Option String
  signature_kid : Option String

/-- Signing configuration of the service: an optional keyring (takes priority)
plus the trimmed static key (`""` = unsigned). -/
structure SigningConfig where
  signingKeyring : Option HmacKeyring
  signingKey : String

def AttEntry.toJ (e : AttEntry) : JVal :=
  .jobj
    [("id", .jstr e.id),
     ("created_at", .jstr (toString e.created_at)),
     ("expires_at", .jstr (toString e.expires_at)),
     ("status", .jstr e.status.toStr),
     ("required_approvals", .jnum e.required_approvals),
     ("max_uses", .jnum e.max_uses),
     ("use_count", .jnum e.use_count),
     ("last_used_at", optIntStrJ e.last_used_at),
     ("approval_actors", .jarr (e.approval_actors.map .jstr)),
     ("required_roles", .jarr (e.required_roles.map .jstr)),
     ("approval_actor_roles", .jobj (e.approval_actor_roles.map
       (fun kv => (kv.1, JVal.jstr kv.2)))),
     ("request_fingerprint", .jstr e.request_fingerprint),
     ("reason", .jstr e.reason),
     ("resolved_by", optStrJ e.resolved_by),
     ("resolved_at", optIntStrJ e.resolved_at),
     ("metadata", e.metadata),
     ("previous_hash", .jstr e.previous_hash),
     ("entry_hash", .jstr e.entry_hash)]

/-- Canonical form signed by `generate` / checked by `verifyPayload` (all
payload fields except the signature pair). -/
def canonicalOfPayload (p : AttPayload) : String :=
  stableStringify (.jobj
    [("generated_at", .jstr p.generated_at),
     ("since", optStrJ p.since),
     ("count", .jnum p.count),
     ("entries", .jarr (p.entries.map AttEntry.toJ)),
     ("final_hash", .jstr p.final_hash)])

/-- `payloadHash`: hash over the full payload including the signature pair. -/
def payloadHashJ (H : String → String) (p : AttPayload) : String :=
  H (stableStringify (.jobj
    [("generated_at", .jstr p.generated_at),
     ("since", optStrJ p.since),
     ("count", .jnum p.count),
     ("entries", .jarr (p.entries.map AttEntry.toJ)),
     ("final_hash", .jstr p.final_hash),
     ("signature", optStrJ p.signature),
     ("signature_kid", optStrJ p.signature_kid)]))

/-- The attestation entry built by `generate` for one source row. -/
def mkEntry (H : String → String) (previousHash : String) (row : ApprovalRecord) : AttEntry :=
  let metadata := parseMetadata row.metadata_raw row.metadata
  { id := row.id
    created_at := row.created_at
    expires_at := row.expires_at
    status := row.status
    required_approvals := normalizeRequiredApprovalsI row.required_approvals
    max_uses := normalizeMaxUsesI row.max_uses
    use_count := normalizeUseCountI row.use_count
    last_used_at := row.last_used_at
    approval_actors := parseApprovalActors row.approval_actors
    required_roles := parseRoleArray row.required_roles
    approval_actor_roles := parseApprovalActorRoles row.approval_actor_roles
    request_fingerprint := row.request_fingerprint
    reason := row.reason
    resolved_by := row.resolved_by
    resolved_at := row.resolved_at
    metadata := metadata
    previous_hash := previousHash
    entry_hash := entryHashJ H previousHash row metadata }

/-- The chained entry list of `generate`, with the running hash. -/
def generateEntries (H : String → String) : List ApprovalRecord → String →
    List AttEntry × String
  | [], previousHash => ([], previousHash)
  | row :: rest, previousHash =>
      let entry := mkEntry H previousHash row
      let (entries, finalHash) := generateEntries H rest entry.entry_hash
      (entry :: entries, finalHash)

/-- `generate`: rows are the `listForAttestation` result; `generatedAt` stands
for `new Date().toISOString()`. -/
def generate (H : String → String) (hmac : String → String → String) (cfg : SigningConfig)
    (rows : List ApprovalRecord) (generatedAt : String) (since : String) : AttPayload :=
  let (entries, finalHash) := generateEntries H rows GENESIS_HASH
  let unsigned : AttPayload :=
    { generated_at := generatedAt
      since := if trimStr since = "" then none else some (trimStr since)
      count := (entries.length : Int)
      entries := entries
      final_hash := finalHash
      signature := none
      signature_kid := none }
  let canonical := canonicalOfPayload unsigned
  match cfg.signingKeyring with
  | some keyring =>
      let v2 := signWithKeyring hmac canonical keyring
      { unsigned with signature := some v2.2, signature_kid := some v2.1 }
  | none =>
      if cfg.signingKey ≠ "" then
        { unsigned with signature := some (hmac cfg.signingKey canonical), signature_kid := none }
      else unsigned

/-- The record reconstructed by `verifyPayload` from a payload entry before
re-hashing (the `JSON.stringify` round trips of the normalized list/map fields
are written out as the parse results they produce). -/
def reconRecord (e : AttEntry) : ApprovalRecord :=
  let metaV : JVal := match e.metadata with
    | .jnull => .jobj []
    | .jundef => .jobj []
    | m => m
  { id := e.id
    created_at := e.created_at
    expires_at := e.expires_at
    status := e.status
    required_approvals := normalizeRequiredApprovalsI e.required_approvals
    max_uses := normalizeMaxUsesI e.max_uses
    use_count := normalizeUseCountI e.use_count
    last_used_at := e.last_used_at
    required_roles := some (.jarr (e.required_roles.map .jstr))
    approval_actors := some (.jarr (e.approval_actors.map .jstr))
    approval_actor_roles := some (.jobj (e.approval_actor_roles.map
      (fun kv => (kv.1, JVal.jstr kv.2))))
    request_fingerprint := e.request_fingerprint
    reason := e.reason
    metadata_raw := ⟨jsSer metaV⟩
    metadata := some (jsonRound metaV)
    resolved_by := e.resolved_by
    resolved_at := e.resolved_at }

/-- The entry-chain loop of `verifyPayload`: returns the first failure reason
(if any) and the running hash at the point the loop stopped. -/
def verifyChain (H : String → String) : List AttEntry → String → Option String × String
  | [], previousHash => (none, previousHash)
  | e :: rest, previousHash =>
      if e.previous_hash ≠ previousHash then (some "Entry previous_hash mismatch.", previousHash)
      else
        let expected := entryHashJ H previousHash (reconRecord e) e.metadata
        if expected ≠ e.entry_hash then (some "Entry hash mismatch.", previousHash)
        else verifyChain H rest e.entry_hash

structure Verification where
  valid : Bool
  reason : Option String
  count : Int
  computed_final_hash : String
  stored_final_hash : String
  signature_valid : Option Bool
  payload_hash : String
  generated_at : String
  deriving Repr

/-- JS truthiness filter on an optional string field (`null`, absent and `""`
are all falsy). -/
def optTruthy : Option String → Option String
  | some s => if s = "" then none else some s
  | none => none

/-- `verifyPayload`. -/
def verifyPayload (H : String → String) (hmac : String → String → String) (cfg : SigningConfig)
    (payload : AttPayload) : Verification :=
  let entries := payload.entries
  let chain :=
    if payload.count ≠ (entries.length : Int) then
      (some "Payload count does not match entries length.", GENESIS_HASH)
    else verifyChain H entries GENESIS_HASH
  let reason1 := chain.1
  let previousHash := chain.2
  let reason2 :=
    match reason1 with
    | some r => some r
    | none => if payload.final_hash ≠ previousHash then some "Final hash mismatch." else none
  let canonical := canonicalOfPayload payload
  let sigState : Option Bool × Option String :=
    match cfg.signingKeyring with
    | some keyring =>
        let signatureValid :=
          match optTruthy payload.signature, optTruthy payload.signature_kid with
          | some sig, some kid => verifyWithKeyring hmac canonical kid sig keyring
          | some sig, none => (verifyWithAnyKey hmac canonical sig keyring).1
          | none, _ => false
        (some signatureValid,
         if signatureValid = false ∧ reason2 = none then
           some "Attestation keyring signature mismatch."
         else reason2)
    | none =>
        if cfg.signingKey ≠ "" then
          let expectedSignature := hmac cfg.signingKey canonical
          let signatureValid := payload.signature = some expectedSignature
          (some signatureValid,
           if signatureValid = false ∧ reason2 = none then
             some "Attestation signature mismatch."
           else reason2)
        else (none, reason2)
  { valid := sigState.2 = none
    reason := sigState.2
    count := (entries.length : Int)
    computed_final_hash := previousHash
    stored_final_hash := payload.final_hash
    signature_valid := sigState.1
    payload_hash := payloadHashJ H payload
    generated_at := payload.generated_at }

/-- Well-formedness of the signing configuration as guaranteed by
`loadHmacKeyring` (trimmed nonempty active kid mapped to a nonempty secret),
plus the digest shape guarantee of `crypto.createHmac(...).digest("hex")`. -/
def SigningWF (hmac : String → String → String) (cfg : SigningConfig) : Prop :=
  (∀ k m, isLowerHex64 (hmac k m) = true) ∧
  (∀ kr, cfg.signingKeyring = some kr →
    trimStr kr.activeKid = kr.activeKid ∧ kr.activeKid ≠ "" ∧
    (∃ secret, kr.keys.lookup kr.activeKid = some secret ∧ secret ≠ ""))

/-- The unsigned payload built by `generate` before the signing step. -/
def unsignedOf (H : String → String) (rows : List ApprovalRecord) (gAt since : String) :
    AttPayload :=
  { generated_at := gAt
    since := if trimStr since = "" then none else some (trimStr since)
    count := ((generateEntries H rows GENESIS_HASH).1.length : Int)
    entries := (generateEntries H rows GENESIS_HASH).1
    final_hash := (generateEntries H rows GENESIS_HASH).2
    signature := none
    signature_kid := none }

end Attest

/-! ## JSON acceptance (models `JSON.parse` success) for claim C10.

A fuel-indexed recursive-descent recognizer over character lists.  It accepts
exactly the JSON value grammar (with a mildly permissive number rule — the
serializer only ever emits canonical integer literals, so the difference is
invisible to the claims). -/

def isHexDigitB (c : Char) : Bool :=
  c.isDigit || ('a' ≤ c && c ≤ 'f') || ('A' ≤ c && c ≤ 'F')

/-- Recognize the remainder of a JSON string literal (after the opening
quote), returning the input after the closing quote. -/
def parseStrBody : List Char → Option (List Char)
  | [] => none
  | '"' :: rest => some rest
  | '\\' :: e :: rest =>
      if e = '"' ∨ e = '\\' ∨ e = '/' ∨ e = 'b' ∨ e = 'f' ∨ e = 'n' ∨ e = 'r' ∨ e = 't' then
        parseStrBody rest
      else if e = 'u' then
        match rest with
        | h1 :: h2 :: h3 :: h4 :: rest2 =>
            if isHexDigitB h1 && isHexDigitB h2 && isHexDigitB h3 && isHexDigitB h4 then
              parseStrBody rest2
            else none
        | _ => none
      else none
  | c :: rest => if c.toNat < 32 then none else parseStrBody rest
  termination_by l => l.length
  decreasing_by all_goals simp_arith [List.length]

def parseDigits (s : List Char) : Option (List Char) :=
  match s.span Char.isDigit with
  | (d, r) => if d.isEmpty then none else some r

def parseFracPart : List Char → Option (List Char)
  | '.' :: r => parseDigits r
  | s => some s

def parseExpPart : List Char → Option (List Char)
  | [] => some []
  | e :: r =>
      if e = 'e' ∨ e = 'E' then
        match r with
        | s :: r2 => if s = '+' ∨ s = '-' then parseDigits r2 else parseDigits (s :: r2)
        | [] => none
      else some (e :: r)

def parseNumber (s : List Char) : Option (List Char) :=
  let s1 := match s with
    | '-' :: r => r
    | _ => s
  ((parseDigits s1).bind parseFracPart).bind parseExpPart

mutual
def parseV : Nat → List Char → Option (List Char)
  | 0, _ => none
  | _ + 1, 'n' :: 'u' :: 'l' :: 'l' :: r => some r
  | _ + 1, 't' :: 'r' :: 'u' :: 'e' :: r => some r
  | _ + 1, 'f' :: 'a' :: 'l' :: 's' :: 'e' :: r => some r
  | _ + 1, '"' :: r => parseStrBody r
  | f + 1, '[' :: r =>
      match r with
      | ']' :: r2 => some r2
      | _ => parseItems f r
  | f + 1, c :: r =>
      if c = lbraceC then
        match r with
        | c2 :: r2 => if c2 = rbraceC then some r2 else parseFields f (c2 :: r2)
        | [] => none
      else if c = '-' ∨ c.isDigit then parseNumber (c :: r)
      else none
  | _ + 1, [] => none

def parseItems : Nat → List Char → Option (List Char)
  | 0, _ => none
  | f + 1, s =>
      match parseV f s with
      | some (',' :: r) => parseItems f r
      | some (']' :: r) => some r
      | _ => none

def parseFields : Nat → List Char → Option (List Char)
  | 0, _ => none
  | f + 1, s =>
      match s with
      | '"' :: r =>
          (match parseStrBody r with
            | some (':' :: r2) =>
                match parseV f r2 with
                | some (',' :: r3) => parseFields f r3
                | some (c3 :: r3) => if c3 = rbraceC then some r3 else none
                | _ => none
            | _ => none)
      | _ => none
end

/-- `JSON.parse(s)` succeeds (the whole text is one JSON value). -/
def jsonOk (s : String) : Bool :=
  match parseV (s.length + 1) s.data with
  | some [] => true
  | _ => false

/-- The continuation applied by `parseItems` to a parsed item. -/
def itemsCont (f : Nat) : Option (List Char) → Option (List Char)
  | some (',' :: r) => parseItems f r
  | some (']' :: r) => some r
  | _ => none

/-- The continuation applied by `parseFields` to a parsed field value. -/
def fieldsCont (f : Nat) : Option (List Char) → Option (List Char)
  | some (',' :: r3) => parseFields f r3
  | some (c3 :: r3) => if c3 = rbraceC then some r3 else none
  | _ => none

mutual
/-- No JS `undefined` anywhere inside the value. -/
def noUndef : JVal → Bool
  | .jundef => false
  | .jarr l => noUndefItems l
  | .jobj kvs => noUndefFields kvs
  | _ => true

def noUndefItems : List JVal → Bool
  | [] => true
  | v :: rest => noUndef v && noUndefItems rest

def noUndefFields : List (String × JVal) → Bool
  | [] => true
  | (_, v) :: rest => noUndef v && noUndefFields rest
end

mutual
/-- Fuel bound: enough `parseV` fuel to consume the serialization of `v`. -/
def sizeJ : JVal → Nat
  | .jarr l => 1 + sizeJItems l
  | .jobj kvs => 1 + sizeJFields kvs
  | _ => 1

def sizeJItems : List JVal → Nat
  | [] => 0
  | v :: rest => max (sizeJ v) (sizeJItems rest) + 1

def sizeJFields : List (String × JVal) → Nat
  | [] => 0
  | (_, v) :: rest => sizeJ v + 1 + sizeJFields rest
end

/-- The characters that may follow a complete serialized JSON value inside the
serializer's output (or the end of the text). -/
def stopsV : List Char → Bool
  | [] => true
  | c :: _ => c = ',' || c = ']' || c = rbraceC

mutual
/-- Some object field (at any depth) holds the JS `undefined` value. -/
def hasUndefField : JVal → Bool
  | .jarr l => hasUndefFieldItems l
  | .jobj kvs => hasUndefFieldFields kvs
  | _ => false

def hasUndefFieldItems : List JVal → Bool
  | [] => false
  | v :: rest => hasUndefField v || hasUndefFieldItems rest

def hasUndefFieldFields : List (String × JVal) → Bool
  | [] => false
  | (_, v) :: rest =>
      (match v with | .jundef => true | _ => false) ||
        (hasUndefField v || hasUndefFieldFields rest)
end

/-- Whether a value is the JS `undefined`. -/
def isUndefB : JVal → Bool
  | .jundef => true
  | _ => false

/-- Key-sorted insertion at the value level (mirror of `insertPair`). -/
def insertKV (x : String × JVal) : List (String × JVal) → List (String × JVal)
  | [] => [x]
  | y :: ys => if strLtB x.1 y.1 then x :: y :: ys else y :: insertKV x ys

/-- Key sort at the value level (mirror of `sortPairs`). -/
def sortKV : List (String × JVal) → List (String × JVal)
  | [] => []
  | x :: xs => insertKV x (sortKV xs)

/-- The serialized text of a defined value (`undefined` contributes nothing). -/
def serV (v : JVal) : List Char := (stableSerCore v).getD []

/-- The text a field value contributes (template-literal interpolation). -/
def valText (v : JVal) : List Char :=
  match stableSerCore v with
  | none => ['u', 'n', 'd', 'e', 'f', 'i', 'n', 'e', 'd']
  | some cs => cs

/-- The text between the brackets of a serialized array. -/
def itemsText (l : List JVal) : List Char := joinComma (stableItemParts l)

/-- The text between the braces of a serialized object (before sorting). -/
def fieldsText (kvs : List (String × JVal)) : List Char :=
  joinComma ((stableFieldParts kvs).map (fun kv => serStr kv.1 ++ ':' :: kv.2))

/-! ## Concrete fixtures used by witnesses and counterexamples -/

namespace Fixtures

/-- A pending approval awaiting a two-person security/platform quorum, with
alice (security) already recorded. -/
def pendingQuorum : Approval.ApprovalRecord :=
  { id := "a2", created_at := 0, expires_at := 100000, status := .pending,
    required_approvals := 2,
    required_roles := some (.jarr [.jstr "platform", .jstr "security"]), max_uses := 1,
    use_count := 0, last_used_at := none,
    approval_actors := some (.jarr [.jstr "alice"]),
    approval_actor_roles := some (.jobj [("alice", JVal.jstr "security")]),
    request_fingerprint := "fp", reason := "demo", metadata_raw := "\x7b\x7d",
    metadata := some (.jobj []), resolved_by := none, resolved_at := none }

/-- Three source rows for an attestation snapshot. -/
def attRows : List Approval.ApprovalRecord :=
  [{ pendingQuorum with id := "e0" }, { pendingQuorum with id := "e1" },
   { pendingQuorum with id := "e2" }]

/-- A statically keyed signing configuration. -/
def attCfg : Attest.SigningConfig := { signingKeyring := none, signingKey := "k" }

/-- A concrete stand-in for `hmacSha256Hex` used in tamper scenarios (the
signature layer is not what those scenarios exercise). -/
def attHmac : String → String → String := fun key msg => key ++ msg

/-- A concrete stand-in for the SHA-256 digest in tamper scenarios: it keeps
hash strings short while still distinguishing the serializations a metadata
mutation produces. -/
def attHash : String → String := fun s => toString s.length

/-- The generated three-entry snapshot. -/
def attPayload : Attest.AttPayload :=
  Attest.generate attHash attHmac attCfg attRows "2024-01-01" ""

def dummyEntry : Attest.AttEntry :=
  { id := "", created_at := 0, expires_at := 0, status := .pending, required_approvals := 0,
    max_uses := 0, use_count := 0, last_used_at := none, approval_actors := [],
    required_roles := [], approval_actor_roles := [], request_fingerprint := "", reason := "",
    resolved_by := none, resolved_at := none, metadata := .jnull, previous_hash := "",
    entry_hash := "" }

/-- `attPayload.entries[1]` with its metadata overwritten. -/
def tamperedEntry1 : Attest.AttEntry :=
  { attPayload.entries.getD 1 dummyEntry with metadata := JVal.jstr "tampered" }

/-- `attPayload.entries[0]` with its metadata overwritten. -/
def tamperedEntry0 : Attest.AttEntry :=
  { attPayload.entries.getD 0 dummyEntry with metadata := JVal.jstr "tampered" }

/-- The snapshot with `entries[1].metadata` mutated. -/
def tamperedPayload1 : Attest.AttPayload :=
  { attPayload with
    entries := attPayload.entries.take 1 ++ tamperedEntry1 :: attPayload.entries.drop 2 }

/-- The snapshot with `entries[0].metadata` mutated. -/
def tamperedPayload0 : Attest.AttPayload :=
  { attPayload with
    entries := attPayload.entries.take 0 ++ tamperedEntry0 :: attPayload.entries.drop 1 }

end Fixtures

/-! # Theorems -/

/-! ## Generic string and list lemmas -/

theorem isPrefixListB_self_append (a r : List Char) : isPrefixListB a (a ++ r) = true := by
  induction a with
  | nil => simp [isPrefixListB]
  | cons c cs ih => simp [isPrefixListB, ih]

theorem isPrefixListB_extend (p s r : List Char) (h : isPrefixListB p s = true) :
    isPrefixListB p (s ++ r) = true := by
  induction p generalizing s with
  | nil => simp [isPrefixListB]
  | cons c cs ih =>
    cases s with
    | nil => simp [isPrefixListB] at h
    | cons d ds =>
      simp [isPrefixListB] at h ⊢
      exact ⟨h.1, ih ds h.2⟩

theorem startsWithB_of_lit (s x : String) (p : String)
    (h : isPrefixListB p.data s.data = true) : startsWithB (s ++ x) p = true := by
  simp only [startsWithB, String.data_append]
  exact isPrefixListB_extend _ _ _ h

theorem startsWithB_false_of_head (s x : String) (p : String) (c d : Char) (cs ds : List Char)
    (hs : s.data = c :: cs) (hp : p.data = d :: ds) (h : (d == c) = false) :
    startsWithB (s ++ x) p = false := by
  simp only [startsWithB, String.data_append, hs, hp, List.cons_append, isPrefixListB, h,
    Bool.false_and]

theorem any_false {α : Type} (l : List α) : (l.any fun _ => false) = false := by
  induction l with
  | nil => rfl
  | cons x xs ih => simp [List.any_cons, ih]

theorem any_and_false {α : Type} (l : List α) (c : α → Bool) :
    (l.any fun p => c p && false) = false := by
  induction l with
  | nil => rfl
  | cons x xs ih => simp [List.any_cons, ih]

theorem any_filterMap_if {α : Type} (l : List α) (c : α → Bool) (m : α → String)
    (f : String → Bool) :
    ((l.filterMap fun p => if c p then some (m p) else none).any f) =
      l.any fun p => c p && f (m p) := by
  induction l with
  | nil => rfl
  | cons x xs ih =>
    by_cases h : c x = true
    · simp [List.filterMap_cons, h, List.any_cons, ih]
    · simp only [Bool.not_eq_true] at h
      simp [List.filterMap_cons, h, List.any_cons, ih]


theorem any_if_singleton (c : Prop) [Decidable c] (s : String) (f : String → Bool) :
    ((if c then [s] else []).any f) = (decide c && f s) := by
  split <;> rename_i h <;> simp [h]

theorem decide_bool_eq (b : Bool) : (decide (b = true)) = b := by cases b <;> simp

/-! ## Claim C1: policy tie-break -/

theorem policy_hasCritical_eq (e : Policy.PolicyRules) (input : Policy.PolicyInput) :
    ((Policy.signalsOf e input).any fun signal => startsWithB signal "critical-pattern") =
      Policy.criticalHit e input := by
  unfold Policy.signalsOf Policy.criticalHit
  have ht : ∀ x : String, startsWithB ("high-risk-tool:" ++ x) "critical-pattern" = false :=
    fun x => startsWithB_false_of_head _ _ _ 'h' 'c' _ _ rfl rfl (by decide)
  have hc : ∀ x : String, startsWithB ("critical-pattern:" ++ x) "critical-pattern" = true :=
    fun x => startsWithB_of_lit _ _ _ (by decide)
  have hh : ∀ x : String, startsWithB ("high-risk-pattern:" ++ x) "critical-pattern" = false :=
    fun x => startsWithB_false_of_head _ _ _ 'h' 'c' _ _ rfl rfl (by decide)
  have hm : ∀ x : String, startsWithB ("modality:" ++ x) "critical-pattern" = false :=
    fun x => startsWithB_false_of_head _ _ _ 'm' 'c' _ _ rfl rfl (by decide)
  have hp : startsWithB "high-risk-path:admin-system" "critical-pattern" = false := by decide
  simp only [List.any_append, any_filterMap_if, any_if_singleton]
  simp only [ht, hc, hh, hm, hp, Bool.and_true, Bool.and_false, any_and_false]
  simp [any_false]

theorem policy_hasHighRisk_eq (e : Policy.PolicyRules) (input : Policy.PolicyInput) :
    ((Policy.signalsOf e input).any fun signal => startsWithB signal "high-risk") =
      Policy.highRiskHit e input := by
  unfold Policy.signalsOf Policy.highRiskHit
  have ht : ∀ x : String, startsWithB ("high-risk-tool:" ++ x) "high-risk" = true :=
    fun x => startsWithB_of_lit _ _ _ (by decide)
  have hc : ∀ x : String, startsWithB ("critical-pattern:" ++ x) "high-risk" = false :=
    fun x => startsWithB_false_of_head _ _ _ 'c' 'h' _ _ rfl rfl (by decide)
  have hh : ∀ x : String, startsWithB ("high-risk-pattern:" ++ x) "high-risk" = true :=
    fun x => startsWithB_of_lit _ _ _ (by decide)
  have hm : ∀ x : String, startsWithB ("modality:" ++ x) "high-risk" = false :=
    fun x => startsWithB_false_of_head _ _ _ 'm' 'h' _ _ rfl rfl (by decide)
  have hp : startsWithB "high-risk-path:admin-system" "high-risk" = true := by decide
  simp only [List.any_append, any_filterMap_if, any_if_singleton]
  simp only [ht, hc, hh, hm, hp, Bool.and_true, Bool.and_false, any_and_false,
    decide_bool_eq]
  simp [any_false, Bool.or_assoc]

/-- C1: any critical pattern contained in the lowercased JSON serialization of
the body forces `block` at `critical` risk; otherwise any high-risk signal
(tool name, body pattern, or admin/system path with a non-GET method) forces
`require_approval` at `high`; otherwise `allow` at `low`.  In every case
`matchedSignals` is exactly the matched-signal list, in evaluation order. -/
theorem policy_evaluate_tiebreak (e : Policy.PolicyRules) (input : Policy.PolicyInput) :
    (Policy.evaluate e input).decision =
      (if Policy.criticalHit e input then Policy.DecisionType.block
       else if Policy.highRiskHit e input then Policy.DecisionType.require_approval
       else Policy.DecisionType.allow) ∧
    (Policy.evaluate e input).riskClass =
      (if Policy.criticalHit e input then Policy.RiskClass.critical
       else if Policy.highRiskHit e input then Policy.RiskClass.high
       else Policy.RiskClass.low) ∧
    (Policy.evaluate e input).matchedSignals = Policy.signalsOf e input := by
  have h1 := policy_hasCritical_eq e input
  have h2 := policy_hasHighRisk_eq e input
  by_cases hcrit : Policy.criticalHit e input = true
  · simp [Policy.evaluate, h1, h2, hcrit]
  · simp only [Bool.not_eq_true] at hcrit
    by_cases hhigh : Policy.highRiskHit e input = true
    · simp [Policy.evaluate, h1, h2, hcrit, hhigh]
    · simp only [Bool.not_eq_true] at hhigh
      simp [Policy.evaluate, h1, h2, hcrit, hhigh]

/-! ## Claim C4: capability gate semantics -/

theorem firstToolDenial_none_iff (rules : Capability.CapabilityRules) (l : List String) :
    (Capability.firstToolDenial rules l = none) =
      (l.all fun tool =>
        (Capability.decisionFromRule tool rules.mode rules.allowTools rules.denyTools
          .tool).allowed) := by
  induction l with
  | nil => simp [Capability.firstToolDenial]
  | cons t ts ih =>
    by_cases h : (Capability.decisionFromRule t rules.mode rules.allowTools rules.denyTools
        .tool).allowed = true
    · simp [Capability.firstToolDenial, h, ih]
    · simp only [Bool.not_eq_true] at h
      simp [Capability.firstToolDenial, h]

theorem firstToolDenial_some_allowed (rules : Capability.CapabilityRules) (l : List String)
    (d : Capability.CapabilityDecision) (hfd : Capability.firstToolDenial rules l = some d) :
    d.allowed = false := by
  induction l with
  | nil => simp [Capability.firstToolDenial] at hfd
  | cons t ts ih =>
    simp only [Capability.firstToolDenial] at hfd
    by_cases h : (Capability.decisionFromRule t rules.mode rules.allowTools
        rules.denyTools .tool).allowed = true
    · rw [if_pos h] at hfd
      exact ih hfd
    · rw [if_neg h] at hfd
      injection hfd with h2
      rw [← h2]
      simpa using h

/-- C4 counterexample: with `mode = allow`, `allow_tools = ["a"]`,
`deny_tools = []`, the tool `"b"` is predicted *allowed* by the claim wording
but the code denies it (allowlist miss denies regardless of mode). -/
theorem capability_gate_counterexample :
    Capability.claimC4Allowed "b" .allow ["a"] [] = true ∧
    (Capability.decisionFromRule "b" .allow ["a"] [] .tool).allowed = false ∧
    (Capability.decisionFromRule "b" .allow ["a"] [] .tool).reason =
      "tool not present in capability allowlist." := by
  refine ⟨rfl, rfl, rfl⟩

/-- C4 amended: per requested tool name the gate denies names in `deny_tools`;
otherwise, when `allow_tools` is non-empty the name is allowed exactly when
listed there (an allowlist miss denies even under `mode = allow`); only with an
empty allowlist does the mode decide.  `evaluateToolExecution` allows a
non-empty batch exactly when the `tool.execute` action gate and every
normalized tool name pass that rule. -/
theorem capability_gate_spec (value : String) (mode : Capability.CapabilityMode)
    (allowSet denySet : List String) (valueType : Capability.ValueType)
    (rules : Capability.CapabilityRules) (toolNames : List String) :
    ((Capability.decisionFromRule value mode allowSet denySet valueType).allowed =
      (!denySet.contains value &&
        (if 0 < allowSet.length then allowSet.contains value
         else decide (mode = .allow)))) ∧
    ((Capability.evaluateToolExecution rules toolNames).allowed =
      (if (Capability.normalizeList toolNames).length = 0 then true
       else
        (Capability.decisionFromRule "tool.execute" rules.mode rules.allowActions
          rules.denyActions .action).allowed &&
        ((Capability.normalizeList toolNames).all fun tool =>
          (Capability.decisionFromRule tool rules.mode rules.allowTools rules.denyTools
            .tool).allowed))) := by
  constructor
  · by_cases hd : value ∈ denySet
    · simp [Capability.decisionFromRule, hd]
    · by_cases ha : 0 < allowSet.length
      · by_cases hav : value ∈ allowSet
        · simp [Capability.decisionFromRule, hd, ha, hav]
        · simp [Capability.decisionFromRule, hd, ha, hav]
      · have hlen : allowSet.length = 0 := by omega
        cases mode <;> simp [Capability.decisionFromRule, hd, hlen]
  · by_cases hz : (Capability.normalizeList toolNames).length = 0
    · unfold Capability.evaluateToolExecution
      simp [hz]
    · by_cases hact : (Capability.decisionFromRule "tool.execute" rules.mode rules.allowActions
          rules.denyActions .action).allowed = true
      · cases hfd : Capability.firstToolDenial rules (Capability.normalizeList toolNames) with
        | none =>
          have hall := (firstToolDenial_none_iff rules (Capability.normalizeList toolNames))
          rw [hfd] at hall
          simp [Capability.evaluateToolExecution, hz, hact, hfd, ← hall]
        | some d =>
          have hdal : d.allowed = false := firstToolDenial_some_allowed rules _ d hfd
          have hnall : ((Capability.normalizeList toolNames).all fun tool =>
              (Capability.decisionFromRule tool rules.mode rules.allowTools rules.denyTools
                .tool).allowed) = false := by
            have hiff := firstToolDenial_none_iff rules (Capability.normalizeList toolNames)
            rw [hfd] at hiff
            by_cases hq : ((Capability.normalizeList toolNames).all fun tool =>
                (Capability.decisionFromRule tool rules.mode rules.allowTools rules.denyTools
                  .tool).allowed) = true
            · rw [hq] at hiff
              simp at hiff
            · simpa using hq
          simp [Capability.evaluateToolExecution, hz, hact, hfd, hnall]
      · simp only [Bool.not_eq_true] at hact
        simp [Capability.evaluateToolExecution, hz, hact]

/-! ## Claim C5: budget suspension reason (amounts in 1e-4 USD units:
0.99 USD = 9900, 0.05 USD = 500, 1.00 USD = 10000) -/

/-- C5 counterexample: with an hourly cap of 1.00 USD, 0.99 USD of recorded
cost inside the rolling hour and a 0.05 USD projection, the decision is
`suspend` and the state transitions to suspended, but the reason is rendered
with `toFixed(4)` and therefore does not contain the claimed substring
`"1.04 > 1.00"`. -/
theorem budget_suspension_counterexample :
    (Budget.evaluateProjected
        { hourlyUsdCap := 10000, dailyUsdCap := 10000000 }
        { suspended := false, reason := none, triggeredAt := none,
          events := [{ timestamp := 0, model := "m", inputTokens := 0, outputTokens := 0,
                       usdCost := 9900, requestPath := "/v1/chat" }] }
        { model := "m", inputTokens := 0, outputTokens := 0, estimatedUsd := 500 }
        0).2.1 = Budget.BudgetDecision.suspend ∧
    (Budget.evaluateProjected
        { hourlyUsdCap := 10000, dailyUsdCap := 10000000 }
        { suspended := false, reason := none, triggeredAt := none,
          events := [{ timestamp := 0, model := "m", inputTokens := 0, outputTokens := 0,
                       usdCost := 9900, requestPath := "/v1/chat" }] }
        { model := "m", inputTokens := 0, outputTokens := 0, estimatedUsd := 500 }
        0).2.2 = some "Hourly compute budget exceeded (1.0400 > 1.0000 USD)." ∧
    (Budget.evaluateProjected
        { hourlyUsdCap := 10000, dailyUsdCap := 10000000 }
        { suspended := false, reason := none, triggeredAt := none,
          events := [{ timestamp := 0, model := "m", inputTokens := 0, outputTokens := 0,
                       usdCost := 9900, requestPath := "/v1/chat" }] }
        { model := "m", inputTokens := 0, outputTokens := 0, estimatedUsd := 500 }
        0).1.suspended = true ∧
    containsB "Hourly compute budget exceeded (1.0400 > 1.0000 USD)." "1.04 > 1.00" = false := by
  refine ⟨by decide, by decide, by decide, by decide⟩

/-- C5 amended: in the claimed scenario (no prior suspension, rolling-hour
actuals of 0.99 USD, hourly cap 1.00 USD, projection 0.05 USD) the projected
evaluation suspends the budget and returns a suspend decision whose reason
contains the `toFixed(4)`-rendered values `"1.0400 > 1.0000"`. -/
theorem budget_projected_suspension (policy : Budget.BudgetPolicy) (st : Budget.BudgetStore)
    (est : Budget.CostEstimate) (now : Int)
    (hs : st.suspended = false)
    (hu : (Budget.readUsage st.events now).1 = 9900)
    (hc : policy.hourlyUsdCap = 10000)
    (he : est.estimatedUsd = 500) :
    Budget.evaluateProjected policy st est now =
      (Budget.suspendStore st "Hourly compute budget exceeded (1.0400 > 1.0000 USD)." now,
       Budget.BudgetDecision.suspend,
       some "Hourly compute budget exceeded (1.0400 > 1.0000 USD).") ∧
    (Budget.evaluateProjected policy st est now).1.suspended = true ∧
    containsB "Hourly compute budget exceeded (1.0400 > 1.0000 USD)." "1.0400 > 1.0000" =
      true := by
  have hmain : Budget.evaluateProjected policy st est now =
      (Budget.suspendStore st "Hourly compute budget exceeded (1.0400 > 1.0000 USD)." now,
       Budget.BudgetDecision.suspend,
       some "Hourly compute budget exceeded (1.0400 > 1.0000 USD).") := by
    unfold Budget.evaluateProjected
    rw [hs]
    simp only [Bool.false_eq_true, if_false]
    rw [hu, hc, he]
    rw [if_pos (by decide)]
    have h1 : Budget.toFixed4 (9900 + 500) = "1.0400" := by decide
    have h2 : Budget.toFixed4 (10000 : Int) = "1.0000" := by decide
    rw [h1, h2]
    have h3 : "Hourly compute budget exceeded (" ++ "1.0400" ++ " > " ++ "1.0000" ++ " USD)." =
        "Hourly compute budget exceeded (1.0400 > 1.0000 USD)." := by decide
    rw [h3]
  refine ⟨hmain, ?_, by decide⟩
  rw [hmain]
  rfl

/-- C5 witness: the amended theorem applied to the concrete scenario store. -/
theorem budget_projected_suspension_witness :
    Budget.evaluateProjected
        { hourlyUsdCap := 10000, dailyUsdCap := 10000000 }
        { suspended := false, reason := none, triggeredAt := none,
          events := [{ timestamp := 0, model := "m", inputTokens := 0, outputTokens := 0,
                       usdCost := 9900, requestPath := "/v1/chat" }] }
        { model := "m", inputTokens := 0, outputTokens := 0, estimatedUsd := 500 }
        0 =
      (Budget.suspendStore
        { suspended := false, reason := none, triggeredAt := none,
          events := [{ timestamp := 0, model := "m", inputTokens := 0, outputTokens := 0,
                       usdCost := 9900, requestPath := "/v1/chat" }] }
        "Hourly compute budget exceeded (1.0400 > 1.0000 USD)." 0,
       Budget.BudgetDecision.suspend,
       some "Hourly compute budget exceeded (1.0400 > 1.0000 USD).") :=
  (budget_projected_suspension _ _ _ 0 rfl (by decide) rfl rfl).1

/-! ## Claim C2: consumeApproved -/

theorem any_eq_of_uniqueKey {α : Type} (db : List α) (P : α → Bool) (key : α → String)
    (r : α) (hr : r ∈ db) (hnd : (db.map key).Nodup)
    (hP : ∀ s, P s = true → key s = key r) :
    db.any P = P r := by
  induction db with
  | nil => cases hr
  | cons x xs ih =>
    rw [List.map_cons, List.nodup_cons] at hnd
    rw [List.any_cons]
    rcases List.mem_cons.mp hr with hx | hxs
    · subst hx
      cases hPx : P r
      · rw [Bool.false_or]
        cases hany : xs.any P
        · rfl
        · rcases List.any_eq_true.mp hany with ⟨s, hs, hPs⟩
          exact absurd ((hP s hPs) ▸ List.mem_map_of_mem key hs) hnd.1
      · rw [Bool.true_or]
    · have hPx : P x = false := by
        cases hPx : P x
        · rfl
        · exact absurd ((hP x hPx).symm ▸ List.mem_map_of_mem key hxs) hnd.1
      rw [hPx, Bool.false_or]
      exact ih hxs hnd.2

theorem find_eq_of_unique {α : Type} (db : List α) (Q : α → Bool) (r : α) (hr : r ∈ db)
    (hQr : Q r = true) (huniq : ∀ s, s ∈ db → Q s = true → s = r) :
    db.find? Q = some r := by
  induction db with
  | nil => cases hr
  | cons x xs ih =>
    by_cases hQx : Q x = true
    · have hxr : x = r := huniq x (List.mem_cons_self x xs) hQx
      subst hxr
      rw [List.find?_cons_of_pos _ hQx]
    · have hQx2 : Q x = false := by simpa using hQx
      rcases List.mem_cons.mp hr with hx | hxs
      · subst hx
        rw [hQr] at hQx2
        cases hQx2
      · rw [List.find?_cons_of_neg _ (by simp [hQx2])]
        exact ih hxs (fun s hs => huniq s (List.mem_cons_of_mem x hs))

namespace Approval

/-- The per-row action of `cleanupExpired`. -/
def cleanupRec (now : Int) (r : ApprovalRecord) : ApprovalRecord :=
  if r.status = .pending ∧ r.expires_at < now then { r with status := .expired } else r

/-- The per-row action of the `consumeApproved` UPDATE. -/
def consumeRec (id fp : String) (now : Int) (r : ApprovalRecord) : ApprovalRecord :=
  if consumeMatches id fp now r then
    { r with use_count := r.use_count + 1, last_used_at := some now }
  else r

theorem cleanupExpired_eq_map (db : List ApprovalRecord) (now : Int) :
    cleanupExpired db now = db.map (cleanupRec now) := rfl

theorem consumeApproved_eq (db : List ApprovalRecord) (id fp : String) (now : Int) :
    consumeApproved db id fp now =
      ((db.map (cleanupRec now)).map (consumeRec id fp now),
       (db.map (cleanupRec now)).any (consumeMatches id fp now)) := rfl

theorem cleanupRec_id (now : Int) (r : ApprovalRecord) : (cleanupRec now r).id = r.id := by
  unfold cleanupRec
  split <;> rfl

theorem cleanupRec_use_count (now : Int) (r : ApprovalRecord) :
    (cleanupRec now r).use_count = r.use_count := by
  unfold cleanupRec
  split <;> rfl

theorem cleanupRec_max_uses (now : Int) (r : ApprovalRecord) :
    (cleanupRec now r).max_uses = r.max_uses := by
  unfold cleanupRec
  split <;> rfl

theorem consumeRec_id (id fp : String) (now : Int) (r : ApprovalRecord) :
    (consumeRec id fp now r).id = r.id := by
  unfold consumeRec
  split <;> rfl

theorem consumeMatches_cleanupRec (id fp : String) (now : Int) (r : ApprovalRecord) :
    consumeMatches id fp now (cleanupRec now r) = consumeMatches id fp now r := by
  unfold cleanupRec
  split
  · rename_i h
    unfold consumeMatches
    simp [h.1]
  · rfl

theorem cleanupRec_of_approved (now : Int) (r : ApprovalRecord) (h : r.status = .approved) :
    cleanupRec now r = r := by
  unfold cleanupRec
  rw [if_neg]
  intro hcon
  rw [h] at hcon
  cases hcon.1

theorem consumeMatches_fields (id fp : String) (now : Int) (r : ApprovalRecord)
    (h : consumeMatches id fp now r = true) :
    r.id = id ∧ r.status = .approved ∧ r.request_fingerprint = fp ∧ now ≤ r.expires_at ∧
      r.use_count < r.max_uses := by
  unfold consumeMatches at h
  simpa using h

end Approval

/-- C2: with unique record ids, `consumeApproved(id, fp)` updates and returns
true exactly when the addressed record is `approved` with matching
fingerprint, unexpired, and has remaining uses; on success it increments that
record and stamps `last_used_at`; on failure every `use_count` in the table is
unchanged; and `use_count ≤ max_uses` is preserved across the call for every
record. -/
theorem consumeApproved_spec (db : List Approval.ApprovalRecord) (id fp : String) (now : Int)
    (r : Approval.ApprovalRecord) (hr : r ∈ db) (hid : r.id = id)
    (hnd : (db.map (fun s => s.id)).Nodup) :
    ((Approval.consumeApproved db id fp now).2 = Approval.consumeMatches id fp now r) ∧
    ((Approval.consumeApproved db id fp now).2 = true →
      Approval.getById (Approval.consumeApproved db id fp now).1 id =
        some { r with use_count := r.use_count + 1, last_used_at := some now }) ∧
    ((Approval.consumeApproved db id fp now).2 = false →
      ((Approval.consumeApproved db id fp now).1.map (fun s => s.use_count)) =
        db.map (fun s => s.use_count)) ∧
    ((∀ s ∈ db, s.use_count ≤ s.max_uses) →
      ∀ s ∈ (Approval.consumeApproved db id fp now).1, s.use_count ≤ s.max_uses) := by
  have hinj := List.inj_on_of_nodup_map hnd
  have hM : ∀ s, Approval.consumeMatches id fp now s = true → s.id = r.id := by
    intro s hs
    rw [hid]
    exact (Approval.consumeMatches_fields id fp now s hs).1
  have hchanged : (Approval.consumeApproved db id fp now).2 =
      Approval.consumeMatches id fp now r := by
    rw [Approval.consumeApproved_eq, List.any_map]
    have := any_eq_of_uniqueKey db
      ((Approval.consumeMatches id fp now) ∘ (Approval.cleanupRec now)) (fun s => s.id) r hr hnd
      (by
        intro s hs
        simp only [Function.comp] at hs
        rw [Approval.consumeMatches_cleanupRec] at hs
        exact hM s hs)
    rw [this]
    simp only [Function.comp]
    rw [Approval.consumeMatches_cleanupRec]
  refine ⟨hchanged, ?_, ?_, ?_⟩
  · intro htrue
    rw [hchanged] at htrue
    have happr : r.status = .approved := (Approval.consumeMatches_fields id fp now r htrue).2.1
    have hcr : Approval.cleanupRec now r = r := Approval.cleanupRec_of_approved now r happr
    rw [Approval.consumeApproved_eq]
    show ((db.map (Approval.cleanupRec now)).map (Approval.consumeRec id fp now)).find?
      (fun s => s.id = id) = _
    rw [List.map_map]
    have hgr : (Approval.consumeRec id fp now ∘ Approval.cleanupRec now) r =
        { r with use_count := r.use_count + 1, last_used_at := some now } := by
      simp only [Function.comp, hcr]
      unfold Approval.consumeRec
      rw [if_pos htrue]
    rw [← hgr]
    apply find_eq_of_unique
    · exact List.mem_map_of_mem _ hr
    · rw [hgr]
      simp [hid]
    · intro s hs hQs
      rcases List.mem_map.mp hs with ⟨t, ht, hts⟩
      have htid : t.id = id := by
        have : s.id = t.id := by
          rw [← hts]
          simp only [Function.comp]
          rw [Approval.consumeRec_id, Approval.cleanupRec_id]
        rw [← this]
        simpa using hQs
      have htr : t = r := hinj ht hr (by rw [htid, hid])
      rw [← hts, htr]
  · intro hfalse
    rw [hchanged] at hfalse
    rw [Approval.consumeApproved_eq]
    show (((db.map (Approval.cleanupRec now)).map (Approval.consumeRec id fp now)).map
      (fun s => s.use_count)) = _
    rw [List.map_map, List.map_map]
    apply List.map_congr_left
    intro t ht
    simp only [Function.comp]
    by_cases hMt : Approval.consumeMatches id fp now (Approval.cleanupRec now t) = true
    · exfalso
      have hMt2 : Approval.consumeMatches id fp now t = true := by
        rw [← Approval.consumeMatches_cleanupRec]
        exact hMt
      have := hinj ht hr (hM t hMt2)
      subst this
      rw [hMt2] at hfalse
      cases hfalse
    · unfold Approval.consumeRec
      rw [if_neg (by simp [hMt])]
      exact Approval.cleanupRec_use_count now t
  · intro hinv s hs
    rw [Approval.consumeApproved_eq] at hs
    rcases List.mem_map.mp hs with ⟨t0, ht0, hts⟩
    rcases List.mem_map.mp ht0 with ⟨t, ht, htt⟩
    by_cases hMt : Approval.consumeMatches id fp now t0 = true
    · have hlt : t0.use_count < t0.max_uses :=
        (Approval.consumeMatches_fields id fp now t0 hMt).2.2.2.2
      rw [← hts]
      unfold Approval.consumeRec
      rw [if_pos hMt]
      show t0.use_count + 1 ≤ t0.max_uses
      omega
    · rw [← hts]
      unfold Approval.consumeRec
      rw [if_neg (by simp [hMt])]
      rw [← htt, Approval.cleanupRec_use_count, Approval.cleanupRec_max_uses]
      exact hinv t ht

/-- C2 witness: the theorem applied to a one-row table holding an approved
record with one remaining use. -/
theorem consumeApproved_spec_witness :
    (Approval.consumeApproved
      [{ id := "a1", created_at := 0, expires_at := 100000, status := .approved,
         required_approvals := 1, required_roles := some (.jarr []), max_uses := 1,
         use_count := 0, last_used_at := none, approval_actors := some (.jarr []),
         approval_actor_roles := some (.jobj []), request_fingerprint := "fp",
         reason := "demo", metadata_raw := "\x7b\x7d", metadata := some (.jobj []),
         resolved_by := none, resolved_at := none }] "a1" "fp" 7).2 =
      Approval.consumeMatches "a1" "fp" 7
        { id := "a1", created_at := 0, expires_at := 100000, status := .approved,
          required_approvals := 1, required_roles := some (.jarr []), max_uses := 1,
          use_count := 0, last_used_at := none, approval_actors := some (.jarr []),
          approval_actor_roles := some (.jobj []), request_fingerprint := "fp",
          reason := "demo", metadata_raw := "\x7b\x7d", metadata := some (.jobj []),
          resolved_by := none, resolved_at := none } :=
  (consumeApproved_spec _ "a1" "fp" 7 _ (List.mem_singleton.mpr rfl) rfl (by simp)).1

/-! ## Claim C3: approve quorum transition -/

namespace Approval

theorem cleanupRec_of_not_pending (now : Int) (r : ApprovalRecord) (h : r.status ≠ .pending) :
    cleanupRec now r = r := by
  unfold cleanupRec
  rw [if_neg]
  intro hcon
  exact h hcon.1

theorem cleanupRec_of_unexpired (now : Int) (r : ApprovalRecord) (h : now ≤ r.expires_at) :
    cleanupRec now r = r := by
  unfold cleanupRec
  rw [if_neg]
  intro hcon
  omega

theorem getById_map_unique (db : List ApprovalRecord) (g : ApprovalRecord → ApprovalRecord)
    (hg : ∀ s, (g s).id = s.id) (r : ApprovalRecord) (hr : r ∈ db) (id : String)
    (hid : r.id = id) (hnd : (db.map (fun s => s.id)).Nodup) :
    getById (db.map g) id = some (g r) := by
  have hinj := List.inj_on_of_nodup_map hnd
  apply find_eq_of_unique
  · exact List.mem_map_of_mem g hr
  · simp [hg, hid]
  · intro s hs hQs
    rcases List.mem_map.mp hs with ⟨t, ht, hts⟩
    have htid : t.id = id := by
      rw [← hg t, hts]
      simpa using hQs
    have := hinj ht hr (by rw [htid, hid])
    rw [← hts, this]

theorem normalizeRequiredApprovalsI_id (x : Int) (h1 : 1 ≤ x) (h5 : x ≤ 5) :
    normalizeRequiredApprovalsI x = x := by
  unfold normalizeRequiredApprovalsI
  omega

end Approval

/-- C3: `approve(id, actor, role)` on a pending, unexpired record (with the
stored quorum size in its schema range `1..5` and unique ids) accumulates the
trimmed actor and its normalized role, and transitions the record to
`approved` exactly when the distinct-actor count reaches `required_approvals`
and every required role appears among the recorded actor roles; otherwise the
record stays `pending` with the actor and role accumulated.  Once the status
is not `pending`, `approve` returns the record unchanged. -/
theorem approve_quorum_spec (db : List Approval.ApprovalRecord) (id actor role : String)
    (now : Int) (r : Approval.ApprovalRecord) (hr : r ∈ db) (hid : r.id = id)
    (hnd : (db.map (fun s => s.id)).Nodup) (hactor : trimStr actor ≠ "")
    (hreq1 : 1 ≤ r.required_approvals) (hreq5 : r.required_approvals ≤ 5) :
    (r.status = .pending → now ≤ r.expires_at →
      (∃ db2,
        Approval.approve db id actor role now = Except.ok (db2,
          (if r.required_approvals ≤
              ((sortStrs (dedupFirst (Approval.parseApprovalActors r.approval_actors ++
                [trimStr actor]))).length : Int) ∧
              (((Approval.parseRoleArray r.required_roles).all fun requiredRole =>
                ((Approval.upsertAL (trimStr actor) (Approval.normalizeActorRole role)
                  (Approval.parseApprovalActorRoles r.approval_actor_roles)).map
                    (fun kv => kv.2)).contains requiredRole) = true) then
            { r with status := .approved
                     approval_actors := some (.jarr
                       ((sortStrs (dedupFirst (Approval.parseApprovalActors r.approval_actors ++
                         [trimStr actor]))).map .jstr))
                     approval_actor_roles := some (.jobj
                       ((Approval.upsertAL (trimStr actor) (Approval.normalizeActorRole role)
                         (Approval.parseApprovalActorRoles r.approval_actor_roles)).map
                           (fun kv => (kv.1, JVal.jstr kv.2))))
                     resolved_by := some (trimStr actor)
                     resolved_at := some now }
          else
            { r with approval_actors := some (.jarr
                       ((sortStrs (dedupFirst (Approval.parseApprovalActors r.approval_actors ++
                         [trimStr actor]))).map .jstr))
                     approval_actor_roles := some (.jobj
                       ((Approval.upsertAL (trimStr actor) (Approval.normalizeActorRole role)
                         (Approval.parseApprovalActorRoles r.approval_actor_roles)).map
                           (fun kv => (kv.1, JVal.jstr kv.2)))) })))) ∧
    (r.status ≠ .pending →
      Approval.approve db id actor role now =
        Except.ok (Approval.cleanupExpired db now, r)) := by
  have hndc : ((Approval.cleanupExpired db now).map (fun s => s.id)).Nodup := by
    rw [Approval.cleanupExpired_eq_map, List.map_map]
    have heq : ((fun s => Approval.ApprovalRecord.id s) ∘ Approval.cleanupRec now) =
        (fun s => s.id) := by
      funext s
      exact Approval.cleanupRec_id now s
    rw [heq]
    exact hnd
  constructor
  · intro hpend hunexp
    have hcr : Approval.cleanupRec now r = r := Approval.cleanupRec_of_unexpired now r hunexp
    have hrc : r ∈ Approval.cleanupExpired db now := by
      rw [Approval.cleanupExpired_eq_map, ← hcr]
      exact List.mem_map_of_mem _ hr
    have hget : Approval.getById (Approval.cleanupExpired db now) id = some r := by
      rw [Approval.cleanupExpired_eq_map]
      have := Approval.getById_map_unique db (Approval.cleanupRec now)
        (Approval.cleanupRec_id now) r hr id hid hnd
      rw [hcr] at this
      exact this
    have hnorm := Approval.normalizeRequiredApprovalsI_id r.required_approvals hreq1 hreq5
    have hns : ¬(r.status ≠ Approval.ApprovalStatus.pending) := by simp [hpend]
    unfold Approval.approve
    rw [if_neg hactor, hget]
    dsimp only
    rw [if_neg hns, hnorm]
    set actorList := sortStrs (dedupFirst (Approval.parseApprovalActors r.approval_actors ++
      [trimStr actor])) with hAL
    set roleMap := Approval.upsertAL (trimStr actor) (Approval.normalizeActorRole role)
      (Approval.parseApprovalActorRoles r.approval_actor_roles) with hRM
    by_cases hq : r.required_approvals ≤ (actorList.length : Int) ∧
        ((Approval.parseRoleArray r.required_roles).all fun requiredRole =>
          (roleMap.map (fun kv => kv.2)).contains requiredRole) = true
    · rw [if_pos hq, if_pos hq]
      have hget2 := Approval.getById_map_unique (Approval.cleanupExpired db now)
        (fun s => if s.id = id ∧ s.status = Approval.ApprovalStatus.pending then
          { s with status := .approved
                   approval_actors := some (.jarr (actorList.map .jstr))
                   approval_actor_roles := some (.jobj (roleMap.map
                     (fun kv => (kv.1, JVal.jstr kv.2))))
                   resolved_by := some (trimStr actor)
                   resolved_at := some now }
          else s)
        (by
          intro s
          dsimp only
          split <;> rfl)
        r hrc id hid hndc
      dsimp only at hget2
      rw [if_pos ⟨hid, hpend⟩] at hget2
      exact ⟨_, by rw [hget2]⟩
    · rw [if_neg hq, if_neg hq]
      have hget2 := Approval.getById_map_unique (Approval.cleanupExpired db now)
        (fun s => if s.id = id ∧ s.status = Approval.ApprovalStatus.pending then
          { s with approval_actors := some (.jarr (actorList.map .jstr))
                   approval_actor_roles := some (.jobj (roleMap.map
                     (fun kv => (kv.1, JVal.jstr kv.2)))) }
          else s)
        (by
          intro s
          dsimp only
          split <;> rfl)
        r hrc id hid hndc
      dsimp only at hget2
      rw [if_pos ⟨hid, hpend⟩] at hget2
      exact ⟨_, by rw [hget2]⟩
  · intro hnp
    have hcr : Approval.cleanupRec now r = r := Approval.cleanupRec_of_not_pending now r hnp
    have hget : Approval.getById (Approval.cleanupExpired db now) id = some r := by
      rw [Approval.cleanupExpired_eq_map]
      have := Approval.getById_map_unique db (Approval.cleanupRec now)
        (Approval.cleanupRec_id now) r hr id hid hnd
      rw [hcr] at this
      exact this
    unfold Approval.approve
    rw [if_neg hactor, hget]
    dsimp only
    rw [if_pos hnp]

/-- C3 witness: the quorum scenario of the spec (2 approvals required, roles
security and platform; alice/security already recorded; bob/platform
approves) transitions the record to `approved`. -/
theorem approve_quorum_spec_witness :
    ∃ db2, Approval.approve [Fixtures.pendingQuorum] "a2" "bob" "platform" 0 =
      Except.ok (db2,
        { id := "a2", created_at := 0, expires_at := 100000, status := .approved,
          required_approvals := 2,
          required_roles := some (.jarr [.jstr "platform", .jstr "security"]), max_uses := 1,
          use_count := 0, last_used_at := none,
          approval_actors := some (.jarr [.jstr "alice", .jstr "bob"]),
          approval_actor_roles := some (.jobj [("alice", JVal.jstr "security"),
            ("bob", JVal.jstr "platform")]),
          request_fingerprint := "fp", reason := "demo", metadata_raw := "\x7b\x7d",
          metadata := some (.jobj []), resolved_by := some "bob", resolved_at := some 0 }) := by
  obtain ⟨db2, heq⟩ := (approve_quorum_spec [Fixtures.pendingQuorum] "a2" "bob" "platform" 0
    Fixtures.pendingQuorum (List.mem_singleton.mpr rfl) rfl (by simp) (by decide) (by decide)
    (by decide)).1 rfl (by decide)
  exact ⟨db2, heq.trans (by with_unfolding_all rfl)⟩

/-! ## Claims C8 and C9: getOrCreatePending normalization -/

theorem normalizeMaxUsesNum_range (v : Option JsNum) :
    1 ≤ Approval.normalizeMaxUsesNum v ∧ Approval.normalizeMaxUsesNum v ≤ 100 := by
  unfold Approval.normalizeMaxUsesNum
  match v with
  | none => simp
  | some (.fin q) =>
      refine ⟨le_min (by norm_num) (le_max_left 1 (ratFloor q)), min_le_left _ _⟩
  | some .nan => simp
  | some .posInf => simp
  | some .negInf => simp

/-- C8: `normalizeMaxUses` clamps every caller-supplied value into `1..100`
(missing and non-finite values become 1), and `getOrCreatePending` keeps the
table invariant `1 ≤ max_uses ≤ 100` while giving any newly created record the
clamped value, so no caller input can make an approval consumable more than
100 times. -/
theorem getOrCreatePending_maxUses_clamped (db : List Approval.ApprovalRecord)
    (input : Approval.ApprovalCreateInput) (now : Int) (newId : String) :
    (1 ≤ Approval.normalizeMaxUsesNum input.maxUses ∧
      Approval.normalizeMaxUsesNum input.maxUses ≤ 100) ∧
    (Approval.normalizeMaxUsesNum none = 1 ∧ Approval.normalizeMaxUsesNum (some .nan) = 1 ∧
      Approval.normalizeMaxUsesNum (some .posInf) = 1 ∧
      Approval.normalizeMaxUsesNum (some .negInf) = 1) ∧
    ((Approval.getOrCreatePending db input now newId).2.2 = true →
      (Approval.getOrCreatePending db input now newId).2.1.max_uses =
        Approval.normalizeMaxUsesNum input.maxUses) ∧
    ((∀ s ∈ db, 1 ≤ s.max_uses ∧ s.max_uses ≤ 100) →
      ∀ s ∈ (Approval.getOrCreatePending db input now newId).1,
        1 ≤ s.max_uses ∧ s.max_uses ≤ 100) := by
  refine ⟨normalizeMaxUsesNum_range input.maxUses, ⟨rfl, rfl, rfl, rfl⟩, ?_, ?_⟩
  · intro hcreated
    unfold Approval.getOrCreatePending at hcreated ⊢
    dsimp only at hcreated ⊢
    cases hpick : Approval.pickLatestPending (Approval.cleanupExpired db now)
        input.requestFingerprint with
    | some existing =>
      rw [hpick] at hcreated
      dsimp only at hcreated
      exfalso
      revert hcreated
      split
      · simp
      · split
        · simp
        · simp
    | none => rfl
  · intro hinv s hs
    have hclean : ∀ t ∈ Approval.cleanupExpired db now, 1 ≤ t.max_uses ∧ t.max_uses ≤ 100 := by
      intro t ht
      rw [Approval.cleanupExpired_eq_map] at ht
      rcases List.mem_map.mp ht with ⟨t0, ht0, htt⟩
      rw [← htt, Approval.cleanupRec_max_uses]
      exact hinv t0 ht0
    unfold Approval.getOrCreatePending at hs
    dsimp only at hs
    cases hpick : Approval.pickLatestPending (Approval.cleanupExpired db now)
        input.requestFingerprint with
    | some existing =>
      rw [hpick] at hs
      dsimp only at hs
      have hdb1 : ∀ t ∈ (if existing.max_uses < Approval.normalizeMaxUsesNum input.maxUses then
          (Approval.cleanupExpired db now).map (fun r => if r.id = existing.id then
            { r with max_uses := Approval.normalizeMaxUsesNum input.maxUses } else r)
        else Approval.cleanupExpired db now), 1 ≤ t.max_uses ∧ t.max_uses ≤ 100 := by
        intro t ht
        split at ht
        · rcases List.mem_map.mp ht with ⟨t0, ht0, htt⟩
          rw [← htt]
          split
          · exact normalizeMaxUsesNum_range input.maxUses
          · exact hclean t0 ht0
        · exact hclean t ht
      revert hs
      split
      · intro hs
        rcases List.mem_map.mp hs with ⟨t0, ht0, htt⟩
        rw [← htt]
        split
        · exact hdb1 t0 ht0
        · exact hdb1 t0 ht0
      · split
        · intro hs
          rcases List.mem_map.mp hs with ⟨t0, ht0, htt⟩
          rw [← htt]
          split
          · exact hdb1 t0 ht0
          · exact hdb1 t0 ht0
        · intro hs
          exact hdb1 s hs
    | none =>
      rw [hpick] at hs
      dsimp only at hs
      rcases List.mem_append.mp hs with hold | hnew
      · exact hclean s hold
      · rw [List.mem_singleton.mp hnew]
        exact normalizeMaxUsesNum_range input.maxUses

/-- C8 witness: the theorem applied to an empty table and a caller requesting
`maxUses = 2507/10` (floored and clamped to 100 on creation). -/
theorem getOrCreatePending_maxUses_clamped_witness :
    (Approval.getOrCreatePending []
      { requestFingerprint := "fp", reason := "demo", metadata := .jobj [],
        ttlSeconds := 300, maxUses := some (.fin (mkRat 2507 10)) } 0 "id-new").2.2 = true →
    (Approval.getOrCreatePending []
      { requestFingerprint := "fp", reason := "demo", metadata := .jobj [],
        ttlSeconds := 300, maxUses := some (.fin (mkRat 2507 10)) } 0 "id-new").2.1.max_uses =
      Approval.normalizeMaxUsesNum (some (.fin (mkRat 2507 10))) :=
  (getOrCreatePending_maxUses_clamped [] _ 0 "id-new").2.2.1

/-- C9: a record created by `getOrCreatePending` expires exactly
`max(60, ttlSeconds)` seconds after its creation time, so every newly created
pending approval lives at least 60 seconds, whatever TTL the caller asked
for. -/
theorem getOrCreatePending_ttl_floor (db : List Approval.ApprovalRecord)
    (input : Approval.ApprovalCreateInput) (now : Int) (newId : String) :
    (Approval.getOrCreatePending db input now newId).2.2 = true →
      (Approval.getOrCreatePending db input now newId).2.1.created_at = now ∧
      (Approval.getOrCreatePending db input now newId).2.1.expires_at =
        now + max 60 input.ttlSeconds * 1000 ∧
      now + 60 * 1000 ≤ (Approval.getOrCreatePending db input now newId).2.1.expires_at := by
  intro hcreated
  unfold Approval.getOrCreatePending at hcreated ⊢
  dsimp only at hcreated ⊢
  cases hpick : Approval.pickLatestPending (Approval.cleanupExpired db now)
      input.requestFingerprint with
  | some existing =>
    rw [hpick] at hcreated
    dsimp only at hcreated
    exfalso
    revert hcreated
    split
    · simp
    · split
      · simp
      · simp
  | none =>
    refine ⟨rfl, rfl, ?_⟩
    have h60 : (60 : Int) ≤ max 60 input.ttlSeconds := le_max_left _ _
    show now + 60 * 1000 ≤ now + max 60 input.ttlSeconds * 1000
    omega

/-- C9 witness: a zero-TTL request still yields a 60-second expiry window. -/
theorem getOrCreatePending_ttl_floor_witness :
    (Approval.getOrCreatePending []
      { requestFingerprint := "fp", reason := "demo", metadata := .jobj [],
        ttlSeconds := 0 } 1000 "id-new").2.1.expires_at = 1000 + max 60 0 * 1000 ∧
    (1000 : Int) + 60 * 1000 ≤ (Approval.getOrCreatePending []
      { requestFingerprint := "fp", reason := "demo", metadata := .jobj [],
        ttlSeconds := 0 } 1000 "id-new").2.1.expires_at :=
  ⟨(getOrCreatePending_ttl_floor [] _ 1000 "id-new" rfl).2.1,
   (getOrCreatePending_ttl_floor [] _ 1000 "id-new" rfl).2.2⟩

/-! ## Order lemmas for the JS string sort -/

theorem charLtB_asymm (a b : Char) (h : charLtB a b = true) : charLtB b a = false := by
  unfold charLtB at h ⊢
  simp only [decide_eq_true_eq] at h
  simp only [decide_eq_false_iff_not]
  omega

theorem charLtB_connex (a b : Char) (h1 : charLtB a b = false) (h2 : charLtB b a = false) :
    a = b := by
  unfold charLtB at h1 h2
  simp only [decide_eq_false_iff_not] at h1 h2
  have : a.toNat = b.toNat := by omega
  exact Char.eq_of_val_eq (UInt32.ext this)

theorem strLtListB_asymm (a b : List Char) (h : strLtListB a b = true) :
    strLtListB b a = false := by
  induction a generalizing b with
  | nil =>
    cases b with
    | nil => simp [strLtListB] at h
    | cons d ds => simp [strLtListB]
  | cons c cs ih =>
    cases b with
    | nil => simp [strLtListB] at h
    | cons d ds =>
      unfold strLtListB at h ⊢
      by_cases hcd : charLtB c d = true
      · rw [if_neg (by simp [charLtB_asymm c d hcd]), if_pos hcd]
      · have hcd2 : charLtB c d = false := by simpa using hcd
        rw [if_neg (by simp [hcd2])] at h
        by_cases hdc : charLtB d c = true
        · rw [if_pos hdc] at h
          cases h
        · have hdc2 : charLtB d c = false := by simpa using hdc
          rw [if_neg (by simp [hdc2])] at h
          rw [if_neg (by simp [hdc2]), if_neg (by simp [hcd2])]
          exact ih ds h

theorem strLtListB_connex (a b : List Char) (h1 : strLtListB a b = false)
    (h2 : strLtListB b a = false) : a = b := by
  induction a generalizing b with
  | nil =>
    cases b with
    | nil => rfl
    | cons d ds => simp [strLtListB] at h1
  | cons c cs ih =>
    cases b with
    | nil => simp [strLtListB] at h2
    | cons d ds =>
      unfold strLtListB at h1 h2
      by_cases hcd : charLtB c d = true
      · rw [if_pos hcd] at h1
        cases h1
      · have hcd2 : charLtB c d = false := by simpa using hcd
        by_cases hdc : charLtB d c = true
        · rw [if_pos hdc] at h2
          cases h2
        · have hdc2 : charLtB d c = false := by simpa using hdc
          rw [if_neg (by simp [hcd2]), if_neg (by simp [hdc2])] at h1
          rw [if_neg (by simp [hdc2]), if_neg (by simp [hcd2])] at h2
          rw [charLtB_connex c d hcd2 hdc2, ih ds h1 h2]

theorem strLtListB_trans (a b c : List Char) (h1 : strLtListB a b = true)
    (h2 : strLtListB b c = true) : strLtListB a c = true := by
  induction a generalizing b c with
  | nil =>
    cases c with
    | nil =>
      cases b with
      | nil => exact h1
      | cons d ds => simp [strLtListB] at h2
    | cons e es => simp [strLtListB]
  | cons x xs ih =>
    cases b with
    | nil => simp [strLtListB] at h1
    | cons d ds =>
      cases c with
      | nil => simp [strLtListB] at h2
      | cons e es =>
        unfold strLtListB at h1 h2 ⊢
        unfold charLtB at h1 h2 ⊢
        by_cases hxd : x.toNat < d.toNat
        · by_cases hde : d.toNat < e.toNat
          · rw [if_pos (by simpa using (by omega : x.toNat < e.toNat))]
          · have hde2 : ¬d.toNat < e.toNat := hde
            rw [if_neg (by simpa using hde2)] at h2
            by_cases hed : e.toNat < d.toNat
            · rw [if_pos (by simpa using hed)] at h2
              cases h2
            · have : d.toNat = e.toNat := by omega
              rw [if_pos (by simpa using (by omega : x.toNat < e.toNat))]
        · have hxd2 : ¬x.toNat < d.toNat := hxd
          rw [if_neg (by simpa using hxd2)] at h1
          by_cases hdx : d.toNat < x.toNat
          · rw [if_pos (by simpa using hdx)] at h1
            cases h1
          · rw [if_neg (by simpa using hdx)] at h1
            have hxdeq : x.toNat = d.toNat := by omega
            by_cases hde : d.toNat < e.toNat
            · rw [if_pos (by simpa using (by omega : x.toNat < e.toNat))]
            · rw [if_neg (by simpa using hde)] at h2
              by_cases hed : e.toNat < d.toNat
              · rw [if_pos (by simpa using hed)] at h2
                cases h2
              · rw [if_neg (by simpa using hed)] at h2
                rw [if_neg (by simpa using (by omega : ¬x.toNat < e.toNat)),
                  if_neg (by simpa using (by omega : ¬e.toNat < x.toNat))]
                exact ih ds es h1 h2

theorem strLtB_asymm (a b : String) (h : strLtB a b = true) : strLtB b a = false :=
  strLtListB_asymm a.data b.data h

theorem strLtB_connex (a b : String) (h1 : strLtB a b = false) (h2 : strLtB b a = false) :
    a = b := by
  exact String.ext (strLtListB_connex a.data b.data h1 h2)

theorem strLtB_trans (a b c : String) (h1 : strLtB a b = true) (h2 : strLtB b c = true) :
    strLtB a c = true :=
  strLtListB_trans a.data b.data c.data h1 h2

theorem mem_insertStr (x y : String) (l : List String) :
    y ∈ insertStr x l ↔ y = x ∨ y ∈ l := by
  induction l with
  | nil => simp [insertStr]
  | cons z zs ih =>
    unfold insertStr
    split
    · simp [List.mem_cons]
    · rw [List.mem_cons, ih, List.mem_cons]
      tauto

theorem pairwise_insertStr (x : String) (l : List String)
    (hl : l.Pairwise (fun a b => strLtB b a = false)) :
    (insertStr x l).Pairwise (fun a b => strLtB b a = false) := by
  induction l with
  | nil => simp [insertStr]
  | cons z zs ih =>
    rw [List.pairwise_cons] at hl
    unfold insertStr
    split
    · rename_i hxz
      rw [List.pairwise_cons]
      refine ⟨?_, List.pairwise_cons.mpr hl⟩
      intro y hy
      rcases List.mem_cons.mp hy with hyz | hyzs
      · rw [hyz]
        exact strLtB_asymm x z hxz
      · cases hzyx : strLtB y x
        · rfl
        · exfalso
          have hxy : strLtB x z = true := hxz
          have : strLtB y z = true := strLtB_trans y x z hzyx hxy
          rw [hl.1 y hyzs] at this
          cases this
    · rename_i hxz
      have hxz2 : strLtB x z = false := by simpa using hxz
      rw [List.pairwise_cons]
      refine ⟨?_, ih hl.2⟩
      intro y hy
      rcases (mem_insertStr x y zs).mp hy with hyx | hyzs
      · rw [hyx]
        exact hxz2
      · exact hl.1 y hyzs

theorem sortStrs_pairwise (l : List String) :
    (sortStrs l).Pairwise (fun a b => strLtB b a = false) := by
  induction l with
  | nil => simp [sortStrs]
  | cons x xs ih => exact pairwise_insertStr x (sortStrs xs) ih

theorem insertStr_of_le (x : String) (l : List String)
    (h : ∀ y ∈ l, strLtB y x = false) : insertStr x l = x :: l := by
  induction l with
  | nil => rfl
  | cons z zs ih =>
    unfold insertStr
    split
    · rfl
    · rename_i hxz
      have hxz2 : strLtB x z = false := by simpa using hxz
      have hzx : strLtB z x = false := h z (List.mem_cons_self z zs)
      have hez : x = z := strLtB_connex x z hxz2 hzx
      rw [ih (fun y hy => h y (List.mem_cons_of_mem z hy))]
      rw [hez]

theorem sortStrs_of_pairwise (l : List String)
    (hl : l.Pairwise (fun a b => strLtB b a = false)) : sortStrs l = l := by
  induction l with
  | nil => rfl
  | cons x xs ih =>
    rw [List.pairwise_cons] at hl
    unfold sortStrs
    rw [ih hl.2]
    exact insertStr_of_le x xs hl.1

theorem sortStrs_idem (l : List String) : sortStrs (sortStrs l) = sortStrs l :=
  sortStrs_of_pairwise (sortStrs l) (sortStrs_pairwise l)

theorem mem_sortStrs (l : List String) (y : String) : y ∈ sortStrs l ↔ y ∈ l := by
  induction l with
  | nil => simp [sortStrs]
  | cons x xs ih =>
    unfold sortStrs
    rw [mem_insertStr, List.mem_cons, ih]

/-! ## Trim and lowercase stability -/

theorem dropWhile_dropWhile {α : Type} (p : α → Bool) (l : List α) :
    (l.dropWhile p).dropWhile p = l.dropWhile p := by
  cases h : l.dropWhile p with
  | nil => simp
  | cons a as =>
    have hh := List.head?_dropWhile_not p l
    rw [h] at hh
    have hh2 : p a = false := hh
    rw [List.dropWhile_cons_of_neg (by simp [hh2])]

theorem dropWhile_eq_self_of_head {α : Type} (p : α → Bool) (l : List α)
    (h : ∀ c ∈ l.head?, p c = false) : l.dropWhile p = l := by
  cases l with
  | nil => rfl
  | cons a as =>
    rw [List.dropWhile_cons_of_neg]
    simp only [List.head?_cons, Option.mem_def, Option.some.injEq] at h
    simp [h a rfl]

theorem trimList_idem (l : List Char) : trimList (trimList l) = trimList l := by
  unfold trimList
  have hstep1 : (((l.dropWhile Char.isWhitespace).reverse.dropWhile
      Char.isWhitespace).reverse).dropWhile Char.isWhitespace =
      ((l.dropWhile Char.isWhitespace).reverse.dropWhile Char.isWhitespace).reverse := by
    apply dropWhile_eq_self_of_head
    intro c hc
    rw [List.head?_reverse] at hc
    rcases List.dropWhile_suffix (l := (l.dropWhile Char.isWhitespace).reverse)
      Char.isWhitespace with ⟨pre, hpre⟩
    have hgl : ((l.dropWhile Char.isWhitespace).reverse).getLast? = some c := by
      rw [← hpre, List.getLast?_append]
      rw [Option.mem_def] at hc
      rw [hc]
      rfl
    rw [List.getLast?_reverse] at hgl
    have hnot := List.head?_dropWhile_not Char.isWhitespace l
    rw [hgl] at hnot
    exact hnot
  rw [hstep1, List.reverse_reverse, dropWhile_dropWhile]

theorem trimStr_idem (s : String) : trimStr (trimStr s) = trimStr s :=
  congrArg String.mk (trimList_idem s.data)

theorem toLower_eq_upper (c : Char) (hr : c.toNat ≥ 65 ∧ c.toNat ≤ 90) :
    Char.toLower c = Char.ofNat (c.toNat + 32) := by
  unfold Char.toLower
  exact if_pos hr

theorem toLower_eq_self (c : Char) (hr : ¬(c.toNat ≥ 65 ∧ c.toNat ≤ 90)) :
    Char.toLower c = c := by
  unfold Char.toLower
  exact if_neg hr

theorem ofNat_toNat_valid (n : Nat) (h : n < 55296) : (Char.ofNat n).toNat = n := by
  unfold Char.ofNat
  rw [dif_pos]
  · rfl
  · left
    omega

theorem toLower_idem (c : Char) : Char.toLower (Char.toLower c) = Char.toLower c := by
  by_cases hr : c.toNat ≥ 65 ∧ c.toNat ≤ 90
  · rw [toLower_eq_upper c hr]
    apply toLower_eq_self
    rw [ofNat_toNat_valid (c.toNat + 32) (by omega)]
    omega
  · rw [toLower_eq_self c hr]
    exact toLower_eq_self c hr

theorem toLower_not_ws (c : Char) (h : c.isWhitespace = false) :
    (Char.toLower c).isWhitespace = false := by
  by_cases hr : c.toNat ≥ 65 ∧ c.toNat ≤ 90
  · rw [toLower_eq_upper c hr]
    have hv : (Char.ofNat (c.toNat + 32)).toNat = c.toNat + 32 :=
      ofNat_toNat_valid _ (by omega)
    have hne : ∀ d : Char, d.toNat ≠ c.toNat + 32 →
        decide (Char.ofNat (c.toNat + 32) = d) = false := by
      intro d hd
      apply decide_eq_false
      intro he
      exact hd (by rw [← congrArg Char.toNat he, hv])
    unfold Char.isWhitespace
    rw [hne ' ' (by change 32 ≠ _; omega), hne '\t' (by change 9 ≠ _; omega),
      hne '\x0d' (by change 13 ≠ _; omega), hne '\n' (by change 10 ≠ _; omega)]
    rfl
  · rw [toLower_eq_self c hr]
    exact h

theorem trimList_head (l : List Char) :
    ∀ c ∈ (trimList l).head?, c.isWhitespace = false := by
  intro c hc
  unfold trimList at hc
  rw [List.head?_reverse] at hc
  rcases List.dropWhile_suffix (l := (l.dropWhile Char.isWhitespace).reverse)
    Char.isWhitespace with ⟨pre, hpre⟩
  have hgl : ((l.dropWhile Char.isWhitespace).reverse).getLast? = some c := by
    rw [← hpre, List.getLast?_append]
    rw [Option.mem_def] at hc
    rw [hc]
    rfl
  rw [List.getLast?_reverse] at hgl
  have hnot := List.head?_dropWhile_not Char.isWhitespace l
  rw [hgl] at hnot
  exact hnot

theorem trimList_getLast (l : List Char) :
    ∀ c ∈ (trimList l).getLast?, c.isWhitespace = false := by
  intro c hc
  unfold trimList at hc
  rw [List.getLast?_reverse] at hc
  have hnot := List.head?_dropWhile_not Char.isWhitespace
    ((l.dropWhile Char.isWhitespace).reverse)
  rw [Option.mem_def] at hc
  rw [hc] at hnot
  exact hnot

theorem trimList_eq_self (m : List Char)
    (h1 : ∀ c ∈ m.head?, c.isWhitespace = false)
    (h2 : ∀ c ∈ m.getLast?, c.isWhitespace = false) : trimList m = m := by
  unfold trimList
  rw [dropWhile_eq_self_of_head _ _ h1]
  rw [dropWhile_eq_self_of_head]
  · exact m.reverse_reverse
  · intro c hc
    rw [List.head?_reverse] at hc
    exact h2 c hc

theorem trimStr_idem2 (s : String) : trimStr (trimStr s) = trimStr s :=
  trimStr_idem s

theorem trimStr_toLower_trim (y : String) :
    trimStr (toLowerStr (trimStr y)) = toLowerStr (trimStr y) := by
  unfold toLowerStr trimStr
  apply congrArg String.mk
  apply trimList_eq_self
  · intro c hc
    rw [List.head?_map, Option.mem_def, Option.map_eq_some'] at hc
    rcases hc with ⟨c0, hc0, hcc⟩
    rw [← hcc]
    exact toLower_not_ws c0 (trimList_head y.data c0 (Option.mem_def.mpr hc0))
  · intro c hc
    rw [List.getLast?_map, Option.mem_def, Option.map_eq_some'] at hc
    rcases hc with ⟨c0, hc0, hcc⟩
    rw [← hcc]
    exact toLower_not_ws c0 (trimList_getLast y.data c0 (Option.mem_def.mpr hc0))

theorem toLowerStr_idem (s : String) : toLowerStr (toLowerStr s) = toLowerStr s := by
  unfold toLowerStr
  apply congrArg String.mk
  simp only [List.map_map]
  apply List.map_congr_left
  intro c _
  exact toLower_idem c

/-! ## Parse-function round trips (claim C6 groundwork) -/

theorem strOfOr_jstr (x : String) : strOfOr (.jstr x) = if x = "" then "" else x := by
  by_cases h : x = "" <;> simp [strOfOr, jsFalsy, jsToString, h]

namespace Approval

theorem parseApprovalActors_normalized (a : Option JVal) :
    ∀ x ∈ parseApprovalActors a, trimStr x = x ∧ x ≠ "" := by
  intro x hx
  match a with
  | none => cases hx
  | some .jnull => cases hx
  | some .jundef => cases hx
  | some (.jbool b) => cases hx
  | some (.jnum n) => cases hx
  | some (.jstr s) => cases hx
  | some (.jobj kvs) => cases hx
  | some (.jarr l) =>
    unfold parseApprovalActors at hx
    rw [List.mem_filter] at hx
    rcases hx with ⟨hmem, hne⟩
    rcases List.mem_map.mp hmem with ⟨v, _, hv⟩
    refine ⟨?_, by simpa using hne⟩
    rw [← hv]
    exact trimStr_idem (strOfOr v)

theorem parseApprovalActors_roundtrip (o : List String)
    (h : ∀ x ∈ o, trimStr x = x ∧ x ≠ "") :
    parseApprovalActors (some (.jarr (o.map .jstr))) = o := by
  unfold parseApprovalActors
  dsimp only
  rw [List.map_map]
  have hmap : o.map ((fun v => trimStr (strOfOr v)) ∘ JVal.jstr) = o := by
    have : ∀ x ∈ o, ((fun v => trimStr (strOfOr v)) ∘ JVal.jstr) x = x := by
      intro x hx
      simp only [Function.comp]
      rw [strOfOr_jstr, if_neg (h x hx).2]
      exact (h x hx).1
    calc o.map _ = o.map id := List.map_congr_left this
    _ = o := List.map_id o
  rw [hmap]
  apply List.filter_eq_self.mpr
  intro x hx
  simpa using (h x hx).2

theorem parseRoleArray_normalized (a : Option JVal) :
    (∀ x ∈ parseRoleArray a, trimStr x = x ∧ toLowerStr x = x ∧ x ≠ "") ∧
    (parseRoleArray a).Pairwise (fun u v => strLtB v u = false) := by
  match a with
  | none => exact ⟨(fun x hx => by cases hx), (by unfold parseRoleArray; simp)⟩
  | some .jnull => exact ⟨(fun x hx => by cases hx), (by unfold parseRoleArray; simp)⟩
  | some .jundef => exact ⟨(fun x hx => by cases hx), (by unfold parseRoleArray; simp)⟩
  | some (.jbool b) => exact ⟨(fun x hx => by cases hx), (by unfold parseRoleArray; simp)⟩
  | some (.jnum n) => exact ⟨(fun x hx => by cases hx), (by unfold parseRoleArray; simp)⟩
  | some (.jstr s) => exact ⟨(fun x hx => by cases hx), (by unfold parseRoleArray; simp)⟩
  | some (.jobj kvs) => exact ⟨(fun x hx => by cases hx), (by unfold parseRoleArray; simp)⟩
  | some (.jarr l) =>
    constructor
    · intro x hx
      unfold parseRoleArray at hx
      rw [mem_sortStrs, List.mem_filter] at hx
      rcases hx with ⟨hmem, hne⟩
      rcases List.mem_map.mp hmem with ⟨v, _, hv⟩
      refine ⟨?_, ?_, by simpa using hne⟩
      · rw [← hv]
        exact trimStr_toLower_trim (strOfOr v)
      · rw [← hv]
        exact toLowerStr_idem (trimStr (strOfOr v))
    · unfold parseRoleArray
      exact sortStrs_pairwise _

theorem parseRoleArray_roundtrip (o : List String)
    (h : ∀ x ∈ o, trimStr x = x ∧ toLowerStr x = x ∧ x ≠ "")
    (hs : o.Pairwise (fun u v => strLtB v u = false)) :
    parseRoleArray (some (.jarr (o.map .jstr))) = o := by
  unfold parseRoleArray
  dsimp only
  rw [List.map_map]
  have hmap : o.map ((fun v => toLowerStr (trimStr (strOfOr v))) ∘ JVal.jstr) = o := by
    have : ∀ x ∈ o, ((fun v => toLowerStr (trimStr (strOfOr v))) ∘ JVal.jstr) x = x := by
      intro x hx
      simp only [Function.comp]
      rw [strOfOr_jstr, if_neg (h x hx).2.2, (h x hx).1]
      exact (h x hx).2.1
    calc o.map _ = o.map id := List.map_congr_left this
    _ = o := List.map_id o
  rw [hmap]
  rw [List.filter_eq_self.mpr (fun x hx => by simpa using (h x hx).2.2)]
  exact sortStrs_of_pairwise o hs

end Approval

namespace Approval

theorem upsertAL_keys (k v : String) (o : List (String × String)) (x : String × String)
    (hx : x ∈ upsertAL k v o) : x = (k, v) ∨ (x ∈ o ∧ x.1 ≠ k) ∨ x.1 = k := by
  induction o with
  | nil =>
    unfold upsertAL at hx
    rcases List.mem_singleton.mp hx with h
    exact Or.inl h
  | cons p ps ih =>
    unfold upsertAL at hx
    split at hx
    · rename_i hpk
      rcases List.mem_cons.mp hx with h1 | h2
      · right
        right
        rw [h1, ← hpk]
      · right
        by_cases hx1 : x.1 = k
        · right
          exact hx1
        · left
          exact ⟨List.mem_cons_of_mem p h2, hx1⟩
    · rcases List.mem_cons.mp hx with h1 | h2
      · rename_i hpk
        right
        by_cases hx1 : x.1 = k
        · right
          exact hx1
        · left
          exact ⟨by rw [h1]; exact List.mem_cons_self p ps, hx1⟩
      · rcases ih h2 with h | h | h
        · exact Or.inl h
        · exact Or.inr (Or.inl ⟨List.mem_cons_of_mem p h.1, h.2⟩)
        · exact Or.inr (Or.inr h)

theorem upsertAL_entry_cases (k v : String) (o : List (String × String)) (x : String × String)
    (hx : x ∈ upsertAL k v o) : x = (k, v) ∨ x ∈ o := by
  induction o with
  | nil => exact Or.inl (List.mem_singleton.mp hx)
  | cons p ps ih =>
    unfold upsertAL at hx
    split at hx
    · rcases List.mem_cons.mp hx with h1 | h2
      · rename_i hpk
        by_cases hv : p.2 = v
        · right
          rw [h1, ← hv]
          exact List.mem_cons_self p ps
        · left
          rw [h1, hpk]
      · exact Or.inr (List.mem_cons_of_mem p h2)
    · rcases List.mem_cons.mp hx with h1 | h2
      · exact Or.inr (by rw [h1]; exact List.mem_cons_self p ps)
      · rcases ih h2 with h | h
        · exact Or.inl h
        · exact Or.inr (List.mem_cons_of_mem p h)

theorem upsertAL_pairwise (k v : String) (o : List (String × String))
    (ho : o.Pairwise (fun a b => a.1 ≠ b.1)) :
    (upsertAL k v o).Pairwise (fun a b => a.1 ≠ b.1) := by
  induction o with
  | nil => simp [upsertAL]
  | cons p ps ih =>
    rw [List.pairwise_cons] at ho
    unfold upsertAL
    split
    · rename_i hpk
      rw [List.pairwise_cons]
      exact ⟨fun b hb => ho.1 b hb, ho.2⟩
    · rename_i hpk
      rw [List.pairwise_cons]
      refine ⟨?_, ih ho.2⟩
      intro b hb
      rcases upsertAL_keys k v ps b hb with h | h | h
      · rw [h]
        intro hcon
        exact hpk hcon
      · exact ho.1 b h.1
      · rw [h]
        intro hcon
        exact hpk hcon

theorem upsertAL_of_not_mem (k v : String) (o : List (String × String))
    (h : ∀ kv ∈ o, kv.1 ≠ k) : upsertAL k v o = o ++ [(k, v)] := by
  induction o with
  | nil => rfl
  | cons p ps ih =>
    unfold upsertAL
    rw [if_neg (h p (List.mem_cons_self p ps))]
    rw [ih (fun kv hkv => h kv (List.mem_cons_of_mem p hkv))]
    rfl

theorem parseApprovalActorRoles_invariant (a : Option JVal) :
    (parseApprovalActorRoles a).Pairwise (fun u v => u.1 ≠ v.1) ∧
    (∀ kv ∈ parseApprovalActorRoles a, trimStr kv.1 = kv.1 ∧ kv.1 ≠ "" ∧
      trimStr kv.2 = kv.2 ∧ toLowerStr kv.2 = kv.2 ∧ kv.2 ≠ "") := by
  match a with
  | none => exact ⟨(by unfold parseApprovalActorRoles; simp), (fun kv hkv => by cases hkv)⟩
  | some .jnull =>
    exact ⟨(by unfold parseApprovalActorRoles; simp), (fun kv hkv => by cases hkv)⟩
  | some .jundef =>
    exact ⟨(by unfold parseApprovalActorRoles; simp), (fun kv hkv => by cases hkv)⟩
  | some (.jbool b) =>
    exact ⟨(by unfold parseApprovalActorRoles; simp), (fun kv hkv => by cases hkv)⟩
  | some (.jnum n) =>
    exact ⟨(by unfold parseApprovalActorRoles; simp), (fun kv hkv => by cases hkv)⟩
  | some (.jstr s) =>
    exact ⟨(by unfold parseApprovalActorRoles; simp), (fun kv hkv => by cases hkv)⟩
  | some (.jarr l) =>
    exact ⟨(by unfold parseApprovalActorRoles; simp), (fun kv hkv => by cases hkv)⟩
  | some (.jobj kvs) =>
    unfold parseApprovalActorRoles
    dsimp only
    suffices hgen : ∀ acc : List (String × String),
        acc.Pairwise (fun u v => u.1 ≠ v.1) →
        (∀ kv ∈ acc, trimStr kv.1 = kv.1 ∧ kv.1 ≠ "" ∧ trimStr kv.2 = kv.2 ∧
          toLowerStr kv.2 = kv.2 ∧ kv.2 ≠ "") →
        (kvs.foldl (fun out kv =>
          let actorKey := trimStr kv.1
          let roleValue := toLowerStr (trimStr (strOfOr kv.2))
          if actorKey = "" ∨ roleValue = "" then out
          else upsertAL actorKey roleValue out) acc).Pairwise (fun u v => u.1 ≠ v.1) ∧
        (∀ kv ∈ (kvs.foldl (fun out kv =>
          let actorKey := trimStr kv.1
          let roleValue := toLowerStr (trimStr (strOfOr kv.2))
          if actorKey = "" ∨ roleValue = "" then out
          else upsertAL actorKey roleValue out) acc),
          trimStr kv.1 = kv.1 ∧ kv.1 ≠ "" ∧ trimStr kv.2 = kv.2 ∧
            toLowerStr kv.2 = kv.2 ∧ kv.2 ≠ "") by
      exact hgen [] (by simp) (fun kv hkv => by cases hkv)
    induction kvs with
    | nil => exact fun acc h1 h2 => ⟨h1, h2⟩
    | cons p ps ih =>
      intro acc h1 h2
      rw [List.foldl_cons]
      dsimp only
      split
      · exact ih acc h1 h2
      · rename_i hguard
        apply ih
        · exact upsertAL_pairwise _ _ acc h1
        · intro kv hkv
          rcases upsertAL_entry_cases _ _ acc kv hkv with hkvp | hkvacc
          · rw [hkvp]
            push_neg at hguard
            refine ⟨trimStr_idem p.1, hguard.1, ?_, ?_, hguard.2⟩
            · exact trimStr_toLower_trim (strOfOr p.2)
            · exact toLowerStr_idem (trimStr (strOfOr p.2))
          · exact h2 kv hkvacc

theorem parseApprovalActorRoles_roundtrip (o : List (String × String))
    (hpw : o.Pairwise (fun u v => u.1 ≠ v.1))
    (h : ∀ kv ∈ o, trimStr kv.1 = kv.1 ∧ kv.1 ≠ "" ∧ trimStr kv.2 = kv.2 ∧
      toLowerStr kv.2 = kv.2 ∧ kv.2 ≠ "") :
    parseApprovalActorRoles (some (.jobj (o.map (fun kv => (kv.1, JVal.jstr kv.2))))) = o := by
  unfold parseApprovalActorRoles
  dsimp only
  suffices hgen : ∀ (rest : List (String × String)) (acc : List (String × String)),
      rest.Pairwise (fun u v => u.1 ≠ v.1) →
      (∀ kv ∈ rest, trimStr kv.1 = kv.1 ∧ kv.1 ≠ "" ∧ trimStr kv.2 = kv.2 ∧
        toLowerStr kv.2 = kv.2 ∧ kv.2 ≠ "") →
      (∀ kv ∈ rest, ∀ kv2 ∈ acc, kv2.1 ≠ kv.1) →
      ((rest.map (fun kv => (kv.1, JVal.jstr kv.2))).foldl (fun out kv =>
        let actorKey := trimStr kv.1
        let roleValue := toLowerStr (trimStr (strOfOr kv.2))
        if actorKey = "" ∨ roleValue = "" then out
        else upsertAL actorKey roleValue out) acc) = acc ++ rest by
    exact (hgen o [] hpw h (fun kv _ kv2 hkv2 => by cases hkv2)).trans (by simp)
  intro rest
  induction rest with
  | nil => intro acc _ _ _; simp
  | cons p ps ih =>
    intro acc hpw2 hnorm hdisj
    rw [List.map_cons, List.foldl_cons]
    dsimp only
    rcases hnorm p (List.mem_cons_self p ps) with ⟨ht1, hn1, ht2, hl2, hn2⟩
    rw [strOfOr_jstr, if_neg hn2, ht1, ht2, hl2]
    rw [if_neg (by simp [hn1, hn2])]
    rw [upsertAL_of_not_mem p.1 p.2 acc
      (fun kv hkv => hdisj p (List.mem_cons_self p ps) kv hkv)]
    rw [List.pairwise_cons] at hpw2
    rw [ih (acc ++ [(p.1, p.2)]) hpw2.2
      (fun kv hkv => hnorm kv (List.mem_cons_of_mem p hkv))
      (by
        intro kv hkv kv2 hkv2
        rcases List.mem_append.mp hkv2 with ha | hb
        · exact hdisj kv (List.mem_cons_of_mem p hkv) kv2 ha
        · rw [List.mem_singleton.mp hb]
          exact hpw2.1 kv hkv)]
    simp

end Approval

namespace Approval

theorem normalizeRequiredApprovalsI_idem (x : Int) :
    normalizeRequiredApprovalsI (normalizeRequiredApprovalsI x) = normalizeRequiredApprovalsI x := by
  unfold normalizeRequiredApprovalsI
  omega

theorem normalizeMaxUsesI_idem (x : Int) :
    normalizeMaxUsesI (normalizeMaxUsesI x) = normalizeMaxUsesI x := by
  unfold normalizeMaxUsesI
  omega

theorem normalizeUseCountI_idem (x : Int) :
    normalizeUseCountI (normalizeUseCountI x) = normalizeUseCountI x := by
  unfold normalizeUseCountI
  omega

end Approval

namespace Attest

theorem entryHash_recon (H : String → String) (prev : String) (row : Approval.ApprovalRecord) :
    entryHashJ H prev (reconRecord (mkEntry H prev row)) (mkEntry H prev row).metadata =
      (mkEntry H prev row).entry_hash := by
  have hA := Approval.parseApprovalActors_roundtrip
    (Approval.parseApprovalActors row.approval_actors)
    (Approval.parseApprovalActors_normalized row.approval_actors)
  have hR := Approval.parseRoleArray_roundtrip (Approval.parseRoleArray row.required_roles)
    (Approval.parseRoleArray_normalized row.required_roles).1
    (Approval.parseRoleArray_normalized row.required_roles).2
  have hM := Approval.parseApprovalActorRoles_roundtrip
    (Approval.parseApprovalActorRoles row.approval_actor_roles)
    (Approval.parseApprovalActorRoles_invariant row.approval_actor_roles).1
    (Approval.parseApprovalActorRoles_invariant row.approval_actor_roles).2
  unfold mkEntry reconRecord entryHashJ
  dsimp only
  rw [hA, hR, hM]
  rw [Approval.normalizeRequiredApprovalsI_idem, Approval.normalizeRequiredApprovalsI_idem,
    Approval.normalizeMaxUsesI_idem, Approval.normalizeMaxUsesI_idem,
    Approval.normalizeUseCountI_idem, Approval.normalizeUseCountI_idem]

theorem verifyChain_generate (H : String → String) (rows : List Approval.ApprovalRecord)
    (prev : String) :
    verifyChain H (generateEntries H rows prev).1 prev =
      (none, (generateEntries H rows prev).2) := by
  induction rows generalizing prev with
  | nil => rfl
  | cons row rest ih =>
    unfold generateEntries
    dsimp only
    unfold verifyChain
    have hprev : (mkEntry H prev row).previous_hash = prev := rfl
    rw [hprev]
    rw [if_neg (by exact fun h => h rfl)]
    rw [entryHash_recon H prev row]
    rw [if_neg (by exact fun h => h rfl)]
    exact ih (mkEntry H prev row).entry_hash

end Attest

/-! ### Hex-digit character facts used by the signature layer -/

theorem char_eq_iff_toNat (c d : Char) : c = d ↔ c.toNat = d.toNat :=
  ⟨fun h => congrArg Char.toNat h, fun h => Char.eq_of_val_eq (UInt32.ext h)⟩

theorem hexClass_bounds (c : Char) (h : (c.isDigit || ('a' ≤ c && c ≤ 'f')) = true) :
    (48 ≤ c.toNat ∧ c.toNat ≤ 57) ∨ (97 ≤ c.toNat ∧ c.toNat ≤ 102) := by
  simp only [Bool.or_eq_true] at h
  rcases h with h1 | h1
  · left
    unfold Char.isDigit at h1
    simp only [Bool.and_eq_true, decide_eq_true_eq] at h1
    exact h1
  · right
    simp only [Bool.and_eq_true, decide_eq_true_eq] at h1
    obtain ⟨h2, h3⟩ := h1
    rw [Char.le_def] at h2 h3
    exact ⟨h2, h3⟩

theorem not_ws_of_toNat (c : Char)
    (h : c.toNat ≠ 32 ∧ c.toNat ≠ 9 ∧ c.toNat ≠ 13 ∧ c.toNat ≠ 10) :
    c.isWhitespace = false := by
  obtain ⟨e1, e2, e3, e4⟩ := h
  have n1 : decide (c = ' ') = false := decide_eq_false (fun hEq => e1 (congrArg Char.toNat hEq))
  have n2 : decide (c = '\t') = false := decide_eq_false (fun hEq => e2 (congrArg Char.toNat hEq))
  have n3 : decide (c = '\r') = false := decide_eq_false (fun hEq => e3 (congrArg Char.toNat hEq))
  have n4 : decide (c = '\n') = false := decide_eq_false (fun hEq => e4 (congrArg Char.toNat hEq))
  unfold Char.isWhitespace
  rw [n1, n2, n3, n4]
  rfl

theorem hexVal_of_class (c : Char) (h : (c.isDigit || ('a' ≤ c && c ≤ 'f')) = true) :
    Keyring.hexVal c ≠ none := by
  rcases hexClass_bounds c h with hb | hb
  · unfold Keyring.hexVal
    rw [if_pos]
    · exact Option.some_ne_none _
    · constructor
      · rw [Char.le_def]; exact hb.1
      · rw [Char.le_def]; exact hb.2
  · unfold Keyring.hexVal
    rw [if_neg, if_pos]
    · exact Option.some_ne_none _
    · constructor
      · rw [Char.le_def]; exact hb.1
      · rw [Char.le_def]; exact hb.2
    · intro hcon
      have hc2 : c.toNat ≤ 57 := hcon.2
      omega

theorem map_eq_self_of (l : List Char) (f : Char → Char) (h : ∀ x ∈ l, f x = x) :
    l.map f = l := by
  induction l with
  | nil => rfl
  | cons a as ih =>
      simp only [List.map_cons]
      rw [h a (List.mem_cons_self a as), ih (fun x hx => h x (List.mem_cons_of_mem a hx))]

theorem hexDecodeTrunc_len : ∀ l : List Char, (∀ c ∈ l, Keyring.hexVal c ≠ none) →
    (Keyring.hexDecodeTrunc l).length = l.length / 2
  | [], _ => rfl
  | [_], _ => by with_unfolding_all rfl
  | a :: b :: rest, h => by
      have ha := h a (List.mem_cons_self a (b :: rest))
      have hb := h b (List.mem_cons_of_mem a (List.mem_cons_self b rest))
      unfold Keyring.hexDecodeTrunc
      cases hva : Keyring.hexVal a with
      | none => exact absurd hva ha
      | some x =>
        cases hvb : Keyring.hexVal b with
        | none => exact absurd hvb hb
        | some y =>
          simp only [List.length_cons]
          rw [hexDecodeTrunc_len rest
            (fun c hc => h c (List.mem_cons_of_mem a (List.mem_cons_of_mem b hc)))]
          omega

theorem isLowerHex64_facts (s : String) (h : Keyring.isLowerHex64 s = true) :
    trimStr s = s ∧ toLowerStr s = s ∧ s ≠ "" ∧
      (Keyring.hexDecodeTrunc s.data).length = 32 := by
  unfold Keyring.isLowerHex64 at h
  simp only [Bool.and_eq_true, beq_iff_eq, List.all_eq_true] at h
  obtain ⟨hlen, hall⟩ := h
  have hdlen : s.data.length = 64 := hlen
  have hclass : ∀ c ∈ s.data, (48 ≤ c.toNat ∧ c.toNat ≤ 57) ∨ (97 ≤ c.toNat ∧ c.toNat ≤ 102) :=
    fun c hc => hexClass_bounds c (hall c hc)
  have hws : ∀ c ∈ s.data, c.isWhitespace = false := by
    intro c hc
    rcases hclass c hc with hb | hb <;> exact not_ws_of_toNat c (by omega)
  refine ⟨?_, ?_, ?_, ?_⟩
  · have he : trimList s.data = s.data := trimList_eq_self s.data
      (fun c hc => hws c (List.mem_of_mem_head? hc))
      (fun c hc => hws c (List.mem_of_mem_getLast? hc))
    exact (congrArg String.mk he).trans rfl
  · have he : s.data.map Char.toLower = s.data := map_eq_self_of _ _ (fun c hc => by
      rcases hclass c hc with hb | hb <;> exact toLower_eq_self c (by omega))
    exact (congrArg String.mk he).trans rfl
  · intro hcon
    rw [hcon] at hdlen
    exact absurd hdlen (by decide)
  · have hv : ∀ c ∈ s.data, Keyring.hexVal c ≠ none := fun c hc => hexVal_of_class c (hall c hc)
    rw [hexDecodeTrunc_len s.data hv, hdlen]

theorem constantTimeHexEquals_self (s : String) (h : Keyring.isLowerHex64 s = true) :
    Keyring.constantTimeHexEquals s s = true := by
  obtain ⟨htrim, hlower, hne, hdec⟩ := isLowerHex64_facts s h
  have hlen : s.length = 64 := by
    unfold Keyring.isLowerHex64 at h
    simp only [Bool.and_eq_true, beq_iff_eq] at h
    exact h.1
  unfold Keyring.constantTimeHexEquals
  dsimp only
  rw [htrim, hlower]
  rw [if_neg (by rw [hlen]; omega)]
  rw [if_neg (by rw [hdec]; omega)]
  simp

theorem verifyWithKeyring_sign (hmac : String → String → String) (canonical : String)
    (kr : Keyring.HmacKeyring) (secret : String)
    (hhex : ∀ k m, Keyring.isLowerHex64 (hmac k m) = true)
    (hkid : trimStr kr.activeKid = kr.activeKid) (hne : kr.activeKid ≠ "")
    (hlk : kr.keys.lookup kr.activeKid = some secret) (hs : secret ≠ "") :
    Keyring.verifyWithKeyring hmac canonical kr.activeKid (hmac secret canonical) kr = true := by
  obtain ⟨htrim, hlower, _, _⟩ := isLowerHex64_facts _ (hhex secret canonical)
  unfold Keyring.verifyWithKeyring
  dsimp only
  rw [hkid, htrim, hlower]
  rw [if_neg ?hcond]
  case hcond =>
    rintro (hc | hc)
    · exact hne hc
    · exact Bool.noConfusion ((hhex secret canonical).symm.trans hc)
  rw [hlk]
  dsimp only
  rw [if_neg hs]
  exact constantTimeHexEquals_self _ (hhex secret canonical)

namespace Attest

theorem canonicalOfPayload_update (p : AttPayload) (s k : Option String) :
    canonicalOfPayload { p with signature := s, signature_kid := k } = canonicalOfPayload p :=
  rfl

theorem generate_eq (H : String → String) (hmac : String → String → String)
    (cfg : SigningConfig) (rows : List Approval.ApprovalRecord) (gAt since : String) :
    generate H hmac cfg rows gAt since =
      match cfg.signingKeyring with
      | some kr =>
          { unsignedOf H rows gAt since with
            signature := some (hmac ((kr.keys.lookup kr.activeKid).getD "")
              (canonicalOfPayload (unsignedOf H rows gAt since)))
            signature_kid := some kr.activeKid }
      | none =>
          if cfg.signingKey ≠ "" then
            { unsignedOf H rows gAt since with
              signature := some (hmac cfg.signingKey
                (canonicalOfPayload (unsignedOf H rows gAt since)))
              signature_kid := none }
          else unsignedOf H rows gAt since := by
  unfold generate unsignedOf
  cases generateEntries H rows GENESIS_HASH with
  | mk es fh =>
      cases cfg.signingKeyring with
      | none => rfl
      | some kr => rfl

theorem verifyPayload_valid_keyring (H : String → String) (hmac : String → String → String)
    (cfg : SigningConfig) (p : AttPayload) (kr : Keyring.HmacKeyring) (s kid : String)
    (hcfg : cfg.signingKeyring = some kr)
    (h1 : p.count = (p.entries.length : Int))
    (h2 : verifyChain H p.entries GENESIS_HASH = (none, p.final_hash))
    (hsig : p.signature = some s) (hkid : p.signature_kid = some kid)
    (hsne : s ≠ "") (hkne : kid ≠ "")
    (hver : Keyring.verifyWithKeyring hmac (canonicalOfPayload p) kid s kr = true) :
    (verifyPayload H hmac cfg p).valid = true := by
  unfold verifyPayload
  dsimp only
  rw [h1]
  rw [if_neg (fun hc => hc rfl)]
  rw [h2]
  dsimp only
  rw [if_neg (fun hc => hc rfl)]
  rw [hcfg]
  dsimp only
  rw [hsig, hkid]
  unfold optTruthy
  dsimp only
  rw [if_neg hsne, if_neg hkne]
  dsimp only
  rw [hver]
  rw [if_neg (fun hc => Bool.noConfusion hc.1)]
  rfl

theorem verifyPayload_valid_static (H : String → String) (hmac : String → String → String)
    (cfg : SigningConfig) (p : AttPayload)
    (hcfg : cfg.signingKeyring = none)
    (h1 : p.count = (p.entries.length : Int))
    (h2 : verifyChain H p.entries GENESIS_HASH = (none, p.final_hash))
    (hsig : cfg.signingKey ≠ "" →
      p.signature = some (hmac cfg.signingKey (canonicalOfPayload p))) :
    (verifyPayload H hmac cfg p).valid = true := by
  unfold verifyPayload
  dsimp only
  rw [h1]
  rw [if_neg (fun hc => hc rfl)]
  rw [h2]
  dsimp only
  rw [if_neg (fun hc => hc rfl)]
  rw [hcfg]
  dsimp only
  by_cases hk : cfg.signingKey = ""
  · rw [if_neg (fun hc => hc hk)]
    rfl
  · rw [if_pos hk]
    dsimp only
    rw [hsig hk]
    rw [if_neg (fun hc => Bool.noConfusion
      (hc.1 ▸ (Eq.refl (some (hmac cfg.signingKey (canonicalOfPayload p))))))]
    rfl

end Attest

/-- **C6**: for any approval attestation payload produced by `generate` (over any
list of approval records, any `generatedAt`/`since` arguments, and any signing
configuration), `verifyPayload` under the same signing configuration returns
`valid = true`.  The hypothesis `SigningWF` records the digest shape of
`crypto.createHmac(...).digest("hex")` and the keyring well-formedness
established by `loadHmacKeyring`. -/
theorem attestation_generate_verify_roundtrip (H : String → String)
    (hmac : String → String → String) (cfg : Attest.SigningConfig)
    (rows : List Approval.ApprovalRecord) (generatedAt since : String)
    (hwf : Attest.SigningWF hmac cfg) :
    (Attest.verifyPayload H hmac cfg
      (Attest.generate H hmac cfg rows generatedAt since)).valid = true := by
  obtain ⟨hhex, hkrwf⟩ := hwf
  rw [Attest.generate_eq]
  cases hcfg : cfg.signingKeyring with
  | none =>
      dsimp only
      by_cases hk : cfg.signingKey = ""
      · rw [if_neg (fun hc => hc hk)]
        refine Attest.verifyPayload_valid_static H hmac cfg _ hcfg rfl
          (Attest.verifyChain_generate H rows Attest.GENESIS_HASH) ?_
        intro hke
        exact absurd hk hke
      · rw [if_pos hk]
        refine Attest.verifyPayload_valid_static H hmac cfg _ hcfg rfl
          (Attest.verifyChain_generate H rows Attest.GENESIS_HASH) ?_
        intro _
        rfl
  | some kr =>
      dsimp only
      obtain ⟨hkid, hne, secret, hlk, hs⟩ := hkrwf kr hcfg
      have hsev : ((kr.keys.lookup kr.activeKid).getD "") = secret := by
        rw [hlk]
        rfl
      refine Attest.verifyPayload_valid_keyring H hmac cfg _ kr _ kr.activeKid hcfg rfl
        (Attest.verifyChain_generate H rows Attest.GENESIS_HASH) rfl rfl ?_ hne ?_
      · exact (isLowerHex64_facts _ (hhex _ _)).2.2.1
      · have hv := verifyWithKeyring_sign hmac
          (Attest.canonicalOfPayload (Attest.unsignedOf H rows generatedAt since)) kr secret
          hhex hkid hne hlk hs
        rw [hsev]
        exact hv

/-- Closed instance of the C6 round trip: a keyring-signed snapshot over one
concrete approval record verifies. -/
theorem attestation_generate_verify_roundtrip_witness :
    Attest.SigningWF (fun _ _ => (⟨List.replicate 64 'a'⟩ : String))
      { signingKeyring := some { activeKid := "k1", keys := [("k1", "s")] }
        signingKey := "" } ∧
    (Attest.verifyPayload (fun s => s) (fun _ _ => (⟨List.replicate 64 'a'⟩ : String))
      { signingKeyring := some { activeKid := "k1", keys := [("k1", "s")] }
        signingKey := "" }
      (Attest.generate (fun s => s) (fun _ _ => (⟨List.replicate 64 'a'⟩ : String))
        { signingKeyring := some { activeKid := "k1", keys := [("k1", "s")] }
          signingKey := "" }
        [Fixtures.pendingQuorum] "2024-01-01T00:00:00.000Z" "")).valid = true := by
  have hwf : Attest.SigningWF (fun _ _ => (⟨List.replicate 64 'a'⟩ : String))
      { signingKeyring := some { activeKid := "k1", keys := [("k1", "s")] }
        signingKey := "" } := by
    refine ⟨fun k m => ?_, fun kr hkr => ?_⟩
    · show Keyring.isLowerHex64 (⟨List.replicate 64 'a'⟩ : String) = true
      decide
    · have h := Option.some.inj hkr
      subst h
      exact ⟨by decide, by decide, "s", by decide, by decide⟩
  exact ⟨hwf, attestation_generate_verify_roundtrip _ _ _ _ _ _ hwf⟩

namespace Attest

theorem verifyChain_append (H : String → String) (pre l : List AttEntry) (start m : String)
    (h : verifyChain H pre start = (none, m)) :
    verifyChain H (pre ++ l) start = verifyChain H l m := by
  induction pre generalizing start with
  | nil =>
      unfold verifyChain at h
      have hm : start = m := congrArg Prod.snd h
      rw [List.nil_append, hm]
  | cons e es ih =>
      rw [List.cons_append]
      rw [verifyChain] at h
      rw [verifyChain]
      dsimp only at h ⊢
      by_cases h1 : e.previous_hash ≠ start
      · rw [if_pos h1] at h
        exact absurd (congrArg Prod.fst h) (by simp)
      · rw [if_neg h1] at h ⊢
        by_cases h2 : entryHashJ H start (reconRecord e) e.metadata ≠ e.entry_hash
        · rw [if_pos h2] at h
          exact absurd (congrArg Prod.fst h) (by simp)
        · rw [if_neg h2] at h ⊢
          exact ih _ h

theorem verifyPayload_reason_of_chainFail (H : String → String)
    (hmac : String → String → String) (cfg : SigningConfig) (p : AttPayload) (r h : String)
    (hcount : p.count = (p.entries.length : Int))
    (hchain : verifyChain H p.entries GENESIS_HASH = (some r, h)) :
    (verifyPayload H hmac cfg p).valid = false ∧
      (verifyPayload H hmac cfg p).reason = some r := by
  unfold verifyPayload
  dsimp only
  rw [hcount, if_neg (fun hc => hc rfl), hchain]
  dsimp only
  cases hk : cfg.signingKeyring with
  | some kr =>
      dsimp only
      rw [if_neg (fun hc => Option.noConfusion hc.2)]
      exact ⟨rfl, rfl⟩
  | none =>
      by_cases hkey : cfg.signingKey = ""
      · rw [if_neg (fun hc => hc hkey)]
        exact ⟨rfl, rfl⟩
      · rw [if_pos hkey]
        dsimp only
        rw [if_neg (fun hc => Option.noConfusion hc.2)]
        exact ⟨rfl, rfl⟩

end Attest

/-- **C7 (amended)**: mutating one entry of a payload (here pinned down as
replacing `entries[i]` by any entry `e'` that keeps `previous_hash` consistent
with the verified prefix but whose recomputed entry hash differs from its
stored `entry_hash` — which is what a metadata mutation produces) makes
`verifyPayload` return `valid = false` with reason "Entry hash mismatch.".
The reason is this constant string for every such `i` and does not name the
offending entry. -/
theorem attestation_tamper_detected (H : String → String)
    (hmac : String → String → String) (cfg : Attest.SigningConfig) (p : Attest.AttPayload)
    (i : Nat) (e' : Attest.AttEntry)
    (hi : i < p.entries.length)
    (hcount : p.count = (p.entries.length : Int))
    (hchain : Attest.verifyChain H (p.entries.take i) Attest.GENESIS_HASH =
      (none, e'.previous_hash))
    (hdiff : Attest.entryHashJ H e'.previous_hash (Attest.reconRecord e') e'.metadata ≠
      e'.entry_hash) :
    (Attest.verifyPayload H hmac cfg
      { p with entries := p.entries.take i ++ e' :: p.entries.drop (i + 1) }).valid = false ∧
    (Attest.verifyPayload H hmac cfg
      { p with entries := p.entries.take i ++ e' :: p.entries.drop (i + 1) }).reason =
      some "Entry hash mismatch." := by
  refine Attest.verifyPayload_reason_of_chainFail H hmac cfg _ _ e'.previous_hash ?_ ?_
  · show p.count = ((p.entries.take i ++ e' :: p.entries.drop (i + 1)).length : Int)
    have hlen : (p.entries.take i ++ e' :: p.entries.drop (i + 1)).length =
        p.entries.length := by
      simp only [List.length_append, List.length_take, List.length_cons, List.length_drop]
      omega
    rw [hlen]
    exact hcount
  · show Attest.verifyChain H (p.entries.take i ++ e' :: p.entries.drop (i + 1))
      Attest.GENESIS_HASH = _
    rw [Attest.verifyChain_append H (p.entries.take i) (e' :: p.entries.drop (i + 1))
      Attest.GENESIS_HASH e'.previous_hash hchain]
    rw [Attest.verifyChain]
    dsimp only
    rw [if_neg (fun hc => hc rfl)]
    rw [if_pos hdiff]

set_option maxRecDepth 40000

/-- Closed instance of the amended C7 statement: tampering with
`entries[1].metadata` of the three-entry snapshot is detected. -/
theorem attestation_tamper_detected_witness :
    1 < Fixtures.attPayload.entries.length ∧
    (Attest.verifyPayload Fixtures.attHash Fixtures.attHmac Fixtures.attCfg
      { Fixtures.attPayload with
        entries := Fixtures.attPayload.entries.take 1 ++ Fixtures.tamperedEntry1 ::
          Fixtures.attPayload.entries.drop 2 }).valid = false ∧
    (Attest.verifyPayload Fixtures.attHash Fixtures.attHmac Fixtures.attCfg
      { Fixtures.attPayload with
        entries := Fixtures.attPayload.entries.take 1 ++ Fixtures.tamperedEntry1 ::
          Fixtures.attPayload.entries.drop 2 }).reason = some "Entry hash mismatch." := by
  have h := attestation_tamper_detected Fixtures.attHash Fixtures.attHmac Fixtures.attCfg
    Fixtures.attPayload 1 Fixtures.tamperedEntry1 (by decide) (by decide) (by decide) (by decide)
  exact ⟨by decide, h.1, h.2⟩

/-- **C7 counterexample**: the failure reason produced for a metadata mutation
is the constant string "Entry hash mismatch."; it is the same whether the
mutation hits `entries[1]` or `entries[0]`, and it contains neither the
mutated entry's id ("e1") nor its index ("1"), so it does not identify the
offending entry. -/
theorem attestation_reason_counterexample :
    (Attest.verifyPayload Fixtures.attHash Fixtures.attHmac Fixtures.attCfg
        Fixtures.tamperedPayload1).valid = false ∧
    (Attest.verifyPayload Fixtures.attHash Fixtures.attHmac Fixtures.attCfg
        Fixtures.tamperedPayload1).reason = some "Entry hash mismatch." ∧
    (Attest.verifyPayload Fixtures.attHash Fixtures.attHmac Fixtures.attCfg
        Fixtures.tamperedPayload0).reason = some "Entry hash mismatch." ∧
    containsB "Entry hash mismatch." "e1" = false ∧
    containsB "Entry hash mismatch." "1" = false := by
  refine ⟨by decide, by decide, by decide, by decide, by decide⟩

/-! ## C10: the JSON recognizer against `stableStringify` -/

theorem parseV_stop (f : Nat) (r : List Char) (h : stopsV r = true) : parseV f r = none := by
  cases f with
  | zero => rfl
  | succ f =>
      cases r with
      | nil => rfl
      | cons c t =>
          unfold stopsV at h
          simp only [Bool.or_eq_true, decide_eq_true_eq] at h
          rcases h with (h | h) | h <;> subst h <;> rfl

theorem parseV_null (f : Nat) (r : List Char) :
    parseV (f + 1) ('n' :: 'u' :: 'l' :: 'l' :: r) = some r := rfl

theorem parseV_true (f : Nat) (r : List Char) :
    parseV (f + 1) ('t' :: 'r' :: 'u' :: 'e' :: r) = some r := rfl

theorem parseV_false (f : Nat) (r : List Char) :
    parseV (f + 1) ('f' :: 'a' :: 'l' :: 's' :: 'e' :: r) = some r := rfl

theorem parseV_str (f : Nat) (r : List Char) :
    parseV (f + 1) ('"' :: r) = parseStrBody r := rfl

theorem parseItems_step (f : Nat) (s : List Char) :
    parseItems (f + 1) s = (match parseV f s with
      | some (',' :: r) => parseItems f r
      | some (']' :: r) => some r
      | _ => none) := rfl

theorem parseFields_step (f : Nat) (r : List Char) :
    parseFields (f + 1) ('"' :: r) = (match parseStrBody r with
      | some (':' :: r2) =>
          (match parseV f r2 with
            | some (',' :: r3) => parseFields f r3
            | some (c3 :: r3) => if c3 = rbraceC then some r3 else none
            | _ => none)
      | _ => none) := rfl

theorem parseStr_step (r : List Char) : parseStrBody ('"' :: r) = some r := by
  rw [parseStrBody]

theorem parseStr_esc (r : List Char) : parseStrBody ('\\' :: '"' :: r) = parseStrBody r := by
  rw [parseStrBody.eq_def]
  rfl

theorem parseStr_escBS (r : List Char) : parseStrBody ('\\' :: '\\' :: r) = parseStrBody r := by
  rw [parseStrBody.eq_def]
  rfl

theorem parseStr_escN (r : List Char) : parseStrBody ('\\' :: 'n' :: r) = parseStrBody r := by
  rw [parseStrBody.eq_def]
  rfl

theorem parseStr_escT (r : List Char) : parseStrBody ('\\' :: 't' :: r) = parseStrBody r := by
  rw [parseStrBody.eq_def]
  rfl

theorem parseStr_escR (r : List Char) : parseStrBody ('\\' :: 'r' :: r) = parseStrBody r := by
  rw [parseStrBody.eq_def]
  rfl

theorem parseStr_escB (r : List Char) : parseStrBody ('\\' :: 'b' :: r) = parseStrBody r := by
  rw [parseStrBody.eq_def]
  rfl

theorem parseStr_escF (r : List Char) : parseStrBody ('\\' :: 'f' :: r) = parseStrBody r := by
  rw [parseStrBody.eq_def]
  rfl

theorem isHexDigitB_hexDigitChar (n : Nat) (h : n < 16) : isHexDigitB (hexDigitChar n) = true := by
  interval_cases n <;> decide

theorem parseStr_hexEsc (a b : Char) (r : List Char)
    (ha : isHexDigitB a = true) (hb : isHexDigitB b = true) :
    parseStrBody ('\\' :: 'u' :: '0' :: '0' :: a :: b :: r) = parseStrBody r := by
  rw [parseStrBody.eq_def]
  show (if ('u' : Char) = '"' ∨ ('u' : Char) = '\\' ∨ ('u' : Char) = '/' ∨ ('u' : Char) = 'b' ∨
      ('u' : Char) = 'f' ∨ ('u' : Char) = 'n' ∨ ('u' : Char) = 'r' ∨ ('u' : Char) = 't' then
      parseStrBody ('0' :: '0' :: a :: b :: r)
    else if ('u' : Char) = 'u' then
      (if (isHexDigitB '0' && isHexDigitB '0' && isHexDigitB a && isHexDigitB b) = true then
        parseStrBody r else none)
    else none) = parseStrBody r
  rw [if_neg (by decide), if_pos rfl, if_pos (by rw [ha, hb]; decide)]

theorem parseStr_plain (c : Char) (r : List Char) (h1 : c ≠ '"') (h2 : c ≠ '\\')
    (h3 : 32 ≤ c.toNat) : parseStrBody (c :: r) = parseStrBody r := by
  rw [parseStrBody.eq_def]
  split
  · rename_i heq
    exact List.noConfusion heq
  · rename_i heq
    injection heq with hc hr
    exact absurd hc h1
  · rename_i heq
    injection heq with hc hr
    exact absurd hc h2
  · rename_i hne1 hne2 heq
    injection heq with hc hr
    rw [← hc, ← hr]
    rw [if_neg (by omega)]

theorem escapeChar_low (c : Char) (h1 : c ≠ '"') (h2 : c ≠ '\\') (h3 : c ≠ '\n') (h4 : c ≠ '\t')
    (h5 : c ≠ '\r') (h6 : c ≠ Char.ofNat 8) (h7 : c ≠ Char.ofNat 12) (h8 : c.toNat < 32) :
    escapeChar c =
      ['\\', 'u', '0', '0', hexDigitChar (c.toNat / 16), hexDigitChar (c.toNat % 16)] := by
  unfold escapeChar
  rw [if_neg h1, if_neg h2, if_neg h3, if_neg h4, if_neg h5, if_neg h6, if_neg h7, if_pos h8]

theorem escapeChar_plain (c : Char) (h1 : c ≠ '"') (h2 : c ≠ '\\') (h3 : c ≠ '\n') (h4 : c ≠ '\t')
    (h5 : c ≠ '\r') (h6 : c ≠ Char.ofNat 8) (h7 : c ≠ Char.ofNat 12) (h8 : 32 ≤ c.toNat) :
    escapeChar c = [c] := by
  unfold escapeChar
  rw [if_neg h1, if_neg h2, if_neg h3, if_neg h4, if_neg h5, if_neg h6, if_neg h7,
    if_neg (by omega)]

theorem parseStrBody_ser (l rest : List Char) :
    parseStrBody ((l.map escapeChar).flatten ++ '"' :: rest) = some rest := by
  induction l with
  | nil =>
      simp only [List.map_nil, List.flatten_nil, List.nil_append]
      exact parseStr_step rest
  | cons c cs ih =>
      simp only [List.map_cons, List.flatten_cons, List.append_assoc]
      by_cases h1 : c = '"'
      · subst h1
        rw [show escapeChar '"' = ['\\', '"'] from rfl]
        simp only [List.cons_append, List.nil_append]
        rw [parseStr_esc]
        exact ih
      by_cases h2 : c = '\\'
      · subst h2
        rw [show escapeChar '\\' = ['\\', '\\'] from rfl]
        simp only [List.cons_append, List.nil_append]
        rw [parseStr_escBS]
        exact ih
      by_cases h3 : c = '\n'
      · subst h3
        rw [show escapeChar '\n' = ['\\', 'n'] from rfl]
        simp only [List.cons_append, List.nil_append]
        rw [parseStr_escN]
        exact ih
      by_cases h4 : c = '\t'
      · subst h4
        rw [show escapeChar '\t' = ['\\', 't'] from rfl]
        simp only [List.cons_append, List.nil_append]
        rw [parseStr_escT]
        exact ih
      by_cases h5 : c = '\r'
      · subst h5
        rw [show escapeChar '\r' = ['\\', 'r'] from rfl]
        simp only [List.cons_append, List.nil_append]
        rw [parseStr_escR]
        exact ih
      by_cases h6 : c = Char.ofNat 8
      · subst h6
        rw [show escapeChar (Char.ofNat 8) = ['\\', 'b'] from rfl]
        simp only [List.cons_append, List.nil_append]
        rw [parseStr_escB]
        exact ih
      by_cases h7 : c = Char.ofNat 12
      · subst h7
        rw [show escapeChar (Char.ofNat 12) = ['\\', 'f'] from rfl]
        simp only [List.cons_append, List.nil_append]
        rw [parseStr_escF]
        exact ih
      by_cases h8 : c.toNat < 32
      · rw [escapeChar_low c h1 h2 h3 h4 h5 h6 h7 h8]
        simp only [List.cons_append, List.nil_append]
        rw [parseStr_hexEsc _ _ _ (isHexDigitB_hexDigitChar _ (by omega))
          (isHexDigitB_hexDigitChar _ (by omega))]
        exact ih
      · rw [escapeChar_plain c h1 h2 h3 h4 h5 h6 h7 (by omega)]
        simp only [List.cons_append, List.nil_append]
        rw [parseStr_plain c _ h1 h2 (by omega)]
        exact ih

theorem digitChar_isDigit (n : Nat) (h : n < 10) : (Nat.digitChar n).isDigit = true := by
  interval_cases n <;> decide

theorem toDigitsCore_digits (f : Nat) : ∀ (n : Nat) (ds : List Char),
    (∀ c ∈ ds, c.isDigit = true) → ∀ c ∈ Nat.toDigitsCore 10 f n ds, c.isDigit = true := by
  induction f with
  | zero => exact fun n ds hds => hds
  | succ f ih =>
      intro n ds hds
      rw [Nat.toDigitsCore]
      have hstep : ∀ c ∈ Nat.digitChar (n % 10) :: ds, c.isDigit = true := by
        intro c hc
        rcases List.mem_cons.mp hc with h1 | h1
        · subst h1
          exact digitChar_isDigit _ (Nat.mod_lt _ (by omega))
        · exact hds c h1
      by_cases h : n / 10 = 0
      · rw [if_pos h]
        exact hstep
      · rw [if_neg h]
        exact ih _ _ hstep

theorem toDigitsCore_ne_nil (f : Nat) : ∀ (n : Nat) (ds : List Char), (0 < f ∨ ds ≠ []) →
    Nat.toDigitsCore 10 f n ds ≠ [] := by
  induction f with
  | zero =>
      intro n ds h
      rcases h with h | h
      · omega
      · exact h
  | succ f ih =>
      intro n ds h
      rw [Nat.toDigitsCore]
      by_cases hq : n / 10 = 0
      · rw [if_pos hq]
        exact List.cons_ne_nil _ _
      · rw [if_neg hq]
        exact ih _ _ (Or.inr (List.cons_ne_nil _ _))

theorem repr_digits (m : Nat) :
    (∀ c ∈ (Nat.repr m).data, c.isDigit = true) ∧ (Nat.repr m).data ≠ [] := by
  constructor
  · exact toDigitsCore_digits _ _ _ (fun c hc => absurd hc (List.not_mem_nil c))
  · exact toDigitsCore_ne_nil _ _ _ (Or.inl (by omega))

theorem takeWhile_all (p : Char → Bool) (d r : List Char) (hd : ∀ c ∈ d, p c = true)
    (hr : ∀ c ∈ r.head?, p c = false) : (d ++ r).takeWhile p = d := by
  induction d with
  | nil =>
      simp only [List.nil_append]
      cases r with
      | nil => rfl
      | cons c t =>
          have hpc := hr c rfl
          simp [List.takeWhile_cons, hpc]
  | cons a d2 ih =>
      simp only [List.cons_append, List.takeWhile_cons, hd a (List.mem_cons_self a d2),
        if_true]
      rw [ih (fun c hc => hd c (List.mem_cons_of_mem a hc))]

theorem dropWhile_all (p : Char → Bool) (d r : List Char) (hd : ∀ c ∈ d, p c = true)
    (hr : ∀ c ∈ r.head?, p c = false) : (d ++ r).dropWhile p = r := by
  induction d with
  | nil =>
      simp only [List.nil_append]
      cases r with
      | nil => rfl
      | cons c t =>
          have hpc := hr c rfl
          simp [List.dropWhile_cons, hpc]
  | cons a d2 ih =>
      simp only [List.cons_append, List.dropWhile_cons, hd a (List.mem_cons_self a d2)]
      simp only [if_true]
      exact ih (fun c hc => hd c (List.mem_cons_of_mem a hc))

theorem parseDigits_block (d r : List Char) (hne : d ≠ []) (hd : ∀ c ∈ d, c.isDigit = true)
    (hr : ∀ c ∈ r.head?, c.isDigit = false) : parseDigits (d ++ r) = some r := by
  unfold parseDigits
  rw [List.span_eq_take_drop]
  dsimp only
  rw [takeWhile_all _ _ _ hd hr, dropWhile_all _ _ _ hd hr]
  rw [if_neg (fun hc => hne (by simpa using hc))]

theorem parseFracPart_stop (r : List Char) (h : ∀ c ∈ r.head?, c ≠ '.') :
    parseFracPart r = some r := by
  cases r with
  | nil => rfl
  | cons c t =>
      rw [parseFracPart.eq_def]
      split
      · rename_i heq
        injection heq with hc ht
        exact absurd hc (h c rfl)
      · rfl

theorem parseExpPart_stop (r : List Char) (h : ∀ c ∈ r.head?, c ≠ 'e' ∧ c ≠ 'E') :
    parseExpPart r = some r := by
  cases r with
  | nil => rfl
  | cons c t =>
      rw [parseExpPart.eq_def]
      dsimp only
      rw [if_neg (fun hc => by
        rcases hc with hc | hc
        · exact (h c rfl).1 hc
        · exact (h c rfl).2 hc)]

theorem stopsV_head (r : List Char) (h : stopsV r = true) :
    ∀ c ∈ r.head?, (c = ',' ∨ c = ']' ∨ c = rbraceC) := by
  intro c hc
  cases r with
  | nil => exact absurd hc (by simp)
  | cons a t =>
      have hac : a = c := by simpa using hc
      subst hac
      unfold stopsV at h
      simp only [Bool.or_eq_true, decide_eq_true_eq] at h
      tauto

theorem stopsV_not_num (r : List Char) (h : stopsV r = true) :
    (∀ c ∈ r.head?, c.isDigit = false) ∧ (∀ c ∈ r.head?, c ≠ '.') ∧
    (∀ c ∈ r.head?, c ≠ 'e' ∧ c ≠ 'E') := by
  refine ⟨?_, ?_, ?_⟩ <;> intro c hc <;>
    rcases stopsV_head r h c hc with h1 | h1 | h1 <;> subst h1 <;> decide

theorem parseNumber_ser (n : Int) (r : List Char) (hstop : stopsV r = true) :
    parseNumber (serNum n ++ r) = some r := by
  obtain ⟨hrd, hrdot, hre⟩ := stopsV_not_num r hstop
  cases n with
  | ofNat m =>
      obtain ⟨hdig, hnn⟩ := repr_digits m
      have hser : serNum (Int.ofNat m) = (Nat.repr m).data := rfl
      rw [hser]
      obtain ⟨c, d2, hd⟩ := List.exists_cons_of_ne_nil hnn
      unfold parseNumber
      dsimp only
      rw [hd]
      simp only [List.cons_append]
      split
      · rename_i r2 heq
        injection heq with hc ht
        have hcd := hdig c (by rw [hd]; exact List.mem_cons_self c d2)
        rw [hc] at hcd
        exact absurd hcd (by decide)
      · rw [← List.cons_append, ← hd]
        rw [parseDigits_block _ _ hnn hdig hrd]
        dsimp only [Option.bind]
        rw [parseFracPart_stop r hrdot]
        dsimp only [Option.bind]
        exact parseExpPart_stop r hre
  | negSucc m =>
      obtain ⟨hdig, hnn⟩ := repr_digits (m + 1)
      have hser : serNum (Int.negSucc m) = '-' :: (Nat.repr (m + 1)).data := by
        rw [show serNum (Int.negSucc m) = (toString (Int.negSucc m)).data from rfl]
        rw [show toString (Int.negSucc m) = "-" ++ Nat.repr (m + 1) from rfl,
          String.data_append]
        rfl
      rw [hser]
      unfold parseNumber
      dsimp only
      simp only [List.cons_append]
      rw [parseDigits_block _ _ hnn hdig hrd]
      dsimp only [Option.bind]
      rw [parseFracPart_stop r hrdot]
      dsimp only [Option.bind]
      exact parseExpPart_stop r hre

theorem parseV_other (f : Nat) (c : Char) (r : List Char) (h1 : c ≠ 'n') (h2 : c ≠ 't')
    (h3 : c ≠ 'f') (h4 : c ≠ '"') (h5 : c ≠ '[') :
    parseV (f + 1) (c :: r) =
      (if c = lbraceC then
        match r with
        | c2 :: r2 => if c2 = rbraceC then some r2 else parseFields f (c2 :: r2)
        | [] => none
      else if c = '-' ∨ c.isDigit then parseNumber (c :: r) else none) := by
  rw [parseV.eq_def]
  split
  · rename_i heq
    exact absurd heq (by omega)
  · rename_i hfuel heq
    injection heq with hc hr
    exact absurd hc h1
  · rename_i hfuel heq
    injection heq with hc hr
    exact absurd hc h2
  · rename_i hfuel heq
    injection heq with hc hr
    exact absurd hc h3
  · rename_i hfuel heq
    injection heq with hc hr
    exact absurd hc h4
  · rename_i hfuel heq
    injection heq with hc hr
    exact absurd hc h5
  · rename_i hfuel heq
    injection hfuel with hf
    injection heq with hc hr
    subst hf
    subst hc
    subst hr
    rfl
  · rename_i hfuel heq
    exact List.noConfusion heq

theorem isDigit_bounds (c : Char) (h : c.isDigit = true) : 48 ≤ c.toNat ∧ c.toNat ≤ 57 := by
  unfold Char.isDigit at h
  simp only [Bool.and_eq_true, decide_eq_true_eq] at h
  exact h

theorem ne_of_toNat (c d : Char) (h : c.toNat ≠ d.toNat) : c ≠ d :=
  fun hc => h (congrArg Char.toNat hc)

theorem serNum_negSucc (m : Nat) : serNum (Int.negSucc m) = '-' :: (Nat.repr (m + 1)).data := by
  rw [show serNum (Int.negSucc m) = (toString (Int.negSucc m)).data from rfl]
  rw [show toString (Int.negSucc m) = "-" ++ Nat.repr (m + 1) from rfl, String.data_append]
  rfl

theorem serNum_shape (n : Int) : ∃ c t, serNum n = c :: t ∧ (c = '-' ∨ c.isDigit = true) := by
  cases n with
  | ofNat m =>
      obtain ⟨hdig, hnn⟩ := repr_digits m
      obtain ⟨c, d2, hd⟩ := List.exists_cons_of_ne_nil hnn
      refine ⟨c, d2, hd, Or.inr ?_⟩
      exact hdig c (by rw [hd]; exact List.mem_cons_self c d2)
  | negSucc m => exact ⟨'-', (Nat.repr (m + 1)).data, serNum_negSucc m, Or.inl rfl⟩

theorem parseV_num (f : Nat) (n : Int) (r : List Char) (h : stopsV r = true) :
    parseV (f + 1) (serNum n ++ r) = some r := by
  obtain ⟨c, t, hser, hc⟩ := serNum_shape n
  have hne : ∀ d : Char, d.toNat ≠ 45 → ¬(48 ≤ d.toNat ∧ d.toNat ≤ 57) → c ≠ d := by
    intro d hd1 hd2
    rcases hc with hc | hc
    · subst hc
      exact ne_of_toNat _ _ (fun hcon => hd1 hcon.symm)
    · have hb := isDigit_bounds c hc
      exact ne_of_toNat _ _ (fun hcon => hd2 (hcon ▸ hb))
  rw [hser, List.cons_append]
  rw [parseV_other f c (t ++ r) (hne 'n' (by decide) (by decide)) (hne 't' (by decide) (by decide))
    (hne 'f' (by decide) (by decide)) (hne '"' (by decide) (by decide))
    (hne '[' (by decide) (by decide))]
  rw [if_neg (hne lbraceC (by decide) (by decide))]
  rw [if_pos hc]
  rw [← List.cons_append, ← hser]
  exact parseNumber_ser n r h

theorem serV_shape (v : JVal) (cs : List Char) (h : stableSerCore v = some cs) :
    ∃ c t, cs = c :: t ∧ c ≠ ']' := by
  cases v with
  | jundef => exact Option.noConfusion h
  | jnull =>
      injection h with h2
      exact ⟨'n', _, h2.symm, by decide⟩
  | jbool b =>
      cases b with
      | true =>
          injection h with h2
          exact ⟨'t', _, h2.symm, by decide⟩
      | false =>
          injection h with h2
          exact ⟨'f', _, h2.symm, by decide⟩
  | jnum n =>
      injection h with h2
      obtain ⟨c, t, hser, hc⟩ := serNum_shape n
      refine ⟨c, t, by rw [← h2, hser], ?_⟩
      rcases hc with hc | hc
      · subst hc
        decide
      · have hb := isDigit_bounds c hc
        exact ne_of_toNat _ _ (by intro hcon; rw [hcon] at hb; exact absurd hb (by decide))
  | jstr s =>
      injection h with h2
      exact ⟨'"', _, h2.symm, by decide⟩
  | jarr l =>
      injection h with h2
      exact ⟨'[', _, h2.symm, by decide⟩
  | jobj kvs =>
      injection h with h2
      exact ⟨lbraceC, _, h2.symm, by decide⟩

theorem stableItemParts_cons (v : JVal) (rest : List JVal) :
    stableItemParts (v :: rest) = serV v :: stableItemParts rest := by
  have hval : serV v = (match stableSerCore v with | none => [] | some cs => cs) := by
    unfold serV
    cases stableSerCore v <;> rfl
  rw [stableItemParts.eq_def]
  dsimp only
  rw [hval]

theorem stableFieldParts_cons (k : String) (v : JVal) (rest : List (String × JVal)) :
    stableFieldParts ((k, v) :: rest) = (k, valText v) :: stableFieldParts rest := rfl

theorem joinComma_cons2 (p q : List Char) (rest : List (List Char)) :
    joinComma (p :: q :: rest) = p ++ ',' :: joinComma (q :: rest) := rfl

theorem itemsText_nil : itemsText [] = [] := rfl

theorem itemsText_single (v : JVal) : itemsText [v] = serV v := by
  unfold itemsText
  rw [stableItemParts_cons]
  rfl

theorem itemsText_cons (v w : JVal) (rest : List JVal) :
    itemsText (v :: w :: rest) = serV v ++ ',' :: itemsText (w :: rest) := by
  unfold itemsText
  rw [stableItemParts_cons v (w :: rest), stableItemParts_cons w rest, joinComma_cons2,
    ← stableItemParts_cons w rest]

theorem fieldsText_single (k : String) (v : JVal) :
    fieldsText [(k, v)] = serStr k ++ ':' :: valText v := by
  unfold fieldsText
  rw [stableFieldParts_cons]
  rfl

theorem fieldsText_cons (k : String) (v : JVal) (kv2 : String × JVal)
    (rest : List (String × JVal)) :
    fieldsText ((k, v) :: kv2 :: rest) =
      (serStr k ++ ':' :: valText v) ++ ',' :: fieldsText (kv2 :: rest) := by
  cases kv2 with
  | mk k2 v2 =>
      unfold fieldsText
      rw [stableFieldParts_cons k v, stableFieldParts_cons k2 v2]
      simp only [List.map_cons]
      rw [joinComma_cons2]

theorem serStr_head (k : String) :
    serStr k = '"' :: ((k.data.map escapeChar).flatten ++ ['"']) := rfl

theorem fieldsText_head (kv : String × JVal) (rest : List (String × JVal)) :
    ∃ t, fieldsText (kv :: rest) = '"' :: t := by
  cases kv with
  | mk k v =>
      cases rest with
      | nil =>
          exact ⟨_, by rw [fieldsText_single, serStr_head, List.cons_append]⟩
      | cons kv2 r2 =>
          exact ⟨_, by rw [fieldsText_cons, serStr_head, List.cons_append, List.cons_append]⟩

theorem itemsText_head (l : List JVal) (c : Char) (t : List Char)
    (h : itemsText l = c :: t) : c ≠ ']' := by
  cases l with
  | nil =>
      rw [itemsText_nil] at h
      exact List.noConfusion h
  | cons v vs =>
      cases hsv : stableSerCore v with
      | none =>
          have hserv : serV v = [] := by
            unfold serV
            rw [hsv]
            rfl
          cases vs with
          | nil =>
              rw [itemsText_single, hserv] at h
              exact List.noConfusion h
          | cons w ws =>
              rw [itemsText_cons, hserv, List.nil_append] at h
              injection h with hc ht
              rw [← hc]
              decide
      | some cs =>
          have hserv : serV v = cs := by
            unfold serV
            rw [hsv]
            rfl
          obtain ⟨c2, t2, hcs, hne⟩ := serV_shape v cs hsv
          cases vs with
          | nil =>
              rw [itemsText_single, hserv, hcs] at h
              injection h with hc ht
              rw [← hc]
              exact hne
          | cons w ws =>
              rw [itemsText_cons, hserv, hcs, List.cons_append] at h
              injection h with hc ht
              rw [← hc]
              exact hne

theorem stableFieldParts_eq_map (l : List (String × JVal)) :
    stableFieldParts l = l.map (fun kv => (kv.1, valText kv.2)) := by
  induction l with
  | nil => rfl
  | cons kv rest ih =>
      cases kv with
      | mk k v =>
          rw [stableFieldParts_cons, ih]
          rfl

theorem insertPair_map (x : String × JVal) (l : List (String × JVal)) :
    insertPair (x.1, valText x.2) (l.map (fun kv => (kv.1, valText kv.2))) =
      (insertKV x l).map (fun kv => (kv.1, valText kv.2)) := by
  induction l with
  | nil => rfl
  | cons y ys ih =>
      simp only [List.map_cons]
      unfold insertPair insertKV
      dsimp only
      by_cases h : strLtB x.1 y.1
      · rw [if_pos h, if_pos h]
        simp only [List.map_cons]
      · rw [if_neg h, if_neg h]
        simp only [List.map_cons]
        rw [ih]

theorem sortPairs_map (l : List (String × JVal)) :
    sortPairs (l.map (fun kv => (kv.1, valText kv.2))) =
      (sortKV l).map (fun kv => (kv.1, valText kv.2)) := by
  induction l with
  | nil => rfl
  | cons x xs ih =>
      simp only [List.map_cons]
      unfold sortPairs sortKV
      rw [ih]
      exact insertPair_map x (sortKV xs)

theorem sortPairs_fieldParts (l : List (String × JVal)) :
    sortPairs (stableFieldParts l) = stableFieldParts (sortKV l) := by
  rw [stableFieldParts_eq_map, stableFieldParts_eq_map, sortPairs_map]

theorem noUndefFields_cons (k : String) (v : JVal) (l : List (String × JVal)) :
    noUndefFields ((k, v) :: l) = (noUndef v && noUndefFields l) := rfl

theorem sizeJFields_cons (k : String) (v : JVal) (l : List (String × JVal)) :
    sizeJFields ((k, v) :: l) = sizeJ v + 1 + sizeJFields l := rfl

theorem hasUFF_cons (k : String) (v : JVal) (l : List (String × JVal)) :
    hasUndefFieldFields ((k, v) :: l) =
      (isUndefB v || (hasUndefField v || hasUndefFieldFields l)) := by
  cases v <;> rfl

theorem noUndefFields_insertKV (x : String × JVal) (l : List (String × JVal)) :
    noUndefFields (insertKV x l) = noUndefFields (x :: l) := by
  induction l with
  | nil => rfl
  | cons y ys ih =>
      unfold insertKV
      by_cases h : strLtB x.1 y.1
      · rw [if_pos h]
      · rw [if_neg h]
        cases x with
        | mk k v =>
            cases y with
            | mk k2 v2 =>
                rw [noUndefFields_cons, ih, noUndefFields_cons, noUndefFields_cons,
                  noUndefFields_cons]
                rw [Bool.and_left_comm]

theorem sizeJFields_insertKV (x : String × JVal) (l : List (String × JVal)) :
    sizeJFields (insertKV x l) = sizeJFields (x :: l) := by
  induction l with
  | nil => rfl
  | cons y ys ih =>
      unfold insertKV
      by_cases h : strLtB x.1 y.1
      · rw [if_pos h]
      · rw [if_neg h]
        cases x with
        | mk k v =>
            cases y with
            | mk k2 v2 =>
                rw [sizeJFields_cons, ih, sizeJFields_cons, sizeJFields_cons, sizeJFields_cons]
                omega

theorem hasUFF_insertKV (x : String × JVal) (l : List (String × JVal)) :
    hasUndefFieldFields (insertKV x l) = hasUndefFieldFields (x :: l) := by
  induction l with
  | nil => rfl
  | cons y ys ih =>
      unfold insertKV
      by_cases h : strLtB x.1 y.1
      · rw [if_pos h]
      · rw [if_neg h]
        cases x with
        | mk k v =>
            cases y with
            | mk k2 v2 =>
                rw [hasUFF_cons, ih, hasUFF_cons, hasUFF_cons, hasUFF_cons]
                cases isUndefB v <;> cases isUndefB v2 <;> cases hasUndefField v <;>
                  cases hasUndefField v2 <;> cases hasUndefFieldFields ys <;> rfl

theorem noUndefFields_sortKV (l : List (String × JVal)) :
    noUndefFields (sortKV l) = noUndefFields l := by
  induction l with
  | nil => rfl
  | cons x xs ih =>
      unfold sortKV
      rw [noUndefFields_insertKV]
      cases x with
      | mk k v => rw [noUndefFields_cons, noUndefFields_cons, ih]

theorem sizeJFields_sortKV (l : List (String × JVal)) :
    sizeJFields (sortKV l) = sizeJFields l := by
  induction l with
  | nil => rfl
  | cons x xs ih =>
      unfold sortKV
      rw [sizeJFields_insertKV]
      cases x with
      | mk k v => rw [sizeJFields_cons, sizeJFields_cons, ih]

theorem hasUFF_sortKV (l : List (String × JVal)) :
    hasUndefFieldFields (sortKV l) = hasUndefFieldFields l := by
  induction l with
  | nil => rfl
  | cons x xs ih =>
      unfold sortKV
      rw [hasUFF_insertKV]
      cases x with
      | mk k v => rw [hasUFF_cons, hasUFF_cons, ih]

theorem insertKV_ne_nil (x : String × JVal) (l : List (String × JVal)) :
    insertKV x l ≠ [] := by
  cases l with
  | nil => exact List.cons_ne_nil _ _
  | cons y ys =>
      unfold insertKV
      by_cases h : strLtB x.1 y.1
      · rw [if_pos h]
        exact List.cons_ne_nil _ _
      · rw [if_neg h]
        exact List.cons_ne_nil _ _

theorem sortKV_ne_nil (l : List (String × JVal)) (h : l ≠ []) : sortKV l ≠ [] := by
  cases l with
  | nil => exact absurd rfl h
  | cons x xs =>
      unfold sortKV
      exact insertKV_ne_nil _ _

theorem parseV_u (f : Nat) (r : List Char) : parseV f ('u' :: r) = none := by
  cases f with
  | zero => rfl
  | succ f => rfl

theorem parseV_arr (f : Nat) (r : List Char) :
    parseV (f + 1) ('[' :: r) =
      (match r with | ']' :: r2 => some r2 | _ => parseItems f r) := rfl

theorem stopsV_comma (t : List Char) : stopsV (',' :: t) = true := rfl

theorem stopsV_rbrack (t : List Char) : stopsV (']' :: t) = true := rfl

theorem stopsV_rbrace (t : List Char) : stopsV (rbraceC :: t) = true := rfl

theorem parseItems_none_of_stop (f : Nat) (s : List Char) (h : stopsV s = true) :
    parseItems f s = none := by
  cases f with
  | zero => rfl
  | succ f =>
      rw [parseItems_step, parseV_stop f s h]

theorem stableSerCore_none_eq (v : JVal) (h : stableSerCore v = none) : v = .jundef := by
  cases v with
  | jundef => rfl
  | jbool b => cases b <;> exact Option.noConfusion h
  | _ => exact Option.noConfusion h

theorem isUndefB_false (v : JVal) (h : v ≠ .jundef) : isUndefB v = false := by
  cases v with
  | jundef => exact absurd rfl h
  | _ => rfl

theorem serV_ne_nil_of_some (v : JVal) (cs : List Char) (h : stableSerCore v = some cs) :
    serV v = cs ∧ cs ≠ [] := by
  have hs : serV v = cs := by
    unfold serV
    rw [h]
    rfl
  obtain ⟨c, t, hct, _⟩ := serV_shape v cs h
  exact ⟨hs, by rw [hct]; exact List.cons_ne_nil _ _⟩

theorem itemsText_ne_nil_of_noUndef (l : List JVal) (hne : l ≠ [])
    (hnu : noUndefItems l = true) : itemsText l ≠ [] := by
  cases l with
  | nil => exact absurd rfl hne
  | cons v vs =>
      have hnv : noUndef v = true := by
        have : (noUndef v && noUndefItems vs) = true := hnu
        exact (Bool.and_eq_true_iff.mp this).1
      cases hsv : stableSerCore v with
      | none =>
          have := stableSerCore_none_eq v hsv
          subst this
          exact Bool.noConfusion hnv
      | some cs =>
          obtain ⟨hs, hcne⟩ := serV_ne_nil_of_some v cs hsv
          cases vs with
          | nil =>
              rw [itemsText_single, hs]
              exact hcne
          | cons w ws =>
              rw [itemsText_cons, hs]
              intro hcon
              rcases List.append_eq_nil.mp hcon with ⟨_, h2⟩
              exact List.noConfusion h2

theorem hasUFI_false_of_nilText (l : List JVal) (h : itemsText l = []) :
    hasUndefFieldItems l = false := by
  cases l with
  | nil => rfl
  | cons v vs =>
      cases vs with
      | nil =>
          rw [itemsText_single] at h
          cases hsv : stableSerCore v with
          | none =>
              have := stableSerCore_none_eq v hsv
              subst this
              rfl
          | some cs =>
              obtain ⟨hs, hcne⟩ := serV_ne_nil_of_some v cs hsv
              rw [hs] at h
              exact absurd h hcne
      | cons w ws =>
          rw [itemsText_cons] at h
          rcases List.append_eq_nil.mp h with ⟨_, h2⟩
          exact List.noConfusion h2

theorem sizeJ_pos (v : JVal) : 1 ≤ sizeJ v := by
  cases v <;> simp [sizeJ]

theorem serV_jarr (l : List JVal) : serV (JVal.jarr l) = '[' :: (itemsText l ++ [']']) := rfl

theorem serV_jobj (kvs : List (String × JVal)) :
    serV (JVal.jobj kvs) = lbraceC :: (fieldsText (sortKV kvs) ++ [rbraceC]) := by
  rw [show serV (JVal.jobj kvs) = lbraceC :: (joinComma ((sortPairs
    (stableFieldParts kvs)).map (fun kv => serStr kv.1 ++ ':' :: kv.2)) ++ [rbraceC]) from rfl]
  rw [sortPairs_fieldParts]
  rfl

theorem parseV_jarr_nilText (f : Nat) (l : List JVal) (rest : List Char)
    (hjt : itemsText l = []) : parseV (f + 1) (serV (JVal.jarr l) ++ rest) = some rest := by
  rw [serV_jarr, hjt, List.cons_append, List.nil_append, List.singleton_append, parseV_arr]
  rfl

theorem parseV_jarr_red (f : Nat) (l : List JVal) (rest : List Char) (c : Char) (t : List Char)
    (hjt : itemsText l = c :: t) :
    parseV (f + 1) (serV (JVal.jarr l) ++ rest) =
      parseItems f (itemsText l ++ ']' :: rest) := by
  have hcne := itemsText_head l c t hjt
  rw [serV_jarr, hjt, List.cons_append, parseV_arr]
  simp only [List.cons_append, List.append_assoc, List.singleton_append]
  split
  · rename_i heq
    injection heq with hc ht
    exact absurd hc hcne
  · rfl

theorem parseV_jobj_nil (f : Nat) (kvs : List (String × JVal)) (rest : List Char)
    (h : sortKV kvs = []) : parseV (f + 1) (serV (JVal.jobj kvs) ++ rest) = some rest := by
  rw [serV_jobj, h, List.cons_append]
  rw [show fieldsText ([] : List (String × JVal)) = [] from rfl]
  rw [List.nil_append, List.singleton_append]
  rw [parseV_other f lbraceC _ (by decide) (by decide) (by decide) (by decide) (by decide)]
  rw [if_pos rfl]
  rfl

theorem parseV_jobj_red (f : Nat) (kvs : List (String × JVal)) (rest : List Char)
    (kv2 : String × JVal) (rest2 : List (String × JVal)) (h : sortKV kvs = kv2 :: rest2) :
    parseV (f + 1) (serV (JVal.jobj kvs) ++ rest) =
      parseFields f (fieldsText (sortKV kvs) ++ rbraceC :: rest) := by
  obtain ⟨t2, ht2⟩ := fieldsText_head kv2 rest2
  rw [serV_jobj, h, ht2, List.cons_append]
  rw [parseV_other f lbraceC _ (by decide) (by decide) (by decide) (by decide) (by decide)]
  rw [if_pos rfl]
  simp only [List.cons_append, List.append_assoc, List.singleton_append]
  rfl

theorem valText_undef (v : JVal) (h : stableSerCore v = none) :
    valText v = 'u' :: ['n', 'd', 'e', 'f', 'i', 'n', 'e', 'd'] := by
  unfold valText
  rw [h]

theorem valText_def (v : JVal) (cs : List Char) (h : stableSerCore v = some cs) :
    valText v = serV v := by
  unfold valText serV
  rw [h]
  rfl

theorem parseItems_step2 (f : Nat) (s : List Char) :
    parseItems (f + 1) s = itemsCont f (parseV f s) := rfl

theorem parseFields_key (f : Nat) (k : String) (X : List Char) :
    parseFields (f + 1) ('"' :: ((k.data.map escapeChar).flatten ++ '"' :: ':' :: X)) =
      fieldsCont f (parseV f X) := by
  rw [parseFields_step, parseStrBody_ser]
  rfl

theorem itemsCont_none (f : Nat) : itemsCont f none = none := rfl

theorem itemsCont_comma (f : Nat) (r : List Char) :
    itemsCont f (some (',' :: r)) = parseItems f r := rfl

theorem itemsCont_rbrack (f : Nat) (r : List Char) :
    itemsCont f (some (']' :: r)) = some r := rfl

theorem fieldsCont_none (f : Nat) : fieldsCont f none = none := rfl

theorem fieldsCont_comma (f : Nat) (r : List Char) :
    fieldsCont f (some (',' :: r)) = parseFields f r := rfl

theorem fieldsCont_rbrace (f : Nat) (r : List Char) :
    fieldsCont f (some (rbraceC :: r)) = some r := rfl

theorem parse_stable_main : ∀ fuel : Nat,
    (∀ (v : JVal) (rest : List Char), stopsV rest = true →
      (parseV fuel (serV v ++ rest) = some rest ∨ parseV fuel (serV v ++ rest) = none) ∧
      (hasUndefField v = true → parseV fuel (serV v ++ rest) = none) ∧
      (noUndef v = true → sizeJ v ≤ fuel → parseV fuel (serV v ++ rest) = some rest)) ∧
    (∀ (l : List JVal) (rest : List Char), stopsV rest = true → itemsText l ≠ [] →
      (parseItems fuel (itemsText l ++ ']' :: rest) = some rest ∨
        parseItems fuel (itemsText l ++ ']' :: rest) = none) ∧
      (hasUndefFieldItems l = true → parseItems fuel (itemsText l ++ ']' :: rest) = none) ∧
      (noUndefItems l = true → sizeJItems l ≤ fuel →
        parseItems fuel (itemsText l ++ ']' :: rest) = some rest)) ∧
    (∀ (kvs : List (String × JVal)) (rest : List Char), stopsV rest = true → kvs ≠ [] →
      (parseFields fuel (fieldsText kvs ++ rbraceC :: rest) = some rest ∨
        parseFields fuel (fieldsText kvs ++ rbraceC :: rest) = none) ∧
      (hasUndefFieldFields kvs = true →
        parseFields fuel (fieldsText kvs ++ rbraceC :: rest) = none) ∧
      (noUndefFields kvs = true → sizeJFields kvs ≤ fuel →
        parseFields fuel (fieldsText kvs ++ rbraceC :: rest) = some rest)) := by
  intro fuel
  induction fuel with
  | zero =>
      refine ⟨?_, ?_, ?_⟩
      · intro v rest hstop
        refine ⟨Or.inr rfl, fun _ => rfl, fun _ hsz => ?_⟩
        have := sizeJ_pos v
        omega
      · intro l rest hstop htne
        refine ⟨Or.inr rfl, fun _ => rfl, fun hnu hsz => ?_⟩
        cases l with
        | nil => exact absurd itemsText_nil htne
        | cons v vs =>
            have h1 : sizeJItems (v :: vs) = max (sizeJ v) (sizeJItems vs) + 1 := rfl
            omega
      · intro kvs rest hstop hne
        refine ⟨Or.inr rfl, fun _ => rfl, fun hnu hsz => ?_⟩
        cases kvs with
        | nil => exact absurd rfl hne
        | cons kv r2 =>
            cases kv with
            | mk k v =>
                rw [sizeJFields_cons] at hsz
                omega
  | succ f ih =>
      obtain ⟨ihV, ihI, ihF⟩ := ih
      refine ⟨?_, ?_, ?_⟩
      · -- values
        intro v rest hstop
        cases v with
        | jnull =>
            have hp : parseV (f + 1) (serV JVal.jnull ++ rest) = some rest := parseV_null f rest
            exact ⟨Or.inl hp, fun hbad => Bool.noConfusion hbad, fun _ _ => hp⟩
        | jundef =>
            have hp : parseV (f + 1) (serV JVal.jundef ++ rest) = none :=
              parseV_stop (f + 1) rest hstop
            exact ⟨Or.inr hp, fun _ => hp, fun hg _ => Bool.noConfusion hg⟩
        | jbool b =>
            cases b with
            | true =>
                have hp : parseV (f + 1) (serV (JVal.jbool true) ++ rest) = some rest :=
                  parseV_true f rest
                exact ⟨Or.inl hp, fun hbad => Bool.noConfusion hbad, fun _ _ => hp⟩
            | false =>
                have hp : parseV (f + 1) (serV (JVal.jbool false) ++ rest) = some rest :=
                  parseV_false f rest
                exact ⟨Or.inl hp, fun hbad => Bool.noConfusion hbad, fun _ _ => hp⟩
        | jnum n =>
            have hp : parseV (f + 1) (serV (JVal.jnum n) ++ rest) = some rest :=
              parseV_num f n rest hstop
            exact ⟨Or.inl hp, fun hbad => Bool.noConfusion hbad, fun _ _ => hp⟩
        | jstr s =>
            have hp : parseV (f + 1) (serV (JVal.jstr s) ++ rest) = some rest := by
              rw [show serV (JVal.jstr s) =
                '"' :: ((s.data.map escapeChar).flatten ++ ['"']) from rfl]
              rw [List.cons_append, parseV_str]
              simp only [List.append_assoc, List.singleton_append]
              exact parseStrBody_ser _ _
            exact ⟨Or.inl hp, fun hbad => Bool.noConfusion hbad, fun _ _ => hp⟩
        | jarr l =>
            cases hjt : itemsText l with
            | nil =>
                have hp := parseV_jarr_nilText f l rest hjt
                refine ⟨Or.inl hp, fun hbad => ?_, fun _ _ => hp⟩
                have hb1 : hasUndefFieldItems l = true := hbad
                rw [hasUFI_false_of_nilText l hjt] at hb1
                exact Bool.noConfusion hb1
            | cons c t =>
                have hred := parseV_jarr_red f l rest c t hjt
                have hlne : itemsText l ≠ [] := by
                  rw [hjt]
                  exact List.cons_ne_nil _ _
                obtain ⟨htri, hbad, hgood⟩ := ihI l rest hstop hlne
                refine ⟨?_, ?_, ?_⟩
                · rw [hred]
                  exact htri
                · intro hb
                  rw [hred]
                  exact hbad hb
                · intro hnu hsz
                  rw [hred]
                  refine hgood hnu ?_
                  have h1 : sizeJ (JVal.jarr l) = 1 + sizeJItems l := rfl
                  omega
        | jobj kvs =>
            cases hsk : sortKV kvs with
            | nil =>
                have hp := parseV_jobj_nil f kvs rest hsk
                refine ⟨Or.inl hp, fun hbad => ?_, fun _ _ => hp⟩
                have hkvs : kvs = [] := by
                  by_contra hcon
                  exact sortKV_ne_nil kvs hcon hsk
                subst hkvs
                exact Bool.noConfusion hbad
            | cons kv2 rest2 =>
                have hred := parseV_jobj_red f kvs rest kv2 rest2 hsk
                have hne2 : sortKV kvs ≠ [] := by
                  rw [hsk]
                  exact List.cons_ne_nil _ _
                obtain ⟨htri, hbad, hgood⟩ := ihF (sortKV kvs) rest hstop hne2
                refine ⟨?_, ?_, ?_⟩
                · rw [hred]
                  exact htri
                · intro hb
                  rw [hred]
                  refine hbad ?_
                  rw [hasUFF_sortKV]
                  exact hb
                · intro hnu hsz
                  rw [hred]
                  refine hgood ?_ ?_
                  · rw [noUndefFields_sortKV]
                    exact hnu
                  · rw [sizeJFields_sortKV]
                    have h1 : sizeJ (JVal.jobj kvs) = 1 + sizeJFields kvs := rfl
                    omega
      · -- item lists
        intro l rest hstop htne
        cases l with
        | nil => exact absurd itemsText_nil htne
        | cons v vs =>
            cases vs with
            | nil =>
                have htext : itemsText [v] ++ ']' :: rest = serV v ++ ']' :: rest := by
                  rw [itemsText_single]
                obtain ⟨hVtri, hVbad, hVgood⟩ := ihV v (']' :: rest) (stopsV_rbrack rest)
                refine ⟨?_, ?_, ?_⟩
                · rcases hVtri with hs | hn
                  · left
                    rw [parseItems_step2, htext, hs, itemsCont_rbrack]
                  · right
                    rw [parseItems_step2, htext, hn, itemsCont_none]
                · intro hb
                  have hbv : hasUndefField v = true := by
                    have hb2 : (hasUndefField v || hasUndefFieldItems ([] : List JVal)) = true :=
                      hb
                    simp only [Bool.or_eq_true] at hb2
                    rcases hb2 with h2 | h2
                    · exact h2
                    · exact Bool.noConfusion h2
                  rw [parseItems_step2, htext, hVbad hbv, itemsCont_none]
                · intro hnu hsz
                  have hnv : noUndef v = true := by
                    have hn2 : (noUndef v && noUndefItems ([] : List JVal)) = true := hnu
                    simp only [Bool.and_eq_true] at hn2
                    exact hn2.1
                  have hszv : sizeJ v ≤ f := by
                    have h1 : sizeJItems [v] = max (sizeJ v) 0 + 1 := rfl
                    omega
                  rw [parseItems_step2, htext, hVgood hnv hszv, itemsCont_rbrack]
            | cons w ws =>
                have htext : itemsText (v :: w :: ws) ++ ']' :: rest =
                    serV v ++ ',' :: (itemsText (w :: ws) ++ ']' :: rest) := by
                  rw [itemsText_cons]
                  simp only [List.cons_append, List.append_assoc]
                obtain ⟨hVtri, hVbad, hVgood⟩ :=
                  ihV v (',' :: (itemsText (w :: ws) ++ ']' :: rest)) (stopsV_comma _)
                cases hjt2 : itemsText (w :: ws) with
                | nil =>
                    rw [hjt2] at htext hVtri hVbad hVgood
                    simp only [List.nil_append] at htext hVtri hVbad hVgood
                    have hnone : parseItems (f + 1)
                        (itemsText (v :: w :: ws) ++ ']' :: rest) = none := by
                      rw [parseItems_step2, htext]
                      rcases hVtri with hs | hn
                      · rw [hs, itemsCont_comma]
                        exact parseItems_none_of_stop f (']' :: rest) (stopsV_rbrack rest)
                      · rw [hn, itemsCont_none]
                    refine ⟨Or.inr hnone, fun _ => hnone, fun hnu hsz => ?_⟩
                    have hand : (noUndef v && noUndefItems (w :: ws)) = true := hnu
                    simp only [Bool.and_eq_true] at hand
                    exact absurd hjt2
                      (itemsText_ne_nil_of_noUndef (w :: ws) (List.cons_ne_nil _ _) hand.2)
                | cons c2 t2 =>
                    have hlne2 : itemsText (w :: ws) ≠ [] := by
                      rw [hjt2]
                      exact List.cons_ne_nil _ _
                    obtain ⟨hItri, hIbad, hIgood⟩ := ihI (w :: ws) rest hstop hlne2
                    refine ⟨?_, ?_, ?_⟩
                    · rcases hVtri with hs | hn
                      · rw [parseItems_step2, htext, hs, itemsCont_comma]
                        exact hItri
                      · right
                        rw [parseItems_step2, htext, hn, itemsCont_none]
                    · intro hb
                      have hb2 : (hasUndefField v || hasUndefFieldItems (w :: ws)) = true := hb
                      simp only [Bool.or_eq_true] at hb2
                      rcases hb2 with hbv | hbw
                      · rw [parseItems_step2, htext, hVbad hbv, itemsCont_none]
                      · rcases hVtri with hs | hn
                        · rw [parseItems_step2, htext, hs, itemsCont_comma]
                          exact hIbad hbw
                        · rw [parseItems_step2, htext, hn, itemsCont_none]
                    · intro hnu hsz
                      have hand : (noUndef v && noUndefItems (w :: ws)) = true := hnu
                      simp only [Bool.and_eq_true] at hand
                      have hsz2 : sizeJItems (v :: w :: ws) =
                          max (sizeJ v) (sizeJItems (w :: ws)) + 1 := rfl
                      rw [parseItems_step2, htext, hVgood hand.1 (by omega), itemsCont_comma]
                      exact hIgood hand.2 (by omega)
      · -- field lists
        intro kvs rest hstop hne
        cases kvs with
        | nil => exact absurd rfl hne
        | cons kv rest2 =>
            cases kv with
            | mk k v =>
                cases rest2 with
                | nil =>
                    have htext : fieldsText [(k, v)] ++ rbraceC :: rest =
                        '"' :: ((k.data.map escapeChar).flatten ++
                          '"' :: ':' :: (valText v ++ rbraceC :: rest)) := by
                      rw [fieldsText_single, serStr_head]
                      simp only [List.cons_append, List.append_assoc, List.singleton_append,
                        List.nil_append]
                    cases hsv : stableSerCore v with
                    | none =>
                        have hv := stableSerCore_none_eq v hsv
                        have hnone : parseFields (f + 1)
                            (fieldsText [(k, v)] ++ rbraceC :: rest) = none := by
                          rw [htext, parseFields_key, valText_undef v hsv, List.cons_append,
                            parseV_u, fieldsCont_none]
                        refine ⟨Or.inr hnone, fun _ => hnone, fun hnu _ => ?_⟩
                        subst hv
                        exact Bool.noConfusion hnu
                    | some cs =>
                        have hvt := valText_def v cs hsv
                        obtain ⟨hVtri, hVbad, hVgood⟩ := ihV v (rbraceC :: rest)
                          (stopsV_rbrace rest)
                        refine ⟨?_, ?_, ?_⟩
                        · rcases hVtri with hs | hn
                          · left
                            rw [htext, parseFields_key, hvt, hs, fieldsCont_rbrace]
                          · right
                            rw [htext, parseFields_key, hvt, hn, fieldsCont_none]
                        · intro hb
                          have hb2 : (isUndefB v || (hasUndefField v ||
                              hasUndefFieldFields [])) = true := by
                            rw [← hasUFF_cons]
                            exact hb
                          rw [isUndefB_false v (fun hcon => by
                            subst hcon
                            exact Option.noConfusion hsv)] at hb2
                          simp only [Bool.or_eq_true, Bool.false_or] at hb2
                          rcases hb2 with hbv | hbf
                          · rw [htext, parseFields_key, hvt, hVbad hbv, fieldsCont_none]
                          · exact Bool.noConfusion hbf
                        · intro hnu hsz
                          have hand : (noUndef v && noUndefFields []) = true := hnu
                          simp only [Bool.and_eq_true] at hand
                          have hszv : sizeJ v ≤ f := by
                            rw [sizeJFields_cons] at hsz
                            omega
                          rw [htext, parseFields_key, hvt, hVgood hand.1 hszv,
                            fieldsCont_rbrace]
                | cons kv2 rest3 =>
                    have htext : fieldsText ((k, v) :: kv2 :: rest3) ++ rbraceC :: rest =
                        '"' :: ((k.data.map escapeChar).flatten ++ '"' :: ':' ::
                          (valText v ++ ',' ::
                            (fieldsText (kv2 :: rest3) ++ rbraceC :: rest))) := by
                      rw [fieldsText_cons, serStr_head]
                      simp only [List.cons_append, List.append_assoc, List.singleton_append,
                        List.nil_append]
                    have hne3 : kv2 :: rest3 ≠ [] := List.cons_ne_nil _ _
                    obtain ⟨hFtri, hFbad, hFgood⟩ := ihF (kv2 :: rest3) rest hstop hne3
                    cases hsv : stableSerCore v with
                    | none =>
                        have hv := stableSerCore_none_eq v hsv
                        have hnone : parseFields (f + 1)
                            (fieldsText ((k, v) :: kv2 :: rest3) ++ rbraceC :: rest) = none := by
                          rw [htext, parseFields_key, valText_undef v hsv, List.cons_append,
                            parseV_u, fieldsCont_none]
                        refine ⟨Or.inr hnone, fun _ => hnone, fun hnu _ => ?_⟩
                        subst hv
                        exact Bool.noConfusion hnu
                    | some cs =>
                        have hvt := valText_def v cs hsv
                        obtain ⟨hVtri, hVbad, hVgood⟩ := ihV v
                          (',' :: (fieldsText (kv2 :: rest3) ++ rbraceC :: rest))
                          (stopsV_comma _)
                        refine ⟨?_, ?_, ?_⟩
                        · rcases hVtri with hs | hn
                          · rw [htext, parseFields_key, hvt, hs, fieldsCont_comma]
                            exact hFtri
                          · right
                            rw [htext, parseFields_key, hvt, hn, fieldsCont_none]
                        · intro hb
                          have hb2 : (isUndefB v || (hasUndefField v ||
                              hasUndefFieldFields (kv2 :: rest3))) = true := by
                            rw [← hasUFF_cons]
                            exact hb
                          rw [isUndefB_false v (fun hcon => by
                            subst hcon
                            exact Option.noConfusion hsv)] at hb2
                          simp only [Bool.or_eq_true, Bool.false_or] at hb2
                          rcases hb2 with hbv | hbf
                          · rw [htext, parseFields_key, hvt, hVbad hbv, fieldsCont_none]
                          · rcases hVtri with hs | hn
                            · rw [htext, parseFields_key, hvt, hs, fieldsCont_comma]
                              exact hFbad hbf
                            · rw [htext, parseFields_key, hvt, hn, fieldsCont_none]
                        · intro hnu hsz
                          have hand : (noUndef v && noUndefFields (kv2 :: rest3)) = true := hnu
                          simp only [Bool.and_eq_true] at hand
                          rw [sizeJFields_cons] at hsz
                          rw [htext, parseFields_key, hvt, hVgood hand.1 (by omega),
                            fieldsCont_comma]
                          exact hFgood hand.2 (by omega)

theorem stableSerCore_some_of_noUndef (v : JVal) (h : noUndef v = true) :
    ∃ cs, stableSerCore v = some cs := by
  cases v with
  | jundef => exact Bool.noConfusion h
  | jbool b => cases b <;> exact ⟨_, rfl⟩
  | _ => exact ⟨_, rfl⟩

theorem noUndefItems_mem (l : List JVal) (h : noUndefItems l = true) :
    ∀ v ∈ l, noUndef v = true := by
  induction l with
  | nil => intro v hv; exact absurd hv (List.not_mem_nil v)
  | cons w ws ih =>
      have h2 : (noUndef w && noUndefItems ws) = true := h
      simp only [Bool.and_eq_true] at h2
      intro v hv
      rcases List.mem_cons.mp hv with h3 | h3
      · subst h3; exact h2.1
      · exact ih h2.2 v h3

theorem noUndefFields_mem (l : List (String × JVal)) (h : noUndefFields l = true) :
    ∀ kv ∈ l, noUndef kv.2 = true := by
  induction l with
  | nil => intro kv hkv; exact absurd hkv (List.not_mem_nil kv)
  | cons w ws ih =>
      cases w with
      | mk k v =>
          rw [noUndefFields_cons] at h
          simp only [Bool.and_eq_true] at h
          intro kv hkv
          rcases List.mem_cons.mp hkv with h3 | h3
          · subst h3; exact h.1
          · exact ih h.2 kv h3

theorem sizeJ_mem_items (l : List JVal) (v : JVal) (h : v ∈ l) : sizeJ v ≤ sizeJItems l := by
  induction l with
  | nil => exact absurd h (List.not_mem_nil v)
  | cons w ws ih =>
      have h1 : sizeJItems (w :: ws) = max (sizeJ w) (sizeJItems ws) + 1 := rfl
      rcases List.mem_cons.mp h with h2 | h2
      · subst h2
        rw [h1]
        exact le_trans (le_max_left _ _) (Nat.le_succ _)
      · rw [h1]
        exact le_trans (ih h2) (le_trans (le_max_right _ _) (Nat.le_succ _))

theorem sizeJ_mem_fields (l : List (String × JVal)) (kv : String × JVal) (h : kv ∈ l) :
    sizeJ kv.2 ≤ sizeJFields l := by
  induction l with
  | nil => exact absurd h (List.not_mem_nil kv)
  | cons w ws ih =>
      cases w with
      | mk k v =>
          rw [sizeJFields_cons]
          rcases List.mem_cons.mp h with h2 | h2
          · subst h2
            dsimp only
            omega
          · have := ih h2
            omega

theorem mem_insertKV (a x : String × JVal) (l : List (String × JVal)) :
    a ∈ insertKV x l ↔ a = x ∨ a ∈ l := by
  induction l with
  | nil => simp [insertKV]
  | cons y ys ih =>
      unfold insertKV
      by_cases h : strLtB x.1 y.1
      · rw [if_pos h]
        simp only [List.mem_cons]
      · rw [if_neg h]
        simp only [List.mem_cons, ih]
        tauto

theorem mem_sortKV (a : String × JVal) (l : List (String × JVal)) :
    a ∈ sortKV l ↔ a ∈ l := by
  induction l with
  | nil => exact Iff.rfl
  | cons x xs ih =>
      unfold sortKV
      rw [mem_insertKV]
      simp only [List.mem_cons, ih]

theorem serStr_len (k : String) : (serStr k).length = (k.data.map escapeChar).flatten.length + 2 := by
  rw [serStr_head]
  simp

theorem sizeJItems_le (l : List JVal)
    (hpt : ∀ v ∈ l, noUndef v = true → sizeJ v ≤ (serV v).length + 1)
    (hnu : noUndefItems l = true) :
    sizeJItems l ≤ (itemsText l).length + 2 := by
  induction l with
  | nil =>
      rw [itemsText_nil]
      have h0 : sizeJItems [] = 0 := rfl
      omega
  | cons v vs ihl =>
      have hx : (noUndef v && noUndefItems vs) = true := hnu
      simp only [Bool.and_eq_true] at hx
      have hv := hpt v (List.mem_cons_self v vs) hx.1
      cases vs with
      | nil =>
          rw [itemsText_single]
          have h1 : sizeJItems [v] = max (sizeJ v) 0 + 1 := rfl
          rw [h1, Nat.max_zero]
          omega
      | cons w ws =>
          rw [itemsText_cons]
          have hvs := ihl (fun u hu hnuu => hpt u (List.mem_cons_of_mem _ hu) hnuu) hx.2
          have h1 : sizeJItems (v :: w :: ws) = max (sizeJ v) (sizeJItems (w :: ws)) + 1 := rfl
          rw [h1]
          simp only [List.length_append, List.length_cons]
          have hC : max (sizeJ v) (sizeJItems (w :: ws)) ≤
              max ((serV v).length + 1) ((itemsText (w :: ws)).length + 2) :=
            max_le_max hv hvs
          have hE : max ((serV v).length + 1) ((itemsText (w :: ws)).length + 2) ≤
              (serV v).length + (itemsText (w :: ws)).length + 2 :=
            max_le (by omega) (by omega)
          omega

theorem sizeJFields_le (kvs : List (String × JVal))
    (hpt : ∀ kv ∈ kvs, noUndef kv.2 = true → sizeJ kv.2 ≤ (serV kv.2).length + 1)
    (hnu : noUndefFields kvs = true) :
    sizeJFields kvs ≤ (fieldsText kvs).length + 2 := by
  induction kvs with
  | nil =>
      have h0 : sizeJFields [] = 0 := rfl
      omega
  | cons kv rest ihl =>
      cases kv with
      | mk k v =>
          rw [noUndefFields_cons] at hnu
          simp only [Bool.and_eq_true] at hnu
          have hv := hpt (k, v) (List.mem_cons_self _ _) hnu.1
          dsimp only at hv
          obtain ⟨cs, hsv⟩ := stableSerCore_some_of_noUndef v hnu.1
          have hvt := valText_def v cs hsv
          rw [sizeJFields_cons]
          cases rest with
          | nil =>
              rw [fieldsText_single, hvt]
              simp only [List.length_append, List.length_cons, serStr_len]
              have h0 : sizeJFields ([] : List (String × JVal)) = 0 := rfl
              omega
          | cons kv2 rest2 =>
              have hrest := ihl (fun u hu hnuu => hpt u (List.mem_cons_of_mem _ hu) hnuu) hnu.2
              rw [fieldsText_cons, hvt]
              simp only [List.length_append, List.length_cons, serStr_len]
              omega

theorem sizeJ_le_serV : ∀ (n : Nat) (v : JVal), sizeJ v ≤ n → noUndef v = true →
    sizeJ v ≤ (serV v).length + 1 := by
  intro n
  induction n with
  | zero =>
      intro v h _
      have := sizeJ_pos v
      omega
  | succ n ih =>
      intro v hsz hnu
      cases v with
      | jnull => decide
      | jundef => exact Bool.noConfusion hnu
      | jbool b => cases b <;> decide
      | jnum m =>
          have h1 : sizeJ (JVal.jnum m) = 1 := rfl
          omega
      | jstr s =>
          have h1 : sizeJ (JVal.jstr s) = 1 := rfl
          omega
      | jarr l =>
          have h1 : sizeJ (JVal.jarr l) = 1 + sizeJItems l := rfl
          have hlen : (serV (JVal.jarr l)).length = (itemsText l).length + 2 := by
            rw [serV_jarr]
            simp
          have hpt : ∀ u ∈ l, noUndef u = true → sizeJ u ≤ (serV u).length + 1 := by
            intro u hu hnuu
            refine ih u ?_ hnuu
            have := sizeJ_mem_items l u hu
            omega
          have hres := sizeJItems_le l hpt hnu
          omega
      | jobj kvs =>
          have h1 : sizeJ (JVal.jobj kvs) = 1 + sizeJFields kvs := rfl
          have hlen : (serV (JVal.jobj kvs)).length = (fieldsText (sortKV kvs)).length + 2 := by
            rw [serV_jobj]
            simp
          have hnu2 : noUndefFields (sortKV kvs) = true := by
            rw [noUndefFields_sortKV]
            exact hnu
          have hpt : ∀ kv ∈ sortKV kvs, noUndef kv.2 = true →
              sizeJ kv.2 ≤ (serV kv.2).length + 1 := by
            intro kv hkv hnuu
            refine ih kv.2 ?_ hnuu
            have h2 := sizeJ_mem_fields kvs kv ((mem_sortKV kv kvs).mp hkv)
            omega
          have hres := sizeJFields_le (sortKV kvs) hpt hnu2
          rw [sizeJFields_sortKV] at hres
          omega

theorem isPrefixListB_iff (p s : List Char) : isPrefixListB p s = true ↔ p <+: s := by
  induction p generalizing s with
  | nil => simp [isPrefixListB]
  | cons c cs ih =>
      cases s with
      | nil => simp [isPrefixListB]
      | cons d ds =>
          rw [show isPrefixListB (c :: cs) (d :: ds) = (c == d && isPrefixListB cs ds) from rfl]
          simp only [Bool.and_eq_true, beq_iff_eq, ih, List.cons_prefix_cons]

theorem isSubListB_iff (p s : List Char) : isSubListB p s = true ↔ p <:+: s := by
  induction s with
  | nil =>
      rw [show isSubListB p [] = p.isEmpty from rfl]
      simp [List.isEmpty_iff, List.infix_nil]
  | cons c cs ih =>
      rw [show isSubListB p (c :: cs) = (isPrefixListB p (c :: cs) || isSubListB p cs) from rfl]
      simp only [Bool.or_eq_true, isPrefixListB_iff, ih, List.infix_cons_iff]

theorem mem_joinComma_infix (p : List Char) (parts : List (List Char)) (h : p ∈ parts) :
    p <:+: joinComma parts := by
  induction parts with
  | nil => exact absurd h (List.not_mem_nil p)
  | cons q qs ih =>
      rcases List.mem_cons.mp h with h2 | h2
      · subst h2
        cases qs with
        | nil => exact List.infix_refl _
        | cons r rs =>
            rw [joinComma_cons2]
            exact (List.prefix_append p _).isInfix
      · cases qs with
        | nil => exact absurd h2 (List.not_mem_nil p)
        | cons r rs =>
            rw [joinComma_cons2]
            refine (ih h2).trans ?_
            exact ((List.suffix_cons ',' _).trans (List.suffix_append q _)).isInfix

theorem stable_emits_undef (fields : List (String × JVal)) (k : String)
    (h : (k, JVal.jundef) ∈ fields) :
    containsB (stableStringify (JVal.jobj fields))
      ⟨serStr k ++ ':' :: ['u', 'n', 'd', 'e', 'f', 'i', 'n', 'e', 'd']⟩ = true := by
  unfold containsB
  rw [show (⟨serStr k ++ ':' :: ['u', 'n', 'd', 'e', 'f', 'i', 'n', 'e', 'd']⟩ : String).data =
    serStr k ++ ':' :: ['u', 'n', 'd', 'e', 'f', 'i', 'n', 'e', 'd'] from rfl]
  rw [show (stableStringify (JVal.jobj fields)).data = serV (JVal.jobj fields) from rfl]
  rw [isSubListB_iff]
  have hmem1 : (k, JVal.jundef) ∈ sortKV fields := (mem_sortKV _ _).mpr h
  have hmem2 : (k, valText JVal.jundef) ∈ stableFieldParts (sortKV fields) := by
    rw [stableFieldParts_eq_map]
    exact List.mem_map_of_mem (fun kv => (kv.1, valText kv.2)) hmem1
  have hmem3 : serStr k ++ ':' :: ['u', 'n', 'd', 'e', 'f', 'i', 'n', 'e', 'd'] ∈
      (stableFieldParts (sortKV fields)).map (fun kv => serStr kv.1 ++ ':' :: kv.2) := by
    have := List.mem_map_of_mem (fun kv : String × List Char => serStr kv.1 ++ ':' :: kv.2) hmem2
    exact this
  have hinf : (serStr k ++ ':' :: ['u', 'n', 'd', 'e', 'f', 'i', 'n', 'e', 'd']) <:+:
      fieldsText (sortKV fields) := mem_joinComma_infix _ _ hmem3
  rw [serV_jobj]
  have h4 : fieldsText (sortKV fields) <:+: fieldsText (sortKV fields) ++ [rbraceC] :=
    (List.prefix_append _ _).isInfix
  have h5 : (fieldsText (sortKV fields) ++ [rbraceC]) <:+:
      lbraceC :: (fieldsText (sortKV fields) ++ [rbraceC]) :=
    (List.suffix_cons lbraceC _).isInfix
  exact (hinf.trans h4).trans h5

theorem hasUFF_of_mem (fields : List (String × JVal)) (k : String)
    (h : (k, JVal.jundef) ∈ fields) : hasUndefFieldFields fields = true := by
  induction fields with
  | nil => exact absurd h (List.not_mem_nil _)
  | cons kv rest ih =>
      cases kv with
      | mk k2 v2 =>
          rw [hasUFF_cons]
          rcases List.mem_cons.mp h with h2 | h2
          · have hv : JVal.jundef = v2 := congrArg Prod.snd h2
            rw [← hv]
            rfl
          · rw [ih h2]
            simp

theorem jsonOk_noUndef (v : JVal) (h : noUndef v = true) :
    jsonOk (stableStringify v) = true := by
  have hgood := ((parse_stable_main ((serV v).length + 1)).1 v [] rfl).2.2 h
    (sizeJ_le_serV (sizeJ v) v (le_refl _) h)
  rw [List.append_nil] at hgood
  show (match parseV ((serV v).length + 1) (serV v) with
    | some [] => true
    | _ => false) = true
  rw [hgood]

theorem jsonOk_undef_field (fields : List (String × JVal)) (k : String)
    (h : (k, JVal.jundef) ∈ fields) :
    jsonOk (stableStringify (JVal.jobj fields)) = false := by
  have hbad : hasUndefField (JVal.jobj fields) = true := hasUFF_of_mem fields k h
  have hnone := ((parse_stable_main ((serV (JVal.jobj fields)).length + 1)).1
    (JVal.jobj fields) [] rfl).2.1 hbad
  rw [List.append_nil] at hnone
  show (match parseV ((serV (JVal.jobj fields)).length + 1) (serV (JVal.jobj fields)) with
    | some [] => true
    | _ => false) = false
  rw [hnone]

theorem jsSerFieldParts_cons_undef (k : String) (rest : List (String × JVal)) :
    jsSerFieldParts ((k, JVal.jundef) :: rest) = jsSerFieldParts rest := rfl

theorem jsSerFieldParts_cons_def (k : String) (v : JVal) (rest : List (String × JVal))
    (h : isUndefB v = false) :
    jsSerFieldParts ((k, v) :: rest) = (serStr k ++ ':' :: jsSer v) :: jsSerFieldParts rest := by
  cases v with
  | jundef => exact Bool.noConfusion h
  | _ => rfl

theorem jsSerFieldParts_filter (fields : List (String × JVal)) :
    jsSerFieldParts fields = jsSerFieldParts (fields.filter (fun kv => !isUndefB kv.2)) := by
  induction fields with
  | nil => rfl
  | cons kv rest ih =>
      cases kv with
      | mk k v =>
          by_cases hv : isUndefB v = true
          · have hvu : v = JVal.jundef := by
              cases v with
              | jundef => rfl
              | jbool b => cases b <;> exact Bool.noConfusion hv
              | _ => exact Bool.noConfusion hv
            subst hvu
            rw [jsSerFieldParts_cons_undef]
            rw [show List.filter (fun kv => !isUndefB kv.2) ((k, JVal.jundef) :: rest) =
              List.filter (fun kv => !isUndefB kv.2) rest from by
                simp [List.filter_cons, isUndefB]]
            exact ih
          · have hv2 : isUndefB v = false := by
              revert hv
              cases isUndefB v <;> simp
            rw [jsSerFieldParts_cons_def k v rest hv2]
            rw [show List.filter (fun kv => !isUndefB kv.2) ((k, v) :: rest) =
              (k, v) :: List.filter (fun kv => !isUndefB kv.2) rest from by
                simp [List.filter_cons, hv2]]
            rw [jsSerFieldParts_cons_def k v _ hv2]
            rw [ih]

/-- **C10**: for any object with a field whose value is the JS `undefined`,
`stableStringify` emits the bare token `undefined` for that field (the part
`"key":undefined` occurs in the output), the resulting canonical text is not
parseable JSON, and `JSON.stringify` by contrast omits exactly the
`undefined`-valued fields; on any value containing no `undefined`,
`stableStringify` produces parseable (whitespace-free, key-sorted) JSON. -/
theorem stableStringify_undefined_spec :
    (∀ (fields : List (String × JVal)) (k : String), (k, JVal.jundef) ∈ fields →
      containsB (stableStringify (JVal.jobj fields))
        ⟨serStr k ++ ':' :: ['u', 'n', 'd', 'e', 'f', 'i', 'n', 'e', 'd']⟩ = true ∧
      jsonOk (stableStringify (JVal.jobj fields)) = false ∧
      jsSerFieldParts fields =
        jsSerFieldParts (fields.filter (fun kv => !isUndefB kv.2))) ∧
    (∀ v : JVal, noUndef v = true → jsonOk (stableStringify v) = true) :=
  ⟨fun fields k hmem =>
    ⟨stable_emits_undef fields k hmem, jsonOk_undef_field fields k hmem,
      jsSerFieldParts_filter fields⟩,
   jsonOk_noUndef⟩

/-- Closed instance of C10 at `\x7ba: undefined\x7d` and at `\x7bb: 1\x7d`. -/
theorem stableStringify_undefined_spec_witness :
    (("a", JVal.jundef) ∈ [("a", JVal.jundef)] ∧
      containsB (stableStringify (JVal.jobj [("a", JVal.jundef)]))
        ⟨serStr "a" ++ ':' :: ['u', 'n', 'd', 'e', 'f', 'i', 'n', 'e', 'd']⟩ = true ∧
      jsonOk (stableStringify (JVal.jobj [("a", JVal.jundef)])) = false) ∧
    (noUndef (JVal.jobj [("b", JVal.jnum 1)]) = true ∧
      jsonOk (stableStringify (JVal.jobj [("b", JVal.jnum 1)])) = true) := by
  have hmem : ("a", JVal.jundef) ∈ [("a", JVal.jundef)] := List.mem_singleton.mpr rfl
  have h1 := stableStringify_undefined_spec.1 [("a", JVal.jundef)] "a" hmem
  have h2 := stableStringify_undefined_spec.2 (JVal.jobj [("b", JVal.jnum 1)]) (by decide)
  exact ⟨⟨hmem, h1.1, h1.2.1⟩, by decide, h2⟩
